import Mathlib

/-!
Mailfile: a verification development

A shallow embedding, in Lean 4, of the core of the `mailfile` Python library
(`mailfile/__init__.py`): the object codec (`encode_object` /
`_parse_message`), path and metadata normalization (`_clean_path`,
`_clean_metadata`), and the synchronization engine (`synchronize`,
`_parse_snapshot`), together with `open` and `remove`.

Modelling conventions:
* Python byte strings (`str` in Python 2) are `List Nat` of byte values.
* Python dictionaries with string keys and JSON-serializable values are
  association lists `PyDict` with Python's update/delete semantics
  (`dset` replaces in place or appends; `ddel` removes).  Dictionary
  equality (Python `==`) is content equality, `deq`.
* JSON values occurring in metadata are modelled by the flat `JVal`
  (null, bool, int, byte string), which covers everything this library
  itself stores in metadata headers.
* The IMAP server is an oracle: fetching and header-parsing a sequence
  number either yields a metadata dictionary or fails ("broken").
* Fernet encryption is an abstract pair of functions with a round-trip
  property; the standard-library pieces (`base64`, `json.dumps(indent=1)`
  under Python 2.7's `(', ', ': ')` separators, `str.strip`, `str.replace`,
  the `re.sub` line reflow on whitespace-free input) are implemented
  concretely on byte lists, following their documented behaviour.
-/

set_option maxRecDepth 10000

namespace Mailfile

/-! ## Byte-string utilities -/

/-- Python whitespace bytes, as recognized by `str.strip()` and `str.split()`. -/
def isWS (b : Nat) : Bool :=
  b == 32 || b == 9 || b == 10 || b == 13 || b == 11 || b == 12

/-- `str.strip()`: drop whitespace from both ends of a byte string. -/
def pyStrip (s : List Nat) : List Nat :=
  ((s.dropWhile isWS).reverse.dropWhile isWS).reverse

/-- Remove every whitespace byte (the effect of `''.join(s.split())` on a
string, and of `binascii`'s tolerance for whitespace inside base64 input). -/
def deWS (s : List Nat) : List Nat := s.filter (fun b => !isWS b)

/-- A byte string containing no whitespace byte. -/
def wsFree (s : List Nat) : Prop := ∀ b ∈ s, isWS b = false

theorem deWS_eq_self {s : List Nat} (h : wsFree s) : deWS s = s := by
  induction s with
  | nil => rfl
  | cons a t ih =>
      have ha := h a (by simp)
      have ht : wsFree t := fun b hb => h b (by simp [hb])
      simp [deWS] at ih ⊢
      exact ⟨ha, ih ht⟩

theorem wsFree_append {s t : List Nat} (hs : wsFree s) (ht : wsFree t) :
    wsFree (s ++ t) := by
  intro b hb
  rcases List.mem_append.mp hb with h | h
  · exact hs b h
  · exact ht b h

/-! ## JSON values and Python dictionaries -/

/-- A flat JSON value, covering everything the library stores in metadata
dictionaries: `null`, booleans, integers and (byte) strings. -/
inductive JVal where
  | jnull : JVal
  | jbool : Bool → JVal
  | jint : Int → JVal
  | jstr : List Nat → JVal
deriving DecidableEq, Repr

/-- A Python dictionary with string keys: an association list; the
operations below keep keys unique and preserve insertion order, the way
CPython dict updates do. -/
abbrev PyDict := List (List Nat × JVal)

/-- `d.get(k)`: first binding of `k`. -/
def dget (d : PyDict) (k : List Nat) : Option JVal :=
  match d with
  | [] => none
  | (k0, v0) :: t => if k0 = k then some v0 else dget t k

/-- `d[k] = v`: replace the binding in place if present, else append. -/
def dset (d : PyDict) (k : List Nat) (v : JVal) : PyDict :=
  match d with
  | [] => [(k, v)]
  | (k0, v0) :: t => if k0 = k then (k, v) :: t else (k0, v0) :: dset t k v

/-- `del d[k]` for a key occurring at most once (the only way the library
uses it). -/
def ddel (d : PyDict) (k : List Nat) : PyDict :=
  match d with
  | [] => []
  | (k0, v0) :: t => if k0 = k then t else (k0, v0) :: ddel t k

/-- `k in d`. -/
def dmem (d : PyDict) (k : List Nat) : Bool := (dget d k).isSome

/-- `a.update(b)`: apply every binding of `b` to `a`, in order. -/
def dupdate (a b : PyDict) : PyDict := b.foldl (fun acc kv => dset acc kv.1 kv.2) a

/-- Python dictionary equality (`==`): same value (or absence) at every key
of either side. -/
def deq (a b : PyDict) : Bool :=
  a.all (fun kv => dget a kv.1 == dget b kv.1) &&
  b.all (fun kv => dget a kv.1 == dget b kv.1)

/-- The keys of a dictionary, in order. -/
def dkeys (d : PyDict) : List (List Nat) := d.map (·.1)

@[simp] theorem dkeys_nil : dkeys [] = [] := rfl

@[simp] theorem dkeys_cons (k0 : List Nat) (v0 : JVal) (t : PyDict) :
    dkeys ((k0, v0) :: t) = k0 :: dkeys t := rfl

/-- A key that does not occur looks up to `none`. -/
theorem dget_eq_none_of_not_mem (d : PyDict) (k : List Nat)
    (h : k ∉ dkeys d) : dget d k = none := by
  induction d with
  | nil => rfl
  | cons kv t ih =>
      obtain ⟨k0, v0⟩ := kv
      have h1 : ¬ k0 = k := fun hh => h (by simp [hh])
      have h2 : k ∉ dkeys t := fun hh => h (by simp [hh])
      simp [dget, h1, ih h2]

theorem dget_dset (d : PyDict) (k : List Nat) (v : JVal) (k' : List Nat) :
    dget (dset d k v) k' = if k' = k then some v else dget d k' := by
  induction d with
  | nil =>
      by_cases h : k' = k
      · subst h; simp [dset, dget]
      · have h2 : ¬ k = k' := fun hh => h hh.symm
        simp [dset, dget, h, h2]
  | cons kv t ih =>
      obtain ⟨k0, v0⟩ := kv
      by_cases h0 : k0 = k
      · subst h0
        by_cases h : k0 = k'
        · subst h; simp [dset, dget]
        · have h2 : ¬ k' = k0 := fun hh => h hh.symm
          simp [dset, dget, h, h2]
      · by_cases h : k0 = k'
        · subst h
          simp [dset, dget, h0]
        · simp [dset, dget, h0, h, ih]

theorem dget_ddel (d : PyDict) (k : List Nat) (k' : List Nat)
    (hnd : (dkeys d).Nodup) :
    dget (ddel d k) k' = if k' = k then none else dget d k' := by
  induction d with
  | nil => by_cases h : k' = k <;> simp [ddel, dget, h]
  | cons kv t ih =>
      obtain ⟨k0, v0⟩ := kv
      rw [dkeys_cons, List.nodup_cons] at hnd
      obtain ⟨hk0, hnd'⟩ := hnd
      by_cases h0 : k0 = k
      · subst h0
        by_cases h : k' = k0
        · subst h
          simp [ddel, dget_eq_none_of_not_mem t k' hk0]
        · have h2 : ¬ k0 = k' := fun hh => h hh.symm
          simp [ddel, dget, h, h2]
      · by_cases h : k0 = k'
        · subst h
          have h2 : ¬ k0 = k := h0
          simp [ddel, dget, h2]
        · simp [ddel, dget, h0, h, ih hnd']

/-- String literals as byte lists (all literals used here are ASCII). -/
def bs (s : String) : List Nat := s.toList.map Char.toNat

/-! ## `_clean_path`

Python source:
```
def _clean_path(path):
    while path[:1] == '/':
        path = path[1:]
    while path[-1:] == '/':
        path = path[:-1]
    return path.replace('//', '/')
```
-/

/-- `while path[:1] == '/': path = path[1:]`. -/
def dropLeadingSlashes (s : List Nat) : List Nat := s.dropWhile (· = 47)

/-- `while path[-1:] == '/': path = path[:-1]`. -/
def dropTrailingSlashes (s : List Nat) : List Nat :=
  (s.reverse.dropWhile (· = 47)).reverse

/-- Python `str.replace('//', '/')`: one left-to-right pass over the string
replacing each non-overlapping occurrence of two slashes by one. -/
def replaceDoubleSlash : List Nat → List Nat
  | [] => []
  | [c] => [c]
  | a :: b :: rest =>
      if a = 47 ∧ b = 47 then 47 :: replaceDoubleSlash rest
      else a :: replaceDoubleSlash (b :: rest)

/-- `_clean_path`. -/
def clean_path (p : List Nat) : List Nat :=
  replaceDoubleSlash (dropTrailingSlashes (dropLeadingSlashes p))

/-- Modelled from the spec's words ("leading/trailing slashes trimmed,
consecutive slashes collapsed"): full collapse of every slash run to a
single slash, after trimming.  Used only to compare `clean_path` against
the specification. -/
def collapseSlashRuns : List Nat → List Nat
  | [] => []
  | [c] => [c]
  | a :: b :: rest =>
      if a = 47 ∧ b = 47 then collapseSlashRuns (b :: rest)
      else a :: collapseSlashRuns (b :: rest)

/-- The path normalization described by the spec sentence behind C8. -/
def spec_normalize_path (p : List Nat) : List Nat :=
  collapseSlashRuns (dropTrailingSlashes (dropLeadingSlashes p))

/-- No run of three consecutive slashes occurs in the string. -/
def NoTripleSlash (s : List Nat) : Prop := ¬ ([47, 47, 47] <:+: s)

instance (s : List Nat) : Decidable (NoTripleSlash s) := by
  unfold NoTripleSlash; infer_instance

theorem noTripleSlash_of_tail {a : Nat} {l : List Nat}
    (h : NoTripleSlash (a :: l)) : NoTripleSlash l :=
  fun hi => h (hi.trans (List.suffix_cons a l).isInfix)

theorem noTripleSlash_of_suffix {l l' : List Nat} (hs : l' <:+ l)
    (h : NoTripleSlash l) : NoTripleSlash l' :=
  fun hi => h (hi.trans hs.isInfix)

theorem noTripleSlash_reverse {l : List Nat} (h : NoTripleSlash l) :
    NoTripleSlash l.reverse := by
  intro hi
  apply h
  have : [(47 : Nat), 47, 47].reverse <:+: l.reverse.reverse :=
    List.reverse_infix.mpr (by simpa using hi)
  simpa using this

/-- On strings with no triple-slash run, the single `replace('//','/')`
pass agrees with full run collapsing. -/
theorem replaceDoubleSlash_eq_collapse :
    ∀ (l : List Nat), NoTripleSlash l →
      replaceDoubleSlash l = collapseSlashRuns l
  | [], _ => rfl
  | [c], _ => rfl
  | a :: b :: rest, h => by
      by_cases hab : a = 47 ∧ b = 47
      · obtain ⟨ha, hb⟩ := hab
        subst ha; subst hb
        rw [replaceDoubleSlash, collapseSlashRuns, if_pos ⟨rfl, rfl⟩,
          if_pos ⟨rfl, rfl⟩]
        cases rest with
        | nil => rfl
        | cons c r =>
            have hc : ¬ c = 47 := by
              intro hc; subst hc
              exact h ⟨[], r, by simp⟩
            have h' : NoTripleSlash (c :: r) :=
              noTripleSlash_of_tail (noTripleSlash_of_tail h)
            rw [collapseSlashRuns, if_neg (fun hh => hc hh.2)]
            rw [replaceDoubleSlash_eq_collapse (c :: r) h']
      · rw [replaceDoubleSlash, collapseSlashRuns, if_neg hab, if_neg hab]
        rw [replaceDoubleSlash_eq_collapse (b :: rest) (noTripleSlash_of_tail h)]

/-! ## `_clean_metadata`

Python source:
```
def _clean_metadata(metadata):
    for k in ('_', 'fn'):
        if k in metadata:
            del metadata[k]
    return metadata
```
-/

/-- `_clean_metadata`: drop the `_` and `fn` keys. -/
def clean_metadata (m : PyDict) : PyDict := ddel (ddel m (bs "_")) (bs "fn")

/-! ## base64 (Python 2 `base64.b64encode` / `base64.b64decode`)

`binascii.a2b_base64`, which backs `b64decode`, skips characters outside
the base64 alphabet (in particular the CRLF and space bytes that message
reflowing inserts); `b64decode` below therefore filters first. -/

/-- A list of byte values. -/
def IsBytes (l : List Nat) : Prop := ∀ b ∈ l, b < 256

/-- The base64 alphabet, index to character. -/
def b64tbl (k : Nat) : Nat :=
  if k < 26 then 65 + k
  else if k < 52 then 97 + (k - 26)
  else if k < 62 then 48 + (k - 52)
  else if k = 62 then 43
  else 47

/-- The base64 alphabet, character to index. -/
def b64untbl (c : Nat) : Nat :=
  if 65 ≤ c ∧ c ≤ 90 then c - 65
  else if 97 ≤ c ∧ c ≤ 122 then c - 97 + 26
  else if 48 ≤ c ∧ c ≤ 57 then c - 48 + 52
  else if c = 43 then 62
  else 63

/-- Characters of the base64 alphabet, including the `=` pad. -/
def isB64Char (c : Nat) : Bool :=
  (65 ≤ c && c ≤ 90) || (97 ≤ c && c ≤ 122) || (48 ≤ c && c ≤ 57) ||
  c == 43 || c == 47 || c == 61

theorem b64untbl_b64tbl : ∀ k < 64, b64untbl (b64tbl k) = k := by decide

theorem b64tbl_ne_eq : ∀ k < 64, b64tbl k ≠ 61 := by decide

theorem b64tbl_props : ∀ k < 64,
    isB64Char (b64tbl k) = true ∧ isWS (b64tbl k) = false ∧ b64tbl k ≠ 33 := by
  decide

/-- `base64.b64encode`. -/
def b64encode : List Nat → List Nat
  | [] => []
  | [a] => [b64tbl (a / 4), b64tbl (a % 4 * 16), 61, 61]
  | [a, b] => [b64tbl (a / 4), b64tbl (a % 4 * 16 + b / 16), b64tbl (b % 16 * 4), 61]
  | a :: b :: c :: rest =>
      b64tbl (a / 4) :: b64tbl (a % 4 * 16 + b / 16) ::
      b64tbl (b % 16 * 4 + c / 64) :: b64tbl (c % 64) :: b64encode rest

/-- Quartet-wise base64 decoding of an alphabet-only string. -/
def b64decodeCore : List Nat → List Nat
  | w :: x :: y :: z :: rest =>
      if z = 61 then
        if y = 61 then [b64untbl w * 4 + b64untbl x / 16]
        else [b64untbl w * 4 + b64untbl x / 16,
              b64untbl x % 16 * 16 + b64untbl y / 4]
      else
        (b64untbl w * 4 + b64untbl x / 16) ::
        (b64untbl x % 16 * 16 + b64untbl y / 4) ::
        (b64untbl y % 4 * 64 + b64untbl z) :: b64decodeCore rest
  | _ => []

/-- `base64.b64decode`: skip non-alphabet bytes, then decode quartets. -/
def b64decode (s : List Nat) : List Nat := b64decodeCore (s.filter isB64Char)

theorem b64decodeCore_b64encode :
    ∀ (l : List Nat), IsBytes l → b64decodeCore (b64encode l) = l
  | [], _ => rfl
  | [a], h => by
      have ha : a < 256 := h a (by simp)
      have h1 := b64untbl_b64tbl (a / 4) (by omega)
      have h2 := b64untbl_b64tbl (a % 4 * 16) (by omega)
      simp [b64encode, b64decodeCore, h1, h2]
      omega
  | [a, b], h => by
      have ha : a < 256 := h a (by simp)
      have hb : b < 256 := h b (by simp)
      have h1 := b64untbl_b64tbl (a / 4) (by omega)
      have h2 := b64untbl_b64tbl (a % 4 * 16 + b / 16) (by omega)
      have h3 := b64untbl_b64tbl (b % 16 * 4) (by omega)
      have hne := b64tbl_ne_eq (b % 16 * 4) (by omega)
      simp [b64encode, b64decodeCore, hne, h1, h2, h3]
      omega
  | a :: b :: c :: rest, h => by
      have ha : a < 256 := h a (by simp)
      have hb : b < 256 := h b (by simp)
      have hc : c < 256 := h c (by simp)
      have h1 := b64untbl_b64tbl (a / 4) (by omega)
      have h2 := b64untbl_b64tbl (a % 4 * 16 + b / 16) (by omega)
      have h3 := b64untbl_b64tbl (b % 16 * 4 + c / 64) (by omega)
      have h4 := b64untbl_b64tbl (c % 64) (by omega)
      have hne := b64tbl_ne_eq (c % 64) (by omega)
      have ih := b64decodeCore_b64encode rest
        (fun x hx => h x (by simp [hx]))
      simp [b64encode, b64decodeCore, hne, h1, h2, h3, h4, ih]
      omega

/-- Every byte of a base64 encoding is in the alphabet. -/
theorem b64encode_mem :
    ∀ (l : List Nat), IsBytes l → ∀ c ∈ b64encode l,
      (∃ k, k < 64 ∧ c = b64tbl k) ∨ c = 61
  | [], _ => by simp [b64encode]
  | [a], h => by
      have ha : a < 256 := h a (by simp)
      intro c hc
      simp only [b64encode, List.mem_cons, List.not_mem_nil, or_false] at hc
      rcases hc with rfl | rfl | rfl | rfl
      · exact Or.inl ⟨a / 4, by omega, rfl⟩
      · exact Or.inl ⟨a % 4 * 16, by omega, rfl⟩
      · exact Or.inr rfl
      · exact Or.inr rfl
  | [a, b], h => by
      have ha : a < 256 := h a (by simp)
      have hb : b < 256 := h b (by simp)
      intro c hc
      simp only [b64encode, List.mem_cons, List.not_mem_nil, or_false] at hc
      rcases hc with rfl | rfl | rfl | rfl
      · exact Or.inl ⟨a / 4, by omega, rfl⟩
      · exact Or.inl ⟨a % 4 * 16 + b / 16, by omega, rfl⟩
      · exact Or.inl ⟨b % 16 * 4, by omega, rfl⟩
      · exact Or.inr rfl
  | a :: b :: c :: rest, h => by
      have ha : a < 256 := h a (by simp)
      have hb : b < 256 := h b (by simp)
      have hc : c < 256 := h c (by simp)
      intro x hx
      simp only [b64encode, List.mem_cons] at hx
      rcases hx with rfl | rfl | rfl | rfl | hx
      · exact Or.inl ⟨a / 4, by omega, rfl⟩
      · exact Or.inl ⟨a % 4 * 16 + b / 16, by omega, rfl⟩
      · exact Or.inl ⟨b % 16 * 4 + c / 64, by omega, rfl⟩
      · exact Or.inl ⟨c % 64, by omega, rfl⟩
      · exact b64encode_mem rest (fun y hy => h y (by simp [hy])) x hx

theorem b64encode_all_b64 {l : List Nat} (h : IsBytes l) :
    ∀ c ∈ b64encode l, isB64Char c = true := by
  intro c hc
  rcases b64encode_mem l h c hc with ⟨k, hk, rfl⟩ | rfl
  · exact (b64tbl_props k hk).1
  · decide

theorem b64encode_wsFree {l : List Nat} (h : IsBytes l) :
    wsFree (b64encode l) := by
  intro c hc
  rcases b64encode_mem l h c hc with ⟨k, hk, rfl⟩ | rfl
  · exact (b64tbl_props k hk).2.1
  · decide

theorem b64encode_no_bang {l : List Nat} (h : IsBytes l) :
    ∀ c ∈ b64encode l, c ≠ 33 := by
  intro c hc
  rcases b64encode_mem l h c hc with ⟨k, hk, rfl⟩ | rfl
  · exact (b64tbl_props k hk).2.2
  · decide

theorem b64decode_b64encode {l : List Nat} (h : IsBytes l) :
    b64decode (b64encode l) = l := by
  unfold b64decode
  rw [List.filter_eq_self.mpr (b64encode_all_b64 h), b64decodeCore_b64encode l h]

/-! ## JSON: `json.dumps(d, indent=1)` under Python 2.7, and `json.loads`

Python 2.7's `json.dumps` with `indent=1` and default separators
`(', ', ': ')` renders a non-empty dict as
`'{' + '\n <key>: <val>' joined by ', ' + '\n}'` (note the trailing space
after each comma, a documented Python 2 wart), and an empty dict as `{}`.
`json_loads` below is its inverse on exactly the strings this program
serializes (flat values, canonical escapes). -/

/-- Lower-case hex digit, as used by `'\u%04x'` escapes. -/
def hexDigitChar (d : Nat) : Nat := if d < 10 then 48 + d else 87 + d

/-- `json.encoder` escaping of one byte of a string. -/
def escByte (b : Nat) : List Nat :=
  if b = 34 then [92, 34]
  else if b = 92 then [92, 92]
  else if b = 8 then [92, 98]
  else if b = 9 then [92, 116]
  else if b = 10 then [92, 110]
  else if b = 12 then [92, 102]
  else if b = 13 then [92, 114]
  else if b < 32 then [92, 117, 48, 48, hexDigitChar (b / 16), hexDigitChar (b % 16)]
  else [b]

/-- Escaped body of a JSON string. -/
def escString (s : List Nat) : List Nat := (s.map escByte).flatten

/-- A JSON string literal, quotes included. -/
def serStr (s : List Nat) : List Nat := 34 :: escString s ++ [34]

/-- Base-10 digits, least significant first, with explicit fuel so that the
function is structurally recursive (hence kernel-reducible). -/
def natDigitsAux : Nat → Nat → List Nat
  | 0, _ => []
  | fuel + 1, n => if n = 0 then [] else n % 10 :: natDigitsAux fuel (n / 10)

/-- Decimal digits of a natural number, most significant first. -/
def serNat (n : Nat) : List Nat :=
  if n = 0 then [48] else (natDigitsAux n n).reverse.map (· + 48)

/-- Python `repr` of an integer. -/
def serInt (i : Int) : List Nat :=
  if i < 0 then 45 :: serNat i.natAbs else serNat i.toNat

/-- Serialization of one flat JSON value. -/
def serVal : JVal → List Nat
  | .jnull => bs "null"
  | .jbool true => bs "true"
  | .jbool false => bs "false"
  | .jint i => serInt i
  | .jstr s => serStr s

/-- One dict entry as rendered with `indent=1`: `'\n "k": v'`. -/
def serEntry (kv : List Nat × JVal) : List Nat :=
  [10, 32] ++ serStr kv.1 ++ [58, 32] ++ serVal kv.2

/-- The joined entry blob of a non-empty dict (entries separated by `', '`,
each beginning with its own `'\n '`). -/
def serEntries (d : PyDict) : List Nat :=
  (List.intersperse [44, 32] (d.map serEntry)).flatten

/-- `json.dumps(d, indent=1)` under Python 2.7. -/
def json_dumps_indent1 (d : PyDict) : List Nat :=
  match d with
  | [] => [123, 125]
  | _ => 123 :: serEntries d ++ [10, 125]

/-- Hex digit to value (both cases accepted; dumps emits lower case). -/
def parseHexDigit (c : Nat) : Option Nat :=
  if 48 ≤ c ∧ c ≤ 57 then some (c - 48)
  else if 97 ≤ c ∧ c ≤ 102 then some (c - 87)
  else none

/-- Parse the body of a JSON string up to its closing quote. -/
def parseStringBody : List Nat → Option (List Nat × List Nat)
  | [] => none
  | c :: rest =>
      if c = 34 then some ([], rest)
      else if c = 92 then
        match rest with
        | [] => none
        | e :: rest2 =>
            if e = 34 then (parseStringBody rest2).map (fun p => (34 :: p.1, p.2))
            else if e = 92 then (parseStringBody rest2).map (fun p => (92 :: p.1, p.2))
            else if e = 98 then (parseStringBody rest2).map (fun p => (8 :: p.1, p.2))
            else if e = 116 then (parseStringBody rest2).map (fun p => (9 :: p.1, p.2))
            else if e = 110 then (parseStringBody rest2).map (fun p => (10 :: p.1, p.2))
            else if e = 102 then (parseStringBody rest2).map (fun p => (12 :: p.1, p.2))
            else if e = 114 then (parseStringBody rest2).map (fun p => (13 :: p.1, p.2))
            else if e = 117 then
              match rest2 with
              | h1 :: h2 :: h3 :: h4 :: rest3 =>
                  match parseHexDigit h1, parseHexDigit h2,
                      parseHexDigit h3, parseHexDigit h4 with
                  | some d1, some d2, some d3, some d4 =>
                      (parseStringBody rest3).map
                        (fun p => ((d1 * 4096 + d2 * 256 + d3 * 16 + d4) :: p.1, p.2))
                  | _, _, _, _ => none
              | _ => none
            else none
      else (parseStringBody rest).map (fun p => (c :: p.1, p.2))

/-- Is a byte an ASCII decimal digit? -/
def isDigit (c : Nat) : Bool := 48 ≤ c && c ≤ 57

/-- Value of a big-endian digit-character run. -/
def digitsVal (ds : List Nat) : Nat := ds.foldl (fun a c => a * 10 + (c - 48)) 0

/-- Parse an optionally-signed decimal integer token. -/
def parseIntTok (s : List Nat) : Option (Int × List Nat) :=
  if s.head? = some 45 then
    if s.tail.takeWhile isDigit = [] then none
    else some (-(digitsVal (s.tail.takeWhile isDigit) : Int), s.tail.dropWhile isDigit)
  else
    if s.takeWhile isDigit = [] then none
    else some ((digitsVal (s.takeWhile isDigit) : Int), s.dropWhile isDigit)

/-- Parse one flat JSON value. -/
def parseJVal (s : List Nat) : Option (JVal × List Nat) :=
  match s with
  | [] => none
  | c :: rest =>
      if c = 110 then
        if rest.take 3 = [117, 108, 108] then some (.jnull, rest.drop 3) else none
      else if c = 116 then
        if rest.take 3 = [114, 117, 101] then some (.jbool true, rest.drop 3) else none
      else if c = 102 then
        if rest.take 4 = [97, 108, 115, 101] then some (.jbool false, rest.drop 4)
        else none
      else if c = 34 then (parseStringBody rest).map (fun p => (.jstr p.1, p.2))
      else (parseIntTok s).map (fun p => (JVal.jint p.1, p.2))

/-- Parse the `'\n "k": v'` entries of a non-empty `indent=1` dict. -/
def parseEntriesAux : Nat → List Nat → Option (PyDict × List Nat)
  | 0, _ => none
  | Nat.succ fuel, s =>
      if s.take 2 = [10, 32] then
        match s.drop 2 with
        | [] => none
        | c :: rest =>
            if c = 34 then
              match parseStringBody rest with
              | none => none
              | some (k, rest2) =>
                  if rest2.take 2 = [58, 32] then
                    match parseJVal (rest2.drop 2) with
                    | none => none
                    | some (v, rest3) =>
                        if rest3.take 2 = [44, 32] then
                          match parseEntriesAux fuel (rest3.drop 2) with
                          | none => none
                          | some (d, rest4) => some ((k, v) :: d, rest4)
                        else some ([(k, v)], rest3)
                  else none
            else none
      else none

/-- `json.loads`, on the canonical `indent=1` output shape. -/
def json_loads (s : List Nat) : Option PyDict :=
  match s with
  | [] => none
  | c :: rest =>
      if c = 123 then
        if rest = [125] then some []
        else
          match parseEntriesAux rest.length rest with
          | none => none
          | some (d, rest2) => if rest2 = [10, 125] then some d else none
      else none

/-! ### Round trip of the JSON codec on serialized output -/

theorem escString_cons (b : Nat) (s : List Nat) :
    escString (b :: s) = escByte b ++ escString s := by
  simp [escString]

theorem parseHexDigit_hexDigitChar : ∀ d < 16, parseHexDigit (hexDigitChar d) = some d := by
  decide

theorem parseStringBody_escString :
    ∀ (s rest : List Nat),
      parseStringBody (escString s ++ 34 :: rest) = some (s, rest)
  | [], rest => by
      have h : escString [] ++ 34 :: rest = 34 :: rest := by simp [escString]
      rw [h]
      unfold parseStringBody
      simp
  | b :: s', rest => by
      have ih := parseStringBody_escString s' rest
      rw [escString_cons, List.append_assoc]
      by_cases h1 : b = 34
      · subst h1; unfold parseStringBody; simp [escByte, ih]
      · by_cases h2 : b = 92
        · subst h2; unfold parseStringBody; simp [escByte, ih]
        · by_cases h3 : b = 8
          · subst h3; unfold parseStringBody; simp [escByte, ih]
          · by_cases h4 : b = 9
            · subst h4; unfold parseStringBody; simp [escByte, ih]
            · by_cases h5 : b = 10
              · subst h5; unfold parseStringBody; simp [escByte, ih]
              · by_cases h6 : b = 12
                · subst h6; unfold parseStringBody; simp [escByte, ih]
                · by_cases h7 : b = 13
                  · subst h7; unfold parseStringBody; simp [escByte, ih]
                  · by_cases h8 : b < 32
                    · have hq : parseHexDigit (hexDigitChar (b / 16)) = some (b / 16) :=
                        parseHexDigit_hexDigitChar _ (by omega)
                      have hr : parseHexDigit (hexDigitChar (b % 16)) = some (b % 16) :=
                        parseHexDigit_hexDigitChar _ (by omega)
                      have hb : b / 16 * 16 + b % 16 = b := by omega
                      have hesc : escByte b =
                          [92, 117, 48, 48, hexDigitChar (b / 16), hexDigitChar (b % 16)] := by
                        simp [escByte, h1, h2, h3, h4, h5, h6, h7, h8]
                      have h48 : parseHexDigit 48 = some 0 := rfl
                      rw [hesc]
                      unfold parseStringBody
                      simp [h48, hq, hr, ih, hb]
                    · have hesc : escByte b = [b] := by
                        simp [escByte, h1, h2, h3, h4, h5, h6, h7, h8]
                      rw [hesc]
                      unfold parseStringBody
                      simp [h1, h2, ih]

theorem natDigitsAux_lt_ten :
    ∀ (fuel n : Nat), ∀ d ∈ natDigitsAux fuel n, d < 10 := by
  intro fuel
  induction fuel with
  | zero => intro n d hd; simp [natDigitsAux] at hd
  | succ f ih =>
      intro n d hd
      by_cases h : n = 0
      · simp [natDigitsAux, h] at hd
      · simp only [natDigitsAux, h, if_false, List.mem_cons] at hd
        rcases hd with rfl | hd
        · omega
        · exact ih _ d hd

theorem ofDigits_natDigitsAux :
    ∀ (fuel n : Nat), n ≤ fuel → Nat.ofDigits 10 (natDigitsAux fuel n) = n := by
  intro fuel
  induction fuel with
  | zero =>
      intro n hn
      have : n = 0 := by omega
      simp [this, natDigitsAux, Nat.ofDigits]
  | succ f ih =>
      intro n hn
      by_cases h : n = 0
      · simp [h, natDigitsAux, Nat.ofDigits]
      · have hdiv : n / 10 ≤ f := by
          have := Nat.div_lt_self (Nat.pos_of_ne_zero h) (by norm_num : (1:Nat) < 10)
          omega
        simp only [natDigitsAux, h, if_false, Nat.ofDigits_cons, ih _ hdiv]
        omega

theorem serNat_ne_nil (n : Nat) : serNat n ≠ [] := by
  unfold serNat
  by_cases h : n = 0
  · simp [h]
  · obtain ⟨f, rfl⟩ : ∃ f, n = f + 1 := ⟨n - 1, by omega⟩
    simp [natDigitsAux, h]

theorem serNat_digits (n : Nat) : ∀ c ∈ serNat n, isDigit c = true := by
  intro c hc
  unfold serNat at hc
  by_cases h : n = 0
  · simp [h] at hc; simp [hc, isDigit]
  · simp only [h, if_false, List.mem_map, List.mem_reverse] at hc
    obtain ⟨d, hd, rfl⟩ := hc
    have : d < 10 := natDigitsAux_lt_ten n n d hd
    simp [isDigit]; omega

theorem foldl_digits_map (X : List Nat) :
    ∀ i : Nat, (X.map (· + 48)).foldl (fun a c => a * 10 + (c - 48)) i =
      X.foldl (fun a d => a * 10 + d) i := by
  induction X with
  | nil => intro i; rfl
  | cons d X' ih =>
      intro i
      simp only [List.map_cons, List.foldl_cons, Nat.add_sub_cancel]
      exact ih _

theorem foldl_reverse_ofDigits (L : List Nat) :
    L.reverse.foldl (fun a d => a * 10 + d) 0 = Nat.ofDigits 10 L := by
  induction L with
  | nil => simp [Nat.ofDigits]
  | cons d L' ih =>
      simp only [List.reverse_cons, List.foldl_append, List.foldl_cons,
        List.foldl_nil, ih, Nat.ofDigits_cons]
      omega

theorem digitsVal_serNat (n : Nat) : digitsVal (serNat n) = n := by
  unfold serNat digitsVal
  by_cases h : n = 0
  · simp [h, digitsVal]
  · simp only [h, if_false]
    rw [foldl_digits_map, foldl_reverse_ofDigits, ofDigits_natDigitsAux n n le_rfl]

theorem takeWhile_digits_append (ds rest : List Nat)
    (hds : ∀ c ∈ ds, isDigit c = true)
    (hrest : ∀ c, rest.head? = some c → isDigit c = false) :
    (ds ++ rest).takeWhile isDigit = ds ∧
    (ds ++ rest).dropWhile isDigit = rest := by
  have hr1 : rest.takeWhile isDigit = [] := by
    cases rest with
    | nil => rfl
    | cons c r' =>
        have := hrest c (by simp)
        simp [List.takeWhile_cons, this]
  have hr2 : rest.dropWhile isDigit = rest := by
    cases rest with
    | nil => rfl
    | cons c r' =>
        have := hrest c (by simp)
        simp [List.dropWhile_cons, this]
  induction ds with
  | nil => exact ⟨hr1, hr2⟩
  | cons a t iht =>
      have ha : isDigit a = true := hds a (by simp)
      have ht := iht (fun c hc => hds c (by simp [hc]))
      simp [List.takeWhile_cons, List.dropWhile_cons, ha, ht.1, ht.2]

theorem parseIntTok_serInt (i : Int) (rest : List Nat)
    (hrest : ∀ c, rest.head? = some c → isDigit c = false) :
    parseIntTok (serInt i ++ rest) = some (i, rest) := by
  by_cases hi : i < 0
  · have h1 : serInt i = 45 :: serNat i.natAbs := by rw [serInt, if_pos hi]
    obtain ⟨htake, hdrop⟩ :=
      takeWhile_digits_append (serNat i.natAbs) rest (serNat_digits _) hrest
    rw [h1]
    unfold parseIntTok
    simp only [List.cons_append, List.head?_cons, List.tail_cons,
      Option.some.injEq]
    rw [if_true, htake, hdrop, if_neg (serNat_ne_nil _), digitsVal_serNat]
    have habs : (i.natAbs : Int) = -i := by omega
    rw [habs]
    simp
  · have h1 : serInt i = serNat i.toNat := by rw [serInt, if_neg hi]
    obtain ⟨d, ds', hser⟩ : ∃ d ds', serNat i.toNat = d :: ds' := by
      rcases hser : serNat i.toNat with _ | ⟨d, ds'⟩
      · exact absurd hser (serNat_ne_nil _)
      · exact ⟨d, ds', rfl⟩
    have hd : isDigit d = true := serNat_digits i.toNat d (by rw [hser]; simp)
    have hne45 : ¬ ((serNat i.toNat ++ rest).head? = some 45) := by
      rw [hser]
      simp only [List.cons_append, List.head?_cons, Option.some.injEq]
      simp [isDigit] at hd; omega
    obtain ⟨htake, hdrop⟩ :=
      takeWhile_digits_append (serNat i.toNat) rest (serNat_digits _) hrest
    rw [h1]
    unfold parseIntTok
    rw [if_neg hne45, htake, hdrop, if_neg (serNat_ne_nil _), digitsVal_serNat]
    have htn : (i.toNat : Int) = i := by omega
    rw [htn]

theorem parseJVal_serVal (v : JVal) (rest : List Nat)
    (hrest : ∀ c, rest.head? = some c → isDigit c = false) :
    parseJVal (serVal v ++ rest) = some (v, rest) := by
  cases v with
  | jnull =>
      show parseJVal (bs "null" ++ rest) = _
      simp [bs, parseJVal, List.take_append_of_le_length, List.drop_append_of_le_length]
  | jbool b =>
      cases b with
      | true =>
          show parseJVal (bs "true" ++ rest) = _
          simp [bs, parseJVal]
      | false =>
          show parseJVal (bs "false" ++ rest) = _
          simp [bs, parseJVal]
  | jint i =>
      have hfirst : ∃ d ds', serInt i ++ rest = d :: ds' ∧ (d = 45 ∨ isDigit d = true) := by
        unfold serInt
        by_cases hi : i < 0
        · exact ⟨45, serNat i.natAbs ++ rest, by rw [if_pos hi]; simp, Or.inl rfl⟩
        · obtain ⟨d, ds', hser⟩ : ∃ d ds', serNat i.toNat = d :: ds' := by
            rcases hser : serNat i.toNat with _ | ⟨d, ds'⟩
            · exact absurd hser (serNat_ne_nil _)
            · exact ⟨d, ds', rfl⟩
          refine ⟨d, ds' ++ rest, by rw [if_neg hi, hser]; simp, Or.inr ?_⟩
          exact serNat_digits i.toNat d (by rw [hser]; simp)
      obtain ⟨d, ds', heq, hd⟩ := hfirst
      have hne : d ≠ 110 ∧ d ≠ 116 ∧ d ≠ 102 ∧ d ≠ 34 := by
        rcases hd with rfl | hd
        · refine ⟨by omega, by omega, by omega, by omega⟩
        · simp [isDigit] at hd
          refine ⟨by omega, by omega, by omega, by omega⟩
      show parseJVal (serInt i ++ rest) = _
      rw [heq, parseJVal]
      rw [if_neg hne.1, if_neg hne.2.1, if_neg hne.2.2.1, if_neg hne.2.2.2, ← heq]
      rw [parseIntTok_serInt i rest hrest]
      rfl
  | jstr s =>
      show parseJVal ((34 :: escString s ++ [34]) ++ rest) = _
      simp only [List.cons_append, List.append_assoc, List.singleton_append,
        List.nil_append]
      rw [parseJVal]
      rw [if_neg (by omega), if_neg (by omega), if_neg (by omega), if_pos rfl]
      rw [parseStringBody_escString s rest]
      rfl

theorem serEntries_nil : serEntries [] = [] := rfl

theorem serEntries_singleton (kv : List Nat × JVal) :
    serEntries [kv] = serEntry kv := by
  simp [serEntries, List.intersperse]

theorem serEntries_cons (kv : List Nat × JVal) (d : PyDict) (hd : d ≠ []) :
    serEntries (kv :: d) = serEntry kv ++ [44, 32] ++ serEntries d := by
  cases d with
  | nil => exact absurd rfl hd
  | cons e t => simp [serEntries, List.intersperse]

theorem serEntry_shape (kv : List Nat × JVal) (X : List Nat) :
    serEntry kv ++ X =
      10 :: 32 :: 34 :: (escString kv.1 ++ 34 :: ([58, 32] ++ (serVal kv.2 ++ X))) := by
  simp [serEntry, serStr]

theorem parseEntriesAux_serEntries :
    ∀ (d : PyDict) (fuel : Nat) (rest : List Nat), d ≠ [] → d.length ≤ fuel →
      (∀ c, rest.head? = some c → isDigit c = false) →
      rest.take 2 ≠ [44, 32] →
      parseEntriesAux fuel (serEntries d ++ rest) = some (d, rest)
  | [], _, _, hne, _, _, _ => absurd rfl hne
  | [kv], fuel, rest, _, hfuel, hrest1, hrest2 => by
      obtain ⟨f, rfl⟩ : ∃ f, fuel = f + 1 := ⟨fuel - 1, by simp at hfuel; omega⟩
      have hpsb := parseStringBody_escString kv.1 (58 :: 32 :: (serVal kv.2 ++ rest))
      have hpj := parseJVal_serVal kv.2 rest hrest1
      rw [serEntries_singleton, serEntry_shape]
      unfold parseEntriesAux
      simp [hpsb, hpj, hrest2]
  | kv :: e :: t, fuel, rest, _, hfuel, hrest1, hrest2 => by
      obtain ⟨f, rfl⟩ : ∃ f, fuel = f + 1 := ⟨fuel - 1, by simp at hfuel; omega⟩
      have ih := parseEntriesAux_serEntries (e :: t) f rest (by simp)
        (by simp at hfuel ⊢; omega) hrest1 hrest2
      have hpsb := parseStringBody_escString kv.1
        (58 :: 32 :: (serVal kv.2 ++ (44 :: 32 :: (serEntries (e :: t) ++ rest))))
      have hpj := parseJVal_serVal kv.2 (44 :: 32 :: (serEntries (e :: t) ++ rest))
        (by intro c hc; simp at hc; subst hc; decide)
      rw [serEntries_cons kv (e :: t) (by simp), List.append_assoc, List.append_assoc,
        serEntry_shape]
      unfold parseEntriesAux
      simp [hpsb, hpj, ih]

theorem serEntry_length_ge (kv : List Nat × JVal) : 2 ≤ (serEntry kv).length := by
  simp [serEntry]

theorem serEntries_length_ge (d : PyDict) : d.length ≤ (serEntries d).length := by
  induction d with
  | nil => simp [serEntries_nil]
  | cons kv t ih =>
      cases t with
      | nil =>
          rw [serEntries_singleton]
          have := serEntry_length_ge kv
          simp; omega
      | cons e t' =>
          rw [serEntries_cons kv (e :: t') (by simp)]
          have h1 := serEntry_length_ge kv
          simp only [List.length_append, List.length_cons] at ih ⊢
          omega

theorem serEntries_starts (kv : List Nat × JVal) (d : PyDict) :
    ∃ tl, serEntries (kv :: d) = 10 :: 32 :: tl := by
  cases d with
  | nil =>
      refine ⟨serStr kv.1 ++ [58, 32] ++ serVal kv.2, ?_⟩
      rw [serEntries_singleton]
      simp [serEntry]
  | cons e t =>
      refine ⟨serStr kv.1 ++ [58, 32] ++ serVal kv.2 ++ ([44, 32] ++ serEntries (e :: t)), ?_⟩
      rw [serEntries_cons kv (e :: t) (by simp)]
      simp [serEntry]

/-- `json.loads` inverts `json.dumps(·, indent=1)`. -/
theorem json_loads_json_dumps (d : PyDict) :
    json_loads (json_dumps_indent1 d) = some d := by
  cases d with
  | nil => rfl
  | cons kv t =>
      obtain ⟨tl, htl⟩ := serEntries_starts kv t
      have hne : serEntries (kv :: t) ++ [10, 125] ≠ [125] := by
        rw [htl]; simp
      have hfuel : (kv :: t).length ≤ (serEntries (kv :: t) ++ [10, 125]).length := by
        have := serEntries_length_ge (kv :: t)
        simp only [List.length_append]
        omega
      have hparse := parseEntriesAux_serEntries (kv :: t)
        ((serEntries (kv :: t)).length + 2) [10, 125] (by simp)
        (by simpa using hfuel)
        (by intro c hc; simp at hc; subst hc; decide)
        (by decide)
      show json_loads (123 :: serEntries (kv :: t) ++ [10, 125]) = _
      unfold json_loads
      simp [hne, hparse]

/-! ## The object codec: `_maybe_encrypt`, `_reflow`, `encode_object`,
`_parse_message`

Fernet is abstracted as an encrypt function `enc` and a decrypt function
`dec` (`none` models `InvalidToken`).  `Fernet.decrypt` frames its token in
URL-safe base64, whose decoder (`binascii`) skips whitespace; the model
therefore applies `deWS` to a token before `dec`, which is exactly the
whitespace tolerance the real construct exhibits for the CRLF/space bytes
that `_reflow` inserts. -/

/-- The slice of `Mailfile_Config` that the codec reads. -/
structure MailfileConfig where
  encrypt : Bool
  enc : List Nat → List Nat
  dec : List Nat → Option (List Nat)
  subject : List Nat
  email_to : List Nat
  email_from : List Nat

/-- `Mailfile._maybe_encrypt`. -/
def maybe_encrypt (cfg : MailfileConfig) (data : List Nat) (b64e : Bool) :
    List Nat :=
  if cfg.encrypt then 33 :: cfg.enc data
  else if b64e then b64encode data else data

/-- `data.replace('\n', '\r\n' + indent)`. -/
def replaceNLIndent (ind : List Nat) : List Nat → List Nat
  | [] => []
  | c :: t =>
      if c = 10 then 13 :: 10 :: ind ++ replaceNLIndent ind t
      else c :: replaceNLIndent ind t

/-- The effect of `re.sub('(\S{n,n})', m.group(0) + CRLF + indent, s)` on a
whitespace-free string: insert `CRLF + indent` after every run of `n`
characters.  Fuel-based so that it is structurally recursive (and hence
kernel-reducible); the fuel `s.length` always suffices. -/
def chunkBreaksAux (n : Nat) (ind : List Nat) : Nat → List Nat → List Nat
  | 0, s => s
  | fuel + 1, s =>
      if n = 0 ∨ s.length < n then s
      else s.take n ++ [13, 10] ++ ind ++ chunkBreaksAux n ind fuel (s.drop n)

def chunkBreaks (n : Nat) (ind : List Nat) (s : List Nat) : List Nat :=
  chunkBreaksAux n ind s.length s

theorem chunkBreaksAux_congr (n : Nat) (ind : List Nat) :
    ∀ (f1 : Nat) (s : List Nat) (f2 : Nat), s.length ≤ f1 → s.length ≤ f2 →
      chunkBreaksAux n ind f1 s = chunkBreaksAux n ind f2 s := by
  intro f1
  induction f1 with
  | zero =>
      intro s f2 h1 h2
      have hnil : s = [] := by cases s <;> simp_all
      subst hnil
      cases f2 with
      | zero => rfl
      | succ b =>
          show ([] : List Nat) = chunkBreaksAux n ind (b + 1) []
          rw [chunkBreaksAux]
          rcases Nat.eq_zero_or_pos n with hn | hn
          · rw [if_pos (Or.inl hn)]
          · rw [if_pos (Or.inr (by simpa using hn))]
  | succ a ih =>
      intro s f2 h1 h2
      cases f2 with
      | zero =>
          have hnil : s = [] := by cases s <;> simp_all
          subst hnil
          show chunkBreaksAux n ind (a + 1) [] = []
          rw [chunkBreaksAux]
          rcases Nat.eq_zero_or_pos n with hn | hn
          · rw [if_pos (Or.inl hn)]
          · rw [if_pos (Or.inr (by simpa using hn))]
      | succ b =>
          rw [chunkBreaksAux, chunkBreaksAux]
          by_cases hc : n = 0 ∨ s.length < n
          · rw [if_pos hc, if_pos hc]
          · rw [if_neg hc, if_neg hc]
            simp only [not_or, not_lt] at hc
            have hd1 : (s.drop n).length ≤ a := by
              simp [List.length_drop]; omega
            have hd2 : (s.drop n).length ≤ b := by
              simp [List.length_drop]; omega
            rw [ih (s.drop n) b hd1 hd2]

/-- The defining unfolding of `chunkBreaks`. -/
theorem chunkBreaks_eq (n : Nat) (ind s : List Nat) :
    chunkBreaks n ind s =
      if n = 0 ∨ s.length < n then s
      else s.take n ++ [13, 10] ++ ind ++ chunkBreaks n ind (s.drop n) := by
  cases s with
  | nil =>
      rcases Nat.eq_zero_or_pos n with hn | hn
      · rw [if_pos (Or.inl hn)]; rfl
      · rw [if_pos (Or.inr (by simpa using hn))]; rfl
  | cons c t =>
      show chunkBreaksAux n ind (t.length + 1) (c :: t) = _
      rw [chunkBreaksAux]
      by_cases hc : n = 0 ∨ (c :: t).length < n
      · rw [if_pos hc, if_pos hc]
      · rw [if_neg hc, if_neg hc]
        simp only [not_or, not_lt] at hc
        have hcongr : chunkBreaksAux n ind t.length ((c :: t).drop n) =
            chunkBreaks n ind ((c :: t).drop n) := by
          apply chunkBreaksAux_congr
          · simp [List.length_drop]; omega
          · exact le_rfl
        rw [hcongr]

/-- `Mailfile._reflow`. -/
def reflow (ind : List Nat) (linelen : Nat) (preserve : Bool)
    (data : List Nat) : List Nat :=
  if preserve then ind ++ pyStrip (replaceNLIndent ind data)
  else ind ++ pyStrip (chunkBreaks (linelen - ind.length) ind (deWS data))

/-- `os.path.basename`. -/
def osPathBasename (p : List Nat) : List Nat :=
  (p.reverse.takeWhile (fun c => c ≠ 47)).reverse

/-- The structured form of the RFC2822 message `encode_object` emits: the
fixed ornamental headers, the (reflowed) `X-Mailfile` header value, and the
body of its single `application/x-mailfile` part. -/
structure EncMessage where
  email_to : List Nat
  email_from : List Nat
  subject : List Nat
  xmailfile : List Nat
  cte : List Nat
  filename : List Nat
  body : List Nat
deriving DecidableEq, Repr

/-- The metadata dictionary `encode_object` builds before padding:
`mdata = {}; mdata.update(metadata); mdata.update({'fn': …, 'bytes': …})`. -/
def encode_mdata (file_path file_data : List Nat) (metadata : Option PyDict) :
    PyDict :=
  let mdata : PyDict := []
  let mdata := match metadata with
    | some m => dupdate mdata m
    | none => mdata
  dupdate mdata [(bs "fn", .jstr file_path), (bs "bytes", .jint file_data.length)]

/-- In encrypted mode: `mdata['_'] = padding[:148 - (len(xmailfile) % 148)]`
applied to the serialized length of the unpadded metadata. -/
def encode_mdata_padded (mdata : PyDict) : PyDict :=
  let xmailfile := pyStrip (json_dumps_indent1 mdata)
  dset mdata (bs "_")
    (.jstr ((List.replicate 200 95).take (148 - xmailfile.length % 148)))

/-- The `X-Mailfile` plaintext (the JSON string that is then encrypted or
base64-encoded) of `encode_object`. -/
def encode_xmailfile_plain (cfg : MailfileConfig)
    (file_path file_data : List Nat) (metadata : Option PyDict) : List Nat :=
  let mdata := encode_mdata file_path file_data metadata
  if cfg.encrypt then json_dumps_indent1 (encode_mdata_padded mdata)
  else pyStrip (json_dumps_indent1 mdata)

/-- The payload as stored (space-padded to a 2048 multiple when
encrypting). -/
def encode_payload_padded (cfg : MailfileConfig) (file_data : List Nat) :
    List Nat :=
  if cfg.encrypt then
    file_data ++ List.replicate (2048 - file_data.length % 2048) 32
  else file_data

/-- `Mailfile.encode_object`, producing the structured message. -/
def encode_object (cfg : MailfileConfig) (file_path file_data : List Nat)
    (metadata : Option PyDict) : EncMessage :=
  let xmailfile := encode_xmailfile_plain cfg file_path file_data metadata
  let payload := encode_payload_padded cfg file_data
  { email_to := cfg.email_to
    email_from := cfg.email_from
    subject :=
      if cfg.encrypt then cfg.subject
      else cfg.subject ++ bs ": " ++ file_path
    xmailfile :=
      reflow (bs " ") 78 (!cfg.encrypt) (maybe_encrypt cfg xmailfile true)
    cte := if cfg.encrypt then bs "7bit" else bs "base64"
    filename :=
      if cfg.encrypt then bs "mailfile.enc" else osPathBasename file_path
    body := reflow [] 78 false (maybe_encrypt cfg payload true) }

/-- The final `'\r\n'.join([...])` of `encode_object`. -/
def renderMessage (m : EncMessage) : List Nat :=
  (List.intersperse [13, 10] [
    bs "To: " ++ m.email_to,
    bs "From: " ++ m.email_from,
    bs "Subject: " ++ m.subject,
    bs "X-Keep-On-Server: manual-delete, not-email",
    bs "X-Mailfile:",
    m.xmailfile,
    bs "Content-Type: application/x-mailfile",
    bs "Content-Transfer-Encoding: " ++ m.cte,
    bs "Content-Disposition: attachment; filename=" ++ [34] ++ m.filename ++ [34],
    [],
    m.body]).flatten

/-- The Python exceptions `_parse_message` can raise. -/
inductive ParseErr where
  | valueError    -- bad JSON (`json.loads`)
  | invalidToken  -- `Fernet.decrypt` failure
  | ioError       -- path-field mismatch
  | keyError      -- missing `fn`/`bytes` key
  | typeError     -- non-integer `bytes` used as a slice bound
deriving DecidableEq, Repr

/-- Outcome of `_parse_message`: metadata only (headers-only mode) or
metadata plus decoded payload. -/
inductive ParseResult where
  | hdr (metadata : PyDict)
  | full (metadata : PyDict) (contents : List Nat)
deriving DecidableEq, Repr

/-- `Fernet.decrypt` on a possibly reflowed token: its URL-safe base64
framing ignores whitespace, then the abstract cipher decrypts. -/
def fernet_decrypt (cfg : MailfileConfig) (tok : List Nat) :
    Option (List Nat) :=
  cfg.dec (deWS tok)

/-- Python `s[:n]` for an integer `n` (negative indices count from the
end). -/
def pyTake (n : Int) (s : List Nat) : List Nat :=
  if 0 ≤ n then s.take n.toNat else s.take (s.length - n.natAbs)

/-- `Mailfile._parse_message` on the structured message. -/
def parse_message (cfg : MailfileConfig) (file_path : Option (List Nat))
    (msg : EncMessage) (headersonly clean : Bool) :
    Except ParseErr ParseResult := do
  let xm := pyStrip msg.xmailfile
  let xmailfile ←
    if xm.head? = some 33 then
      match fernet_decrypt cfg xm.tail with
      | some pt => Except.ok pt
      | none => Except.error ParseErr.invalidToken
    else Except.ok (b64decode xm)
  let metadata ←
    match json_loads xmailfile with
    | some m => Except.ok m
    | none => Except.error ParseErr.valueError
  -- `if file_path and metadata['fn'] != file_path: raise IOError(...)`
  match file_path with
  | some fp =>
      if fp = [] then Except.ok ()
      else
        match dget metadata (bs "fn") with
        | none => Except.error ParseErr.keyError
        | some v =>
            if v = .jstr fp then Except.ok ()
            else Except.error ParseErr.ioError
  | none => Except.ok ()
  let metadata := if clean then clean_metadata metadata else metadata
  if headersonly then
    return ParseResult.hdr metadata
  else
    let contents := msg.body
    let contents ←
      if contents.head? = some 33 then
        match fernet_decrypt cfg contents.tail with
        | some pt => Except.ok pt
        | none => Except.error ParseErr.invalidToken
      else Except.ok (b64decode contents)
    match dget metadata (bs "bytes") with
    | some (.jint n) => return ParseResult.full metadata (pyTake n contents)
    | some _ => Except.error ParseErr.typeError
    | none => Except.error ParseErr.keyError

/-! ### Reflow and strip cancel against whitespace-tolerant decoding -/

theorem dropWhile_ws_eq_self {s : List Nat} (h : wsFree s) :
    s.dropWhile isWS = s := by
  cases s with
  | nil => rfl
  | cons c t => simp [List.dropWhile_cons, h c (by simp)]

theorem pyStrip_eq_self {s : List Nat} (h : wsFree s) : pyStrip s = s := by
  unfold pyStrip
  rw [dropWhile_ws_eq_self h,
    dropWhile_ws_eq_self (fun b hb => h b (List.mem_reverse.mp hb)),
    List.reverse_reverse]

theorem pyStrip_cons_ws {c : Nat} (s : List Nat) (h : isWS c = true) :
    pyStrip (c :: s) = pyStrip s := by
  unfold pyStrip
  rw [List.dropWhile_cons, if_pos h]

theorem pyStrip_head {c : Nat} (s : List Nat) (h : isWS c = false) :
    ∃ t, pyStrip (c :: s) = c :: t := by
  unfold pyStrip
  rw [List.dropWhile_cons, if_neg (by simp [h])]
  set r := ((c :: s).reverse.dropWhile isWS) with hr
  have hsuffix : r <:+ (c :: s).reverse := List.dropWhile_suffix isWS
  have hrne : r ≠ [] := by
    intro hnil
    have hall := List.dropWhile_eq_nil_iff.mp (hr ▸ hnil)
    have := hall c (by simp)
    simp [h] at this
  have hpre : r.reverse <+: (c :: s) :=
    List.reverse_suffix.mp (by rw [List.reverse_reverse]; exact hsuffix)
  obtain ⟨u, hu⟩ := hpre
  cases hrev : r.reverse with
  | nil => exact absurd (by simpa using congrArg List.reverse hrev) hrne
  | cons a t =>
      rw [hrev] at hu
      have ha : a = c := by
        have := congrArg List.head? hu
        simpa using this
      exact ⟨t, by rw [ha]⟩

theorem deWS_dropWhile (s : List Nat) : deWS (s.dropWhile isWS) = deWS s := by
  induction s with
  | nil => rfl
  | cons c t ih =>
      by_cases h : isWS c = true
      · rw [List.dropWhile_cons, if_pos h]
        simp [deWS, h] at ih ⊢
        simpa [deWS] using ih
      · rw [List.dropWhile_cons, if_neg (by simp_all)]

theorem deWS_reverse (s : List Nat) : deWS s.reverse = (deWS s).reverse := by
  simp [deWS, List.filter_reverse]

theorem deWS_pyStrip (s : List Nat) : deWS (pyStrip s) = deWS s := by
  unfold pyStrip
  rw [deWS_reverse, deWS_dropWhile, deWS_reverse, List.reverse_reverse,
    deWS_dropWhile]

theorem deWS_append (s t : List Nat) : deWS (s ++ t) = deWS s ++ deWS t := by
  simp [deWS]

theorem deWS_allws {s : List Nat} (h : ∀ b ∈ s, isWS b = true) :
    deWS s = [] := by
  simp only [deWS, List.filter_eq_nil_iff]
  intro a ha
  simp [h a ha]

theorem deWS_chunkBreaks (n : Nat) (ind : List Nat)
    (hind : ∀ b ∈ ind, isWS b = true) (s : List Nat) :
    deWS (chunkBreaks n ind s) = deWS s := by
  suffices h : ∀ len s, s.length ≤ len → deWS (chunkBreaks n ind s) = deWS s by
    exact h s.length s le_rfl
  intro len
  induction len with
  | zero =>
      intro s hs
      have hnil : s = [] := by cases s <;> simp_all
      subst hnil
      rw [chunkBreaks_eq]
      rcases Nat.eq_zero_or_pos n with hn | hn
      · rw [if_pos (Or.inl hn)]
      · rw [if_pos (Or.inr (by simpa using hn))]
  | succ len ih =>
      intro s hs
      rw [chunkBreaks_eq]
      by_cases h : n = 0 ∨ s.length < n
      · rw [if_pos h]
      · rw [if_neg h]
        simp only [not_or, not_lt] at h
        have hlen : (s.drop n).length ≤ len := by
          simp [List.length_drop]
          omega
        rw [deWS_append, deWS_append, deWS_append, ih _ hlen,
          deWS_allws hind, show deWS [13, 10] = [] from rfl]
        simp only [List.append_nil, List.nil_append]
        rw [← deWS_append, List.take_append_drop]

theorem chunkBreaks_head (n : Nat) (ind : List Nat) (c : Nat) (s : List Nat) :
    (chunkBreaks n ind (c :: s)).head? = some c := by
  rw [chunkBreaks_eq]
  by_cases h : n = 0 ∨ (c :: s).length < n
  · rw [if_pos h]; rfl
  · rw [if_neg h]
    simp only [not_or, not_lt] at h
    obtain ⟨m, rfl⟩ : ∃ m, n = m + 1 := ⟨n - 1, by omega⟩
    simp [List.take_cons]

theorem replaceNLIndent_eq_self {ind s : List Nat}
    (h : ∀ b ∈ s, b ≠ 10) : replaceNLIndent ind s = s := by
  induction s with
  | nil => rfl
  | cons c t ih =>
      rw [replaceNLIndent, if_neg (h c (by simp))]
      rw [ih (fun b hb => h b (by simp [hb]))]

theorem isB64Char_not_ws {c : Nat} (h : isB64Char c = true) : isWS c = false := by
  simp [isB64Char] at h
  simp [isWS]
  omega

theorem b64decode_deWS (s : List Nat) : b64decode (deWS s) = b64decode s := by
  unfold b64decode deWS
  rw [List.filter_filter]
  congr 1
  apply List.filter_congr
  intro a _
  by_cases h : isB64Char a = true
  · simp [h, isB64Char_not_ws h]
  · simp [Bool.eq_false_iff.mpr h]

theorem b64encode_head (a : Nat) (r : List Nat) :
    (b64encode (a :: r)).head? = some (b64tbl (a / 4)) := by
  rcases r with _ | ⟨b, _ | ⟨c, t⟩⟩ <;> rfl

/-- Clear mode, `X-Mailfile` header: strip of the preserve-reflow of a
base64 blob gives back the blob. -/
theorem strip_reflow_clear_header {x : List Nat} (hx : IsBytes x) :
    pyStrip (reflow (bs " ") 78 true (b64encode x)) = b64encode x := by
  have hws : wsFree (b64encode x) := b64encode_wsFree hx
  have h10 : ∀ b ∈ b64encode x, b ≠ 10 := by
    intro b hb
    have := hws b hb
    intro hb10; subst hb10; simp [isWS] at this
  unfold reflow
  rw [if_pos rfl, replaceNLIndent_eq_self h10, pyStrip_eq_self hws]
  show pyStrip (32 :: b64encode x) = _
  rw [pyStrip_cons_ws _ (by decide), pyStrip_eq_self hws]

theorem dropWhile_ws_idem (s : List Nat) :
    (s.dropWhile isWS).dropWhile isWS = s.dropWhile isWS := by
  induction s with
  | nil => rfl
  | cons c t ih =>
      by_cases h : isWS c = true
      · rw [List.dropWhile_cons, if_pos h, ih]
      · rw [List.dropWhile_cons, if_neg (by simp_all), List.dropWhile_cons,
          if_neg (by simp_all)]

theorem dropWhile_ws_head {s : List Nat} {c : Nat}
    (h : (s.dropWhile isWS).head? = some c) : isWS c = false := by
  induction s with
  | nil => simp [List.dropWhile] at h
  | cons a t ih =>
      by_cases ha : isWS a = true
      · rw [List.dropWhile_cons, if_pos ha] at h
        exact ih h
      · rw [List.dropWhile_cons, if_neg (by simp_all)] at h
        simp at h
        subst h
        simpa using ha

/-- The trailing-strip half of `pyStrip`. -/
def stripTrailing (s : List Nat) : List Nat := (s.reverse.dropWhile isWS).reverse

theorem pyStrip_as_stripTrailing (s : List Nat) :
    pyStrip s = stripTrailing (s.dropWhile isWS) := rfl

theorem stripTrailing_prefix (s : List Nat) : stripTrailing s <+: s := by
  unfold stripTrailing
  have hsuffix : s.reverse.dropWhile isWS <:+ s.reverse := List.dropWhile_suffix isWS
  exact List.reverse_suffix.mp (by rw [List.reverse_reverse]; exact hsuffix)

theorem stripTrailing_head (s : List Nat) :
    stripTrailing s = [] ∨ stripTrailing s ≠ [] ∧
      (stripTrailing s).head? = s.head? := by
  cases hst : stripTrailing s with
  | nil => exact Or.inl rfl
  | cons a t =>
      refine Or.inr ⟨by simp, ?_⟩
      obtain ⟨u, hu⟩ := stripTrailing_prefix s
      rw [hst] at hu
      rw [← hu]
      simp

theorem pyStrip_idem (s : List Nat) : pyStrip (pyStrip s) = pyStrip s := by
  rw [pyStrip_as_stripTrailing, pyStrip_as_stripTrailing]
  have hdrop : (stripTrailing (s.dropWhile isWS)).dropWhile isWS =
      stripTrailing (s.dropWhile isWS) := by
    rcases stripTrailing_head (s.dropWhile isWS) with h | ⟨hne, hhd⟩
    · rw [h]; rfl
    · cases hst : stripTrailing (s.dropWhile isWS) with
      | nil => rfl
      | cons a t =>
          rw [hst] at hhd
          have : isWS a = false := dropWhile_ws_head (by rw [← hhd]; simp)
          rw [List.dropWhile_cons, if_neg (by simp_all)]
  rw [hdrop]
  -- remains: stripTrailing is idempotent
  unfold stripTrailing
  rw [List.reverse_reverse, dropWhile_ws_idem]

theorem pyStrip_wsHead {ind : List Nat} (y : List Nat)
    (hind : ∀ b ∈ ind, isWS b = true) :
    pyStrip (ind ++ y) = pyStrip y := by
  induction ind with
  | nil => rfl
  | cons i it ih =>
      rw [List.cons_append, pyStrip_cons_ws _ (hind i (by simp))]
      exact ih (fun b hb => hind b (by simp [hb]))

/-- Encrypted mode: the reflowed `'!' + token` keeps its leading `'!'` and
its whitespace-free core, under any all-whitespace indent. -/
theorem reflow_bang_props {tok : List Nat} (ind : List Nat)
    (hind : ∀ b ∈ ind, isWS b = true) (htok : wsFree tok) :
    (pyStrip (reflow ind 78 false (33 :: tok))).head? = some 33 ∧
    deWS (pyStrip (reflow ind 78 false (33 :: tok))) = 33 :: tok := by
  have htok' : wsFree (33 :: tok) := by
    intro b hb
    rcases List.mem_cons.mp hb with rfl | hb
    · decide
    · exact htok b hb
  have hrw : reflow ind 78 false (33 :: tok) =
      ind ++ pyStrip (chunkBreaks (78 - ind.length) ind (33 :: tok)) := by
    unfold reflow
    rw [if_neg (by simp), deWS_eq_self htok']
  set C := chunkBreaks (78 - ind.length) ind (33 :: tok) with hC
  have h1 : pyStrip (ind ++ pyStrip C) = pyStrip C := by
    rw [pyStrip_wsHead _ hind, pyStrip_idem]
  have hChead : C.head? = some 33 := chunkBreaks_head _ _ _ _
  obtain ⟨Ct, hCt⟩ : ∃ Ct, C = 33 :: Ct := by
    cases hc : C with
    | nil => rw [hc] at hChead; simp at hChead
    | cons a t =>
        rw [hc] at hChead
        simp at hChead
        exact ⟨t, by rw [hChead]⟩
  have hdC : deWS (pyStrip C) = 33 :: tok := by
    rw [deWS_pyStrip, hC, deWS_chunkBreaks _ _ hind, deWS_eq_self htok']
  constructor
  · rw [hrw, h1, hCt]
    obtain ⟨t1, ht1⟩ := pyStrip_head Ct (show isWS 33 = false by decide)
    rw [ht1]
    rfl
  · rw [hrw, h1, hdC]

/-! ### Dictionary bookkeeping lemmas -/

theorem dset_of_not_mem (d : PyDict) (k : List Nat) (v : JVal)
    (h : k ∉ dkeys d) : dset d k v = d ++ [(k, v)] := by
  induction d with
  | nil => rfl
  | cons kv t ih =>
      obtain ⟨k0, v0⟩ := kv
      have h1 : ¬ k0 = k := fun hh => h (by simp [hh])
      have h2 : k ∉ dkeys t := fun hh => h (by simp [hh])
      rw [dset, if_neg h1, ih h2]
      rfl

theorem dkeys_dset_subset (d : PyDict) (k : List Nat) (v : JVal) :
    ∀ k' ∈ dkeys (dset d k v), k' = k ∨ k' ∈ dkeys d := by
  induction d with
  | nil => intro k' h; simp [dset] at h; exact Or.inl h
  | cons kv t ih =>
      obtain ⟨k0, v0⟩ := kv
      intro k' h
      by_cases h0 : k0 = k
      · subst h0
        rw [dset, if_pos rfl] at h
        simp at h
        rcases h with rfl | h
        · exact Or.inl rfl
        · exact Or.inr (by simp [h])
      · rw [dset, if_neg h0] at h
        simp at h
        rcases h with rfl | h
        · exact Or.inr (by simp)
        · rcases ih k' h with rfl | hm
          · exact Or.inl rfl
          · exact Or.inr (by simp [hm])

theorem dkeys_dset_nodup (d : PyDict) (k : List Nat) (v : JVal)
    (h : (dkeys d).Nodup) : (dkeys (dset d k v)).Nodup := by
  induction d with
  | nil => simp [dset]
  | cons kv t ih =>
      obtain ⟨k0, v0⟩ := kv
      rw [dkeys_cons, List.nodup_cons] at h
      obtain ⟨hk0, ht⟩ := h
      by_cases h0 : k0 = k
      · subst h0
        rw [dset, if_pos rfl, dkeys_cons, List.nodup_cons]
        exact ⟨hk0, ht⟩
      · rw [dset, if_neg h0, dkeys_cons, List.nodup_cons]
        refine ⟨?_, ih ht⟩
        intro hmem
        rcases dkeys_dset_subset t k v k0 hmem with rfl | hm
        · exact h0 rfl
        · exact hk0 hm

theorem dkeys_ddel_sublist (d : PyDict) (k : List Nat) :
    List.Sublist (dkeys (ddel d k)) (dkeys d) := by
  induction d with
  | nil => simp [ddel]
  | cons kv t ih =>
      obtain ⟨k0, v0⟩ := kv
      by_cases h0 : k0 = k
      · rw [ddel, if_pos h0, dkeys_cons]
        exact (List.sublist_cons_self _ _)
      · rw [ddel, if_neg h0, dkeys_cons, dkeys_cons]
        exact ih.cons₂ k0

theorem dkeys_ddel_nodup (d : PyDict) (k : List Nat)
    (h : (dkeys d).Nodup) : (dkeys (ddel d k)).Nodup :=
  h.sublist (dkeys_ddel_sublist d k)

/-- `mdata = {}; mdata.update(m)` gives back `m` itself (unique keys). -/
theorem dupdate_nil (m : PyDict) (h : (dkeys m).Nodup) :
    dupdate [] m = m := by
  suffices hgen : ∀ a : PyDict, (∀ k ∈ dkeys m, k ∉ dkeys a) →
      (dkeys m).Nodup → dupdate a m = a ++ m by
    simpa using hgen [] (by simp) h
  clear h
  induction m with
  | nil => intro a _ _; simp [dupdate]
  | cons kv t ih =>
      obtain ⟨k0, v0⟩ := kv
      intro a hdisj hnd
      rw [dkeys_cons, List.nodup_cons] at hnd
      have h1 : dupdate a ((k0, v0) :: t) = dupdate (dset a k0 v0) t := by
        simp [dupdate]
      rw [h1, dset_of_not_mem a k0 v0 (hdisj k0 (by simp))]
      rw [ih (a ++ [(k0, v0)]) ?_ hnd.2]
      · simp
      · intro k hk hmem
        have hka : k ∉ dkeys a := hdisj k (by simp [hk])
        have hkk0 : k ≠ k0 := fun hh => hnd.1 (hh ▸ hk)
        have : k ∈ dkeys a ∨ k = k0 := by
          unfold dkeys at hmem
          simpa [dkeys] using hmem
        rcases this with h | h
        · exact hka h
        · exact hkk0 h

/-- `dupdate` by a two-element literal is two `dset`s. -/
theorem dupdate_pair (a : PyDict) (k1 k2 : List Nat) (v1 v2 : JVal) :
    dupdate a [(k1, v1), (k2, v2)] = dset (dset a k1 v1) k2 v2 := rfl

theorem dset_ne_nil (d : PyDict) (k : List Nat) (v : JVal) :
    dset d k v ≠ [] := by
  cases d with
  | nil => simp [dset]
  | cons kv t =>
      obtain ⟨k0, v0⟩ := kv
      rw [dset]
      by_cases h : k0 = k
      · rw [if_pos h]; simp
      · rw [if_neg h]; simp

/-! ### Byte bounds of JSON serialization -/

/-- JSON values whose strings are byte strings. -/
def JValBytes : JVal → Prop
  | .jstr s => IsBytes s
  | _ => True

/-- Dictionaries whose keys and string values are byte strings. -/
def PyDictBytes (d : PyDict) : Prop := ∀ kv ∈ d, IsBytes kv.1 ∧ JValBytes kv.2

theorem hexDigitChar_lt {d : Nat} (h : d < 16) : hexDigitChar d < 256 := by
  unfold hexDigitChar
  split <;> omega

theorem escByte_bytes {b : Nat} (h : b < 256) : IsBytes (escByte b) := by
  intro c hc
  unfold escByte at hc
  by_cases h1 : b = 34
  · rw [if_pos h1] at hc; simp at hc; rcases hc with rfl | rfl <;> omega
  · rw [if_neg h1] at hc
    by_cases h2 : b = 92
    · rw [if_pos h2] at hc; simp at hc; omega
    · rw [if_neg h2] at hc
      by_cases h3 : b = 8
      · rw [if_pos h3] at hc; simp at hc; rcases hc with rfl | rfl <;> omega
      · rw [if_neg h3] at hc
        by_cases h4 : b = 9
        · rw [if_pos h4] at hc; simp at hc; rcases hc with rfl | rfl <;> omega
        · rw [if_neg h4] at hc
          by_cases h5 : b = 10
          · rw [if_pos h5] at hc; simp at hc; rcases hc with rfl | rfl <;> omega
          · rw [if_neg h5] at hc
            by_cases h6 : b = 12
            · rw [if_pos h6] at hc; simp at hc; rcases hc with rfl | rfl <;> omega
            · rw [if_neg h6] at hc
              by_cases h7 : b = 13
              · rw [if_pos h7] at hc; simp at hc
                rcases hc with rfl | rfl <;> omega
              · rw [if_neg h7] at hc
                by_cases h8 : b < 32
                · rw [if_pos h8] at hc
                  simp at hc
                  rcases hc with rfl | rfl | rfl | rfl | rfl
                  · omega
                  · omega
                  · omega
                  · exact hexDigitChar_lt (by omega)
                  · exact hexDigitChar_lt (by omega)
                · rw [if_neg h8] at hc
                  simp at hc
                  omega

theorem escString_bytes {s : List Nat} (h : IsBytes s) :
    IsBytes (escString s) := by
  intro c hc
  unfold escString at hc
  rw [List.mem_flatten] at hc
  obtain ⟨l, hl, hcl⟩ := hc
  rw [List.mem_map] at hl
  obtain ⟨b, hb, rfl⟩ := hl
  exact escByte_bytes (h b hb) c hcl

theorem serStr_bytes {s : List Nat} (h : IsBytes s) : IsBytes (serStr s) := by
  intro c hc
  unfold serStr at hc
  rcases List.mem_cons.mp hc with rfl | hc
  · omega
  · rcases List.mem_append.mp hc with hc | hc
    · exact escString_bytes h c hc
    · simp at hc; omega

theorem serNat_bytes (n : Nat) : IsBytes (serNat n) := by
  intro c hc
  have := serNat_digits n c hc
  simp [isDigit] at this
  omega

theorem serInt_bytes (i : Int) : IsBytes (serInt i) := by
  intro c hc
  unfold serInt at hc
  split at hc
  · simp at hc
    rcases hc with rfl | hc
    · omega
    · exact serNat_bytes _ c hc
  · exact serNat_bytes _ c hc

theorem serVal_bytes {v : JVal} (h : JValBytes v) : IsBytes (serVal v) := by
  cases v with
  | jnull => intro c hc; simp [serVal, bs] at hc; omega
  | jbool b =>
      cases b <;> (intro c hc; simp [serVal, bs] at hc) <;> omega
  | jint i => exact serInt_bytes i
  | jstr s => exact serStr_bytes h

theorem serEntry_bytes {kv : List Nat × JVal} (h1 : IsBytes kv.1)
    (h2 : JValBytes kv.2) : IsBytes (serEntry kv) := by
  intro c hc
  unfold serEntry at hc
  rcases List.mem_append.mp hc with hc | hc
  · rcases List.mem_append.mp hc with hc | hc
    · rcases List.mem_append.mp hc with hc | hc
      · simp at hc; rcases hc with rfl | rfl <;> omega
      · exact serStr_bytes h1 c hc
    · simp at hc; rcases hc with rfl | rfl <;> omega
  · exact serVal_bytes h2 c hc

theorem mem_intersperse_self {sep l : List Nat} :
    ∀ {ls : List (List Nat)}, l ∈ List.intersperse sep ls → l = sep ∨ l ∈ ls := by
  intro ls
  induction ls with
  | nil => intro hl; simp at hl
  | cons x xs ih =>
      intro hl
      cases xs with
      | nil => simp [List.intersperse] at hl; simp [hl]
      | cons y ys =>
          simp only [List.intersperse] at hl
          rcases List.mem_cons.mp hl with rfl | hl
          · exact Or.inr (by simp)
          · rcases List.mem_cons.mp hl with rfl | hl
            · exact Or.inl rfl
            · rcases ih hl with h1 | h1
              · exact Or.inl h1
              · exact Or.inr (by simp at h1 ⊢; tauto)

theorem serEntries_bytes {d : PyDict} (h : PyDictBytes d) :
    IsBytes (serEntries d) := by
  intro c hc
  unfold serEntries at hc
  rw [List.mem_flatten] at hc
  obtain ⟨l, hl, hcl⟩ := hc
  rcases mem_intersperse_self hl with rfl | hmem
  · simp at hcl; rcases hcl with rfl | rfl <;> omega
  · rw [List.mem_map] at hmem
    obtain ⟨kv, hkv, rfl⟩ := hmem
    exact serEntry_bytes (h kv hkv).1 (h kv hkv).2 c hcl

theorem json_dumps_bytes {d : PyDict} (h : PyDictBytes d) :
    IsBytes (json_dumps_indent1 d) := by
  intro c hc
  unfold json_dumps_indent1 at hc
  match d, hc with
  | [], hc => simp at hc; rcases hc with rfl | rfl <;> omega
  | kv :: t, hc =>
      simp at hc
      rcases hc with rfl | hc | (rfl | rfl)
      · omega
      · exact serEntries_bytes h c hc
      · omega
      · omega

/-! ### Length accounting of the metadata padding (C2) -/

theorem pyStrip_eq_self_of_ends {s : List Nat}
    (h1 : ∀ c, s.head? = some c → isWS c = false)
    (h2 : ∀ c, s.getLast? = some c → isWS c = false) : pyStrip s = s := by
  have hd : s.dropWhile isWS = s := by
    cases s with
    | nil => rfl
    | cons c t => rw [List.dropWhile_cons, if_neg (by simp [h1 c rfl])]
  unfold pyStrip
  rw [hd]
  have hrev : s.reverse.dropWhile isWS = s.reverse := by
    cases hr : s.reverse with
    | nil => rfl
    | cons c t =>
        have hlast : s.getLast? = some c := by
          rw [← List.head?_reverse, hr]
          rfl
        rw [List.dropWhile_cons, if_neg (by simp [h2 c hlast])]
  rw [hrev, List.reverse_reverse]

theorem json_dumps_eq_of_ne_nil {d : PyDict} (hd : d ≠ []) :
    json_dumps_indent1 d = 123 :: serEntries d ++ [10, 125] := by
  cases d with
  | nil => exact absurd rfl hd
  | cons kv t => rfl

theorem json_dumps_head (d : PyDict) :
    (json_dumps_indent1 d).head? = some 123 := by
  cases d with
  | nil => rfl
  | cons kv t => rfl

theorem json_dumps_getLast (d : PyDict) :
    (json_dumps_indent1 d).getLast? = some 125 := by
  cases d with
  | nil => rfl
  | cons kv t =>
      rw [json_dumps_eq_of_ne_nil (by simp)]
      have : 123 :: serEntries (kv :: t) ++ [10, 125] =
          (123 :: serEntries (kv :: t) ++ [10]) ++ [125] := by simp
      rw [this, List.getLast?_concat]

theorem pyStrip_json_dumps (d : PyDict) :
    pyStrip (json_dumps_indent1 d) = json_dumps_indent1 d := by
  apply pyStrip_eq_self_of_ends
  · intro c hc
    rw [json_dumps_head] at hc
    simp at hc
    subst hc
    decide
  · intro c hc
    rw [json_dumps_getLast] at hc
    simp at hc
    subst hc
    decide

theorem serEntries_append_singleton (d : PyDict) (kv : List Nat × JVal)
    (hd : d ≠ []) :
    serEntries (d ++ [kv]) = serEntries d ++ [44, 32] ++ serEntry kv := by
  induction d with
  | nil => exact absurd rfl hd
  | cons x t ih =>
      cases t with
      | nil =>
          rw [show ([x] : PyDict) ++ [kv] = [x, kv] by rfl]
          rw [serEntries_cons x [kv] (by simp), serEntries_singleton,
            serEntries_singleton]
      | cons y ys =>
          rw [List.cons_append, serEntries_cons x ((y :: ys) ++ [kv]) (by simp),
            serEntries_cons x (y :: ys) (by simp), ih (by simp)]
          simp [List.append_assoc]

theorem dumps_dset_new_length (d : PyDict) (k : List Nat) (v : JVal)
    (hd : d ≠ []) (hk : k ∉ dkeys d) :
    (json_dumps_indent1 (dset d k v)).length =
      (json_dumps_indent1 d).length + (serEntry (k, v)).length + 2 := by
  rw [dset_of_not_mem d k v hk]
  rw [json_dumps_eq_of_ne_nil (by simp), json_dumps_eq_of_ne_nil hd,
    serEntries_append_singleton d (k, v) hd]
  simp [List.length_append]
  omega

theorem escString_replicate_95 (p : Nat) :
    escString (List.replicate p 95) = List.replicate p 95 := by
  induction p with
  | zero => rfl
  | succ q ih =>
      rw [List.replicate_succ, escString_cons, ih]
      rfl

theorem serEntry_underscore_length (p : Nat) :
    (serEntry (bs "_", .jstr (List.replicate p 95))).length = p + 9 := by
  have h1 : serEntry (bs "_", .jstr (List.replicate p 95)) =
      [10, 32] ++ (34 :: escString (bs "_") ++ [34]) ++ [58, 32] ++
      (34 :: escString (List.replicate p 95) ++ [34]) := rfl
  rw [h1, escString_replicate_95, show escString (bs "_") = [95] from rfl]
  simp

/-- Keys set after the fn/bytes injection. -/
theorem not_mem_dkeys_mdata {m : PyDict} (hm : bs "_" ∉ dkeys m)
    (p : List Nat) (n : Int) :
    bs "_" ∉ dkeys (dset (dset m (bs "fn") (.jstr p)) (bs "bytes") (.jint n)) := by
  intro hmem
  rcases dkeys_dset_subset _ _ _ _ hmem with heq | hmem2
  · exact absurd heq (by decide)
  · rcases dkeys_dset_subset _ _ _ _ hmem2 with heq | hmem3
    · exact absurd heq (by decide)
    · exact hm hmem3

theorem encode_mdata_some (p d : List Nat) (m : PyDict)
    (hnd : (dkeys m).Nodup) :
    encode_mdata p d (some m) =
      dset (dset m (bs "fn") (.jstr p)) (bs "bytes") (.jint d.length) := by
  show dupdate (dupdate [] m)
      [(bs "fn", .jstr p), (bs "bytes", .jint d.length)] = _
  rw [dupdate_nil m hnd]
  rfl

theorem encode_mdata_padded_eq (mdata : PyDict) :
    encode_mdata_padded mdata = dset mdata (bs "_")
      (.jstr (List.replicate
        (148 - (json_dumps_indent1 mdata).length % 148) 95)) := by
  unfold encode_mdata_padded
  have hmin : min (148 - (json_dumps_indent1 mdata).length % 148) 200 =
      148 - (json_dumps_indent1 mdata).length % 148 := by omega
  rw [pyStrip_json_dumps]
  show dset mdata (bs "_") (JVal.jstr ((List.replicate 200 95).take
    (148 - (json_dumps_indent1 mdata).length % 148))) = _
  rw [List.take_replicate, hmin]

/-- The serialized length of the padded metadata, in encrypted mode: always
`11 (mod 148)` when the caller's metadata does not already contain `_`. -/
theorem encode_xmailfile_plain_length (cfg : MailfileConfig)
    (henc : cfg.encrypt = true) (p d : List Nat) (m : PyDict)
    (hnd : (dkeys m).Nodup) (hm : bs "_" ∉ dkeys m) :
    (encode_xmailfile_plain cfg p d (some m)).length % 148 = 11 := by
  unfold encode_xmailfile_plain
  rw [if_pos henc]
  rw [encode_mdata_some p d m hnd]
  set mdata := dset (dset m (bs "fn") (.jstr p)) (bs "bytes") (.jint d.length)
    with hmdata
  rw [encode_mdata_padded_eq]
  have hne : mdata ≠ [] := by rw [hmdata]; exact dset_ne_nil _ _ _
  have hnotmem : bs "_" ∉ dkeys mdata := by
    rw [hmdata]; exact not_mem_dkeys_mdata hm p d.length
  rw [dumps_dset_new_length mdata _ _ hne hnotmem, serEntry_underscore_length]
  omega

/-! ### The codec round trip (C1) -/

theorem pyDictBytes_dset {k : List Nat} {v : JVal} (hk : IsBytes k)
    (hv : JValBytes v) :
    ∀ {m : PyDict}, PyDictBytes m → PyDictBytes (dset m k v) := by
  intro m
  induction m with
  | nil =>
      intro _ kv hkv
      simp [dset] at hkv
      subst hkv
      exact ⟨hk, hv⟩
  | cons kv0 t ih =>
      obtain ⟨k0, v0⟩ := kv0
      intro hm kv hkv
      by_cases h0 : k0 = k
      · rw [dset, if_pos h0] at hkv
        rcases List.mem_cons.mp hkv with rfl | hkv
        · exact ⟨hk, hv⟩
        · exact hm kv (by simp [hkv])
      · rw [dset, if_neg h0] at hkv
        rcases List.mem_cons.mp hkv with rfl | hkv
        · exact hm (k0, v0) (by simp)
        · exact ih (fun x hx => hm x (by simp [hx])) kv hkv

theorem json_dumps_ne_nil (d : PyDict) : json_dumps_indent1 d ≠ [] := by
  cases d with
  | nil => simp [json_dumps_indent1]
  | cons kv t => rw [json_dumps_eq_of_ne_nil (by simp)]; simp

/-- The caller-visible metadata that decoding an encoded object yields:
the caller's dictionary with `fn` and `_` removed and `bytes` set to the
payload length. -/
def roundtrip_expected (m : PyDict) (d : List Nat) : PyDict :=
  dset (ddel (ddel m (bs "fn")) (bs "_")) (bs "bytes") (.jint d.length)

/-- The final (possibly padded) metadata dictionary of `encode_object`. -/
def encode_mdata_final (cfg : MailfileConfig) (p d : List Nat) (m : PyDict) :
    PyDict :=
  if cfg.encrypt then encode_mdata_padded (encode_mdata p d (some m))
  else encode_mdata p d (some m)

theorem dget_clean_metadata (F : PyDict) (hnd : (dkeys F).Nodup)
    (k : List Nat) :
    dget (clean_metadata F) k =
      if k = bs "fn" ∨ k = bs "_" then none else dget F k := by
  unfold clean_metadata
  rw [dget_ddel _ _ _ (dkeys_ddel_nodup _ _ hnd), dget_ddel _ _ _ hnd]
  by_cases h1 : k = bs "fn"
  · simp [h1]
  · by_cases h2 : k = bs "_" <;> simp [h1, h2]

theorem dget_mdataF (cfg : MailfileConfig) (p d : List Nat) (m : PyDict)
    (hnd : (dkeys m).Nodup) (k : List Nat) :
    dget (encode_mdata_final cfg p d m) k =
      if cfg.encrypt ∧ k = bs "_" then
        some (.jstr (List.replicate
          (148 - (json_dumps_indent1 (encode_mdata p d (some m))).length % 148) 95))
      else if k = bs "bytes" then some (.jint d.length)
      else if k = bs "fn" then some (.jstr p)
      else dget m k := by
  unfold encode_mdata_final
  by_cases he : cfg.encrypt = true
  · rw [if_pos he, encode_mdata_padded_eq, dget_dset]
    rw [encode_mdata_some p d m hnd, dget_dset, dget_dset]
    by_cases h1 : k = bs "_"
    · have h2 : ¬ k = bs "bytes" := by rw [h1]; decide
      have h3 : ¬ k = bs "fn" := by rw [h1]; decide
      simp [he, h1, h2, h3]
    · by_cases h2 : k = bs "bytes" <;> by_cases h3 : k = bs "fn" <;>
        simp [he, h1, h2, h3]
  · have he' : cfg.encrypt = false := by
      cases hco : cfg.encrypt
      · rfl
      · exact absurd hco he
    rw [if_neg he, encode_mdata_some p d m hnd, dget_dset, dget_dset]
    by_cases h1 : k = bs "_"
    · have h2 : ¬ k = bs "bytes" := by rw [h1]; decide
      have h3 : ¬ k = bs "fn" := by rw [h1]; decide
      -- in clear mode there is no `_` entry beyond the caller's own, but the
      -- caller's `_` (if any) is preserved at this stage
      simp [he', h1, h2, h3]
    · by_cases h2 : k = bs "bytes" <;> by_cases h3 : k = bs "fn" <;>
        simp [he', h1, h2, h3]

theorem deWS_cons_not_ws {c : Nat} (s : List Nat) (h : isWS c = false) :
    deWS (c :: s) = c :: deWS s := by
  simp [deWS, h]

/-- From a leading `'!'` and a known whitespace-free core, the decrypt of
the tail succeeds. -/
theorem fernet_decrypt_tail (cfg : MailfileConfig) (v tok : List Nat)
    (hhead : v.head? = some 33) (hde : deWS v = 33 :: tok) :
    fernet_decrypt cfg v.tail = cfg.dec tok := by
  obtain ⟨vt, rfl⟩ : ∃ vt, v = 33 :: vt := by
    cases v with
    | nil => simp at hhead
    | cons a t => simp at hhead; exact ⟨t, by rw [hhead]⟩
  rw [deWS_cons_not_ws _ (by decide)] at hde
  simp at hde
  unfold fernet_decrypt
  rw [show (33 :: vt).tail = vt from rfl, hde]

/-- First decode stage of `_parse_message` applied to the `X-Mailfile`
value that `encode_object` emits. -/
theorem xmailfile_stage (cfg : MailfileConfig)
    (hdec : ∀ s, cfg.dec (cfg.enc s) = some s)
    (hws : ∀ s, wsFree (cfg.enc s))
    (X : List Nat) (hX : IsBytes X) (hXne : X ≠ []) :
    (cfg.encrypt = true →
      (pyStrip (reflow (bs " ") 78 (!cfg.encrypt)
          (maybe_encrypt cfg X true))).head? = some 33 ∧
      fernet_decrypt cfg
        (pyStrip (reflow (bs " ") 78 (!cfg.encrypt)
          (maybe_encrypt cfg X true))).tail = some X) ∧
    (cfg.encrypt = false →
      (pyStrip (reflow (bs " ") 78 (!cfg.encrypt)
          (maybe_encrypt cfg X true))).head? ≠ some 33 ∧
      b64decode (pyStrip (reflow (bs " ") 78 (!cfg.encrypt)
          (maybe_encrypt cfg X true))) = X) := by
  constructor
  · intro he
    have hme : maybe_encrypt cfg X true = 33 :: cfg.enc X := by
      unfold maybe_encrypt
      rw [if_pos he]
    rw [hme, he]
    simp only [Bool.not_true]
    have hprops := @reflow_bang_props (cfg.enc X) (bs " ")
      (by intro b hb; simp [bs] at hb; subst hb; decide) (hws X)
    refine ⟨hprops.1, ?_⟩
    rw [fernet_decrypt_tail cfg _ (cfg.enc X) hprops.1 hprops.2]
    exact hdec X
  · intro he
    have hme : maybe_encrypt cfg X true = b64encode X := by
      unfold maybe_encrypt
      rw [he]
      simp
    rw [hme, he]
    have hclear := strip_reflow_clear_header hX
    simp only [Bool.not_false]
    rw [hclear]
    obtain ⟨x0, Xt, rfl⟩ : ∃ x0 Xt, X = x0 :: Xt := by
      cases X with
      | nil => exact absurd rfl hXne
      | cons a t => exact ⟨a, t, rfl⟩
    have hx0 : x0 < 256 := hX x0 (by simp)
    constructor
    · rw [b64encode_head]
      have := (b64tbl_props (x0 / 4) (by omega)).2.2
      simp [this]
    · exact b64decode_b64encode hX

/-- Payload decode stage of `_parse_message` applied to the body that
`encode_object` emits. -/
theorem body_stage (cfg : MailfileConfig)
    (hdec : ∀ s, cfg.dec (cfg.enc s) = some s)
    (hws : ∀ s, wsFree (cfg.enc s))
    (P : List Nat) (hP : IsBytes P) :
    (cfg.encrypt = true →
      (reflow [] 78 false (maybe_encrypt cfg P true)).head? = some 33 ∧
      fernet_decrypt cfg
        (reflow [] 78 false (maybe_encrypt cfg P true)).tail = some P) ∧
    (cfg.encrypt = false →
      (reflow [] 78 false (maybe_encrypt cfg P true)).head? ≠ some 33 ∧
      b64decode (reflow [] 78 false (maybe_encrypt cfg P true)) = P) := by
  constructor
  · intro he
    have hme : maybe_encrypt cfg P true = 33 :: cfg.enc P := by
      unfold maybe_encrypt
      rw [if_pos he]
    rw [hme]
    have hrw : reflow [] 78 false (33 :: cfg.enc P) =
        pyStrip (reflow [] 78 false (33 :: cfg.enc P)) := by
      unfold reflow
      rw [if_neg (by simp)]
      rw [List.nil_append, pyStrip_idem]
    have hprops := @reflow_bang_props (cfg.enc P) []
      (by intro b hb; simp at hb) (hws P)
    rw [hrw]
    refine ⟨hprops.1, ?_⟩
    rw [fernet_decrypt_tail cfg _ (cfg.enc P) hprops.1 hprops.2]
    exact hdec P
  · intro he
    have hme : maybe_encrypt cfg P true = b64encode P := by
      unfold maybe_encrypt
      rw [he]
      simp
    rw [hme]
    have hwsf : wsFree (b64encode P) := b64encode_wsFree hP
    have hrw : reflow [] 78 false (b64encode P) =
        pyStrip (chunkBreaks 78 [] (b64encode P)) := by
      unfold reflow
      rw [if_neg (by simp), List.nil_append, deWS_eq_self hwsf]
      rfl
    rw [hrw]
    have hdecode : b64decode (pyStrip (chunkBreaks 78 [] (b64encode P))) = P := by
      rw [← b64decode_deWS, deWS_pyStrip,
        deWS_chunkBreaks 78 [] (by intro b hb; simp at hb),
        deWS_eq_self hwsf, b64decode_b64encode hP]
    refine ⟨?_, hdecode⟩
    cases hPc : P with
    | nil =>
        have : chunkBreaks 78 [] (b64encode []) = [] := by
          rw [chunkBreaks_eq]
          rw [if_pos (Or.inr (by simp [b64encode]))]
          rfl
        rw [show b64encode [] = [] from rfl] at this ⊢
        rw [this]
        simp [pyStrip]
    | cons p0 Pt =>
        have hp0 : p0 < 256 := by
          have := hP p0 (by rw [hPc]; simp)
          exact this
        obtain ⟨c0, cs, hbc⟩ : ∃ c0 cs, b64encode (p0 :: Pt) = c0 :: cs ∧
            c0 = b64tbl (p0 / 4) := by
          have := b64encode_head p0 Pt
          cases hb : b64encode (p0 :: Pt) with
          | nil => rw [hb] at this; simp at this
          | cons a t =>
              rw [hb] at this
              simp at this
              exact ⟨a, t, rfl, this⟩
        obtain ⟨hbc1, hbc2⟩ := hbc
        rw [hbc1]
        have hchead : (chunkBreaks 78 [] (c0 :: cs)).head? = some c0 :=
          chunkBreaks_head _ _ _ _
        obtain ⟨Ct, hCt⟩ : ∃ Ct, chunkBreaks 78 [] (c0 :: cs) = c0 :: Ct := by
          cases hcc : chunkBreaks 78 [] (c0 :: cs) with
          | nil => rw [hcc] at hchead; simp at hchead
          | cons a t =>
              rw [hcc] at hchead; simp at hchead
              exact ⟨t, by rw [hchead]⟩
        rw [hCt]
        have hc0ws : isWS c0 = false := by
          rw [hbc2]
          exact (b64tbl_props (p0 / 4) (by omega)).2.1
        obtain ⟨t1, ht1⟩ := pyStrip_head Ct hc0ws
        rw [ht1]
        have hc033 : c0 ≠ 33 := by
          rw [hbc2]
          exact (b64tbl_props (p0 / 4) (by omega)).2.2
        simp [hc033]

theorem encode_xmailfile_plain_eq (cfg : MailfileConfig) (p d : List Nat)
    (m : PyDict) :
    encode_xmailfile_plain cfg p d (some m) =
      json_dumps_indent1 (encode_mdata_final cfg p d m) := by
  unfold encode_xmailfile_plain encode_mdata_final
  by_cases he : cfg.encrypt = true
  · rw [if_pos he, if_pos he]
  · rw [if_neg he, if_neg he, pyStrip_json_dumps]

theorem pyDictBytes_mdata_final (cfg : MailfileConfig) (p d : List Nat)
    (m : PyDict) (hp : IsBytes p) (hm : PyDictBytes m)
    (hnd : (dkeys m).Nodup) :
    PyDictBytes (encode_mdata_final cfg p d m) := by
  have hbytesb : IsBytes (bs "bytes") := by
    intro b hb; simp [bs] at hb; omega
  have hfnb : IsBytes (bs "fn") := by
    intro b hb; simp [bs] at hb; omega
  have husb : IsBytes (bs "_") := by
    intro b hb; simp [bs] at hb; omega
  have h1 : PyDictBytes (encode_mdata p d (some m)) := by
    rw [encode_mdata_some p d m hnd]
    exact pyDictBytes_dset hbytesb (by simp [JValBytes])
      (pyDictBytes_dset hfnb (by simpa [JValBytes] using hp) hm)
  unfold encode_mdata_final
  by_cases he : cfg.encrypt = true
  · rw [if_pos he, encode_mdata_padded_eq]
    refine pyDictBytes_dset husb ?_ h1
    show IsBytes (List.replicate _ 95)
    intro b hb
    have := List.eq_of_mem_replicate hb
    omega
  · rw [if_neg he]
    exact h1

theorem dkeys_mdata_final_nodup (cfg : MailfileConfig) (p d : List Nat)
    (m : PyDict) (hnd : (dkeys m).Nodup) :
    (dkeys (encode_mdata_final cfg p d m)).Nodup := by
  have h1 : (dkeys (encode_mdata p d (some m))).Nodup := by
    rw [encode_mdata_some p d m hnd]
    exact dkeys_dset_nodup _ _ _ (dkeys_dset_nodup _ _ _ hnd)
  unfold encode_mdata_final
  by_cases he : cfg.encrypt = true
  · rw [if_pos he, encode_mdata_padded_eq]
    exact dkeys_dset_nodup _ _ _ h1
  · rw [if_neg he]
    exact h1

theorem ebind_ok {ε α β : Type} (a : α) (f : α → Except ε β) :
    (Except.ok a : Except ε α) >>= f = f a := rfl

theorem epure {ε α : Type} (a : α) : (pure a : Except ε α) = Except.ok a := rfl

/-- `_parse_message` (full, cleaning, with the path supplied) inverts
`encode_object` up to the metadata rewriting that encoding performs. -/
theorem parse_message_encode_object (cfg : MailfileConfig)
    (hdec : ∀ s, cfg.dec (cfg.enc s) = some s)
    (hws : ∀ s, wsFree (cfg.enc s))
    (p d : List Nat) (m : PyDict)
    (hp : IsBytes p) (hd : IsBytes d) (hm : PyDictBytes m)
    (hnd : (dkeys m).Nodup) :
    parse_message cfg (some p) (encode_object cfg p d (some m)) false true =
      .ok (.full (clean_metadata (encode_mdata_final cfg p d m)) d) := by
  set F := encode_mdata_final cfg p d m with hF
  have hFb : PyDictBytes F := pyDictBytes_mdata_final cfg p d m hp hm hnd
  have hFnd : (dkeys F).Nodup := dkeys_mdata_final_nodup cfg p d m hnd
  have hXb : IsBytes (json_dumps_indent1 F) := json_dumps_bytes hFb
  have hXne : json_dumps_indent1 F ≠ [] := json_dumps_ne_nil F
  have hxm : (encode_object cfg p d (some m)).xmailfile =
      reflow (bs " ") 78 (!cfg.encrypt)
        (maybe_encrypt cfg (json_dumps_indent1 F) true) := by
    show reflow (bs " ") 78 (!cfg.encrypt)
        (maybe_encrypt cfg (encode_xmailfile_plain cfg p d (some m)) true) = _
    rw [encode_xmailfile_plain_eq, hF]
  have hbody : (encode_object cfg p d (some m)).body =
      reflow [] 78 false
        (maybe_encrypt cfg (encode_payload_padded cfg d) true) := rfl
  have hPb : IsBytes (encode_payload_padded cfg d) := by
    unfold encode_payload_padded
    by_cases he : cfg.encrypt = true
    · rw [if_pos he]
      intro b hb
      rcases List.mem_append.mp hb with hb | hb
      · exact hd b hb
      · have := List.eq_of_mem_replicate hb
        omega
    · rw [if_neg he]
      exact hd
  have hxstage := xmailfile_stage cfg hdec hws (json_dumps_indent1 F) hXb hXne
  have hbstage := body_stage cfg hdec hws (encode_payload_padded cfg d) hPb
  have hloads : json_loads (json_dumps_indent1 F) = some F :=
    json_loads_json_dumps F
  have hfn : dget F (bs "fn") = some (.jstr p) := by
    rw [hF, dget_mdataF cfg p d m hnd]
    rw [if_neg (by intro hcontra; exact absurd hcontra.2 (by decide)),
      if_neg (by decide), if_pos rfl]
  have hbytes : dget (clean_metadata F) (bs "bytes") = some (.jint d.length) := by
    rw [dget_clean_metadata F hFnd, if_neg (by decide), hF,
      dget_mdataF cfg p d m hnd]
    rw [if_neg (by intro hcontra; exact absurd hcontra.2 (by decide)),
      if_pos rfl]
  have htakeE : pyTake (d.length : Int)
      (d ++ List.replicate (2048 - d.length % 2048) 32) = d := by
    unfold pyTake
    rw [if_pos (by omega)]
    simp [List.take_left]
  have htakeC : pyTake (d.length : Int) d = d := by
    unfold pyTake
    rw [if_pos (by omega)]
    simp
  unfold parse_message
  rw [hxm, hbody]
  by_cases he : cfg.encrypt = true
  · obtain ⟨hhead, hdecur⟩ := hxstage.1 he
    obtain ⟨hbhead, hbdec⟩ := hbstage.1 he
    have hpay : encode_payload_padded cfg d =
        d ++ List.replicate (2048 - d.length % 2048) 32 := by
      unfold encode_payload_padded
      rw [if_pos he]
    rw [if_pos hhead, hdecur]
    simp only [ebind_ok]
    rw [hloads]
    simp only [ebind_ok]
    by_cases hpn : p = []
    · rw [if_pos hpn]
      rw [if_pos hbhead, hbdec]
      simp only [ebind_ok, if_true]
      rw [hbytes]
      simp only [ebind_ok, epure]
      rw [hpay, htakeE]
      rfl
    · rw [if_neg hpn, hfn]
      simp only [ebind_ok]
      rw [if_pos hbhead, hbdec]
      simp only [ebind_ok, if_true]
      rw [hbytes]
      simp only [ebind_ok, epure]
      rw [hpay, htakeE]
      rfl
  · have he' : cfg.encrypt = false := by
      cases hco : cfg.encrypt
      · rfl
      · exact absurd hco he
    obtain ⟨hhead, hdecode⟩ := hxstage.2 he'
    obtain ⟨hbhead, hbdec⟩ := hbstage.2 he'
    have hpay : encode_payload_padded cfg d = d := by
      unfold encode_payload_padded
      rw [if_neg he]
    rw [if_neg hhead, hdecode]
    simp only [ebind_ok]
    rw [hloads]
    simp only [ebind_ok]
    by_cases hpn : p = []
    · rw [if_pos hpn]
      rw [if_neg hbhead, hbdec]
      simp only [ebind_ok, if_true]
      rw [hbytes]
      simp only [ebind_ok, epure]
      rw [hpay, htakeC]
      rfl
    · rw [if_neg hpn, hfn]
      simp only [ebind_ok]
      rw [if_neg hbhead, hbdec]
      simp only [ebind_ok, if_true]
      rw [hbytes]
      simp only [ebind_ok, epure]
      rw [hpay, htakeC]
      rfl


/-! ### A concrete cipher with a universal round trip, for witnesses -/

/-- A toy symmetric cipher: each byte as decimal digits plus a comma.  Its
output is whitespace-free and it decrypts exactly what it encrypted, so it
satisfies the abstract interface the codec theorems assume of Fernet. -/
def natCipherEnc (s : List Nat) : List Nat :=
  (s.map (fun b => serNat b ++ [44])).flatten

def natCipherDecAux : Nat → List Nat → Option (List Nat)
  | 0, s => if s = [] then some [] else none
  | fuel + 1, s =>
      if s = [] then some []
      else
        match s.dropWhile isDigit with
        | c :: rest =>
            if c = 44 ∧ s.takeWhile isDigit ≠ [] then
              (natCipherDecAux fuel rest).map
                (digitsVal (s.takeWhile isDigit) :: ·)
            else none
        | [] => none

def natCipherDec (s : List Nat) : Option (List Nat) :=
  natCipherDecAux s.length s

theorem natCipherEnc_cons (b : Nat) (t : List Nat) :
    natCipherEnc (b :: t) = serNat b ++ 44 :: natCipherEnc t := by
  simp [natCipherEnc]

theorem natCipherEnc_wsFree (s : List Nat) : wsFree (natCipherEnc s) := by
  intro c hc
  unfold natCipherEnc at hc
  rw [List.mem_flatten] at hc
  obtain ⟨l, hl, hcl⟩ := hc
  rw [List.mem_map] at hl
  obtain ⟨b, hb, rfl⟩ := hl
  rcases List.mem_append.mp hcl with h | h
  · have := serNat_digits b c h
    simp [isDigit] at this
    simp [isWS]
    omega
  · simp at h
    subst h
    decide

theorem natCipherDecAux_enc :
    ∀ (s : List Nat) (fuel : Nat), (natCipherEnc s).length ≤ fuel →
      natCipherDecAux fuel (natCipherEnc s) = some s
  | [], fuel, _ => by
      cases fuel with
      | zero => rfl
      | succ f => rfl
  | b :: t, fuel, hf => by
      obtain ⟨db, dt, hser⟩ : ∃ db dt, serNat b = db :: dt := by
        rcases hsn : serNat b with _ | ⟨db, dt⟩
        · exact absurd hsn (serNat_ne_nil b)
        · exact ⟨db, dt, rfl⟩
      have hlen : (natCipherEnc (b :: t)).length =
          (serNat b).length + 1 + (natCipherEnc t).length := by
        rw [natCipherEnc_cons]
        simp
        omega
      obtain ⟨f, rfl⟩ : ∃ f, fuel = f + 1 := by
        cases fuel with
        | zero =>
            exfalso
            rw [hlen, hser] at hf
            simp at hf
        | succ f => exact ⟨f, rfl⟩
      obtain ⟨htake, hdrop⟩ := takeWhile_digits_append (serNat b)
        (44 :: natCipherEnc t) (serNat_digits b)
        (by intro c hc; simp at hc; subst hc; decide)
      have hne : natCipherEnc (b :: t) ≠ [] := by
        rw [natCipherEnc_cons, hser]
        simp
      rw [natCipherDecAux, if_neg hne]
      rw [show natCipherEnc (b :: t) = serNat b ++ 44 :: natCipherEnc t from
        natCipherEnc_cons b t]
      rw [htake, hdrop]
      have hrec := natCipherDecAux_enc t f (by
        rw [hlen] at hf
        have h1 : (serNat b).length ≥ 1 := by rw [hser]; simp
        omega)
      show (if (44 : Nat) = 44 ∧ serNat b ≠ [] then
          Option.map (fun x => digitsVal (serNat b) :: x)
            (natCipherDecAux f (natCipherEnc t))
        else none) = some (b :: t)
      rw [if_pos ⟨rfl, serNat_ne_nil b⟩, digitsVal_serNat, hrec]
      rfl

theorem natCipherDec_enc (s : List Nat) :
    natCipherDec (natCipherEnc s) = some s :=
  natCipherDecAux_enc s (natCipherEnc s).length le_rfl

/-! ### Concrete configurations used in counterexamples and witnesses -/

/-- A clear-mode configuration over the toy cipher. -/
def cfgClear : MailfileConfig :=
  { encrypt := false, enc := natCipherEnc, dec := natCipherDec,
    subject := bs "S", email_to := bs "to@x", email_from := bs "from@x" }

/-- An encrypted-mode configuration over the toy cipher. -/
def cfgEnc : MailfileConfig :=
  { encrypt := true, enc := natCipherEnc, dec := natCipherDec,
    subject := bs "S", email_to := bs "to@x", email_from := bs "from@x" }

/-! ### C1: the decode-of-encode round trip -/

/-- The metadata dictionary the claim says decoding returns: the caller's
dictionary with the keys fn, bytes and the underscore pad key removed. -/
def spec_stripped_metadata (m : PyDict) : PyDict :=
  ddel (ddel (ddel m (bs "fn")) (bs "bytes")) (bs "_")

theorem dget_decoded_metadata (cfg : MailfileConfig) (p d : List Nat)
    (m : PyDict) (hnd : (dkeys m).Nodup) (k : List Nat) :
    dget (clean_metadata (encode_mdata_final cfg p d m)) k =
      dget (roundtrip_expected m d) k := by
  rw [dget_clean_metadata _ (dkeys_mdata_final_nodup cfg p d m hnd) k]
  rw [dget_mdataF cfg p d m hnd]
  unfold roundtrip_expected
  rw [dget_dset, dget_ddel _ _ _ (dkeys_ddel_nodup m (bs "fn") hnd),
    dget_ddel _ _ _ hnd]
  by_cases h1 : k = bs "fn"
  · have h2 : ¬ (bs "fn" : List Nat) = bs "_" := by decide
    have h3 : ¬ (bs "fn" : List Nat) = bs "bytes" := by decide
    simp [h1, h2, h3]
  · by_cases h4 : k = bs "_"
    · have h5 : ¬ (bs "_" : List Nat) = bs "bytes" := by decide
      have h6 : ¬ (bs "_" : List Nat) = bs "fn" := by decide
      simp [h4, h5, h6]
    · by_cases h7 : k = bs "bytes"
      · have h8 : ¬ (bs "bytes" : List Nat) = bs "fn" := by decide
        have h9 : ¬ (bs "bytes" : List Nat) = bs "_" := by decide
        simp [h7, h8, h9]
      · simp [h1, h4, h7]

/-- C1 (corrected): decoding the message produced by `encode_object p d m`
returns the payload `d` together with a metadata dictionary whose `bytes`
entry is the payload length and whose other entries are exactly the
caller's dictionary with `fn` and the pad key `_` removed and `bytes`
overwritten — NOT with `bytes` removed as the claim states.  Holds in both
clear and encrypted modes for any cipher that decrypts its own output and
emits no whitespace. -/
theorem C1_roundtrip (cfg : MailfileConfig)
    (hdec : ∀ s, cfg.dec (cfg.enc s) = some s)
    (hws : ∀ s, wsFree (cfg.enc s))
    (p d : List Nat) (m : PyDict)
    (hp : IsBytes p) (hd : IsBytes d) (hm : PyDictBytes m)
    (hnd : (dkeys m).Nodup) :
    ∃ md,
      parse_message cfg (some p) (encode_object cfg p d (some m)) false true
        = .ok (.full md d) ∧
      dget md (bs "bytes") = some (.jint d.length) ∧
      ∀ k, dget md k = dget (roundtrip_expected m d) k := by
  refine ⟨clean_metadata (encode_mdata_final cfg p d m),
    parse_message_encode_object cfg hdec hws p d m hp hd hm hnd, ?_, ?_⟩
  · rw [dget_decoded_metadata cfg p d m hnd (bs "bytes")]
    unfold roundtrip_expected
    rw [dget_dset, if_pos rfl]
  · exact dget_decoded_metadata cfg p d m hnd

/-- C1 witness: the corrected round trip at a concrete encrypted-mode
configuration, path, payload and (empty) metadata dictionary. -/
theorem C1_roundtrip_witness :
    ∃ md,
      parse_message cfgEnc (some (bs "a"))
          (encode_object cfgEnc (bs "a") [104, 105] (some [])) false true
        = .ok (.full md [104, 105]) ∧
      dget md (bs "bytes") = some (.jint 2) ∧
      ∀ k, dget md k = dget (roundtrip_expected [] [104, 105]) k :=
  C1_roundtrip cfgEnc natCipherDec_enc natCipherEnc_wsFree (bs "a")
    [104, 105] []
    (by intro b hb; simp [bs] at hb; omega)
    (by intro b hb; simp at hb; omega)
    (fun kv hkv => absurd hkv (List.not_mem_nil kv)) List.nodup_nil

/-- C1 counterexample: with the empty caller dictionary and a two-byte
payload, the decoded metadata is the singleton with key `bytes`, while the
claim predicts the empty dictionary (the caller's dictionary with fn,
bytes and the pad key removed); the two differ as Python dictionaries. -/
theorem C1_counterexample :
    parse_message cfgClear (some (bs "a"))
        (encode_object cfgClear (bs "a") [104, 105] (some [])) false true
      = .ok (.full [(bs "bytes", .jint 2)] [104, 105]) ∧
    deq [(bs "bytes", .jint 2)] (spec_stripped_metadata []) = false :=
  ⟨rfl, rfl⟩

/-! ### C2: the metadata padding congruence -/

/-- C2 (corrected): in encrypted mode `encode_object` adds a `_` key whose
value is a run of underscores, but the length of the JSON-serialized
metadata that is then encrypted is congruent to 11 modulo 148, not to 0 as
the claim states: re-serializing after inserting the pad entry adds the
pad length plus eleven framing bytes. -/
theorem C2_metadata_padding (cfg : MailfileConfig)
    (henc : cfg.encrypt = true) (p d : List Nat) (m : PyDict)
    (hnd : (dkeys m).Nodup) (hm : bs "_" ∉ dkeys m) :
    dget (encode_mdata_final cfg p d m) (bs "_") =
      some (.jstr (List.replicate
        (148 - (json_dumps_indent1 (encode_mdata p d (some m))).length % 148)
        95)) ∧
    (encode_xmailfile_plain cfg p d (some m)).length % 148 = 11 := by
  refine ⟨?_, encode_xmailfile_plain_length cfg henc p d m hnd hm⟩
  rw [dget_mdataF cfg p d m hnd]
  simp [henc]

/-- C2 witness: the corrected padding property at a concrete encrypted
configuration, path, payload and empty metadata dictionary. -/
theorem C2_metadata_padding_witness :
    dget (encode_mdata_final cfgEnc (bs "b") [104] []) (bs "_") =
      some (.jstr (List.replicate
        (148 - (json_dumps_indent1 (encode_mdata (bs "b") [104] (some []))).length % 148)
        95)) ∧
    (encode_xmailfile_plain cfgEnc (bs "b") [104] (some [])).length % 148 = 11 :=
  C2_metadata_padding cfgEnc rfl (bs "b") [104] [] List.nodup_nil (by decide)

/-- C2 counterexample: at a concrete encrypted-mode input the serialized
metadata length is not congruent to 0 modulo 148. -/
theorem C2_counterexample :
    (encode_xmailfile_plain cfgEnc (bs "a") [104, 105] (some [])).length % 148
      ≠ 0 := by decide

/-! ### C8: path normalization -/

/-- C8 (corrected): `_clean_path` trims leading and trailing slashes, but
its single `replace('//','/')` pass halves each slash run rather than
collapsing it; it agrees with the spec's full collapse exactly on inputs
with no run of three or more consecutive slashes. -/
theorem C8_clean_path (p : List Nat) (h : NoTripleSlash p) :
    clean_path p = spec_normalize_path p := by
  unfold clean_path spec_normalize_path
  apply replaceDoubleSlash_eq_collapse
  have h1 : NoTripleSlash (dropLeadingSlashes p) :=
    noTripleSlash_of_suffix (List.dropWhile_suffix _) h
  have h2 : NoTripleSlash
      ((dropLeadingSlashes p).reverse.dropWhile (· = 47)) :=
    noTripleSlash_of_suffix (List.dropWhile_suffix _) (noTripleSlash_reverse h1)
  exact noTripleSlash_reverse h2

/-- C8 witness: the two normalizations agree on the concrete path a//b,
which has no triple-slash run. -/
theorem C8_clean_path_witness :
    NoTripleSlash [97, 47, 47, 98] ∧
    clean_path [97, 47, 47, 98] = spec_normalize_path [97, 47, 47, 98] :=
  ⟨by decide, C8_clean_path [97, 47, 47, 98] (by decide)⟩

/-- C8 counterexample: on the path a///b the single replace pass yields
a//b while the spec's collapse yields a/b. -/
theorem C8_counterexample :
    clean_path [97, 47, 47, 47, 98] ≠
      spec_normalize_path [97, 47, 47, 47, 98] := by decide

/-! ### C10: `encode_object` does not mutate the caller's metadata dict

Python dictionaries are mutable heap objects, so aliasing matters for this
claim.  We model a micro-heap: a list of dictionaries, with an object
reference being an index into it.  `encode_object`'s dictionary operations
(`mdata = {}` — a fresh allocation — then `mdata.update(metadata)`,
`mdata.update({'fn': …, 'bytes': …})` and, when encrypting,
`mdata['_'] = …`) are replayed against the heap. -/

/-- Dereference: the dictionary a reference points to. -/
def storeGet (st : List PyDict) (r : Nat) : PyDict := st.getD r []

/-- The dictionary side effects of `encode_object file_path file_data
metadata` on a heap `st`, with `metadata` passed by reference; returns the
new heap and the reference to the `mdata` dictionary the function built.
`if metadata:` is Python truthiness: an empty dictionary is skipped. -/
def encode_object_dicts (cfg : MailfileConfig) (file_path file_data : List Nat)
    (st : List PyDict) (metadata : Option Nat) : List PyDict × Nat :=
  let mref := st.length
  let st1 := st ++ [[]]
  let st2 := match metadata with
    | some r =>
        if storeGet st1 r = [] then st1
        else st1.set mref (dupdate (storeGet st1 mref) (storeGet st1 r))
    | none => st1
  let st3 := st2.set mref
    (dupdate (storeGet st2 mref)
      [(bs "fn", .jstr file_path), (bs "bytes", .jint file_data.length)])
  if cfg.encrypt then
    (st3.set mref (encode_mdata_padded (storeGet st3 mref)), mref)
  else (st3, mref)

theorem storeGet_append_lt (st : List PyDict) (x : PyDict) (i : Nat)
    (h : i < st.length) : storeGet (st ++ [x]) i = storeGet st i := by
  simp [storeGet, List.getD, List.getElem?_append_left h]

theorem storeGet_append_len (st : List PyDict) (x : PyDict) :
    storeGet (st ++ [x]) st.length = x := by
  simp [storeGet, List.getD]

theorem storeGet_set_ne (st : List PyDict) (r : Nat) (v : PyDict) (i : Nat)
    (h : i ≠ r) : storeGet (st.set r v) i = storeGet st i := by
  simp [storeGet, List.getD, List.getElem?_set_ne (fun hh => h hh.symm)]

theorem storeGet_set_eq (st : List PyDict) (r : Nat) (v : PyDict)
    (h : r < st.length) : storeGet (st.set r v) r = v := by
  simp [storeGet, List.getD, List.getElem?_set_self, h]

/-- C10: `encode_object` leaves every dictionary the caller holds
unchanged; the `fn`, `bytes` and (when encrypting) `_` keys go into a
freshly allocated dictionary, which ends up equal to the pure
`encode_mdata_final`. -/
theorem C10_encode_object_no_mutation (cfg : MailfileConfig)
    (p d : List Nat) (st : List PyDict) (r : Nat) (hr : r < st.length) :
    (encode_object_dicts cfg p d st (some r)).2 = st.length ∧
    (∀ i, i < st.length →
      storeGet (encode_object_dicts cfg p d st (some r)).1 i =
        storeGet st i) ∧
    storeGet (encode_object_dicts cfg p d st (some r)).1 st.length =
      encode_mdata_final cfg p d (storeGet st r) := by
  have h1r : storeGet (st ++ [[]]) r = storeGet st r :=
    storeGet_append_lt st [] r hr
  have h1m : storeGet (st ++ [[]]) st.length = [] := storeGet_append_len st []
  simp only [encode_object_dicts, h1r, h1m]
  by_cases hE : storeGet st r = []
  · rw [if_pos hE]
    by_cases hEnc : cfg.encrypt = true
    · simp only [hEnc, if_true]
      refine ⟨by trivial, fun i hi => ?_, ?_⟩
      · have hir : i ≠ st.length := Nat.ne_of_lt hi
        simp [storeGet_set_ne, storeGet_append_lt, hir, hi]
      · simp [storeGet_set_eq, storeGet_append_len, encode_mdata_final,
          encode_mdata, hEnc, hE, dupdate]
    · simp only [hEnc, if_false]
      refine ⟨by trivial, fun i hi => ?_, ?_⟩
      · have hir : i ≠ st.length := Nat.ne_of_lt hi
        simp [storeGet_set_ne, storeGet_append_lt, hir, hi]
      · simp [storeGet_set_eq, storeGet_append_len, encode_mdata_final,
          encode_mdata, hEnc, hE, dupdate]
  · rw [if_neg hE]
    by_cases hEnc : cfg.encrypt = true
    · simp only [hEnc, if_true]
      refine ⟨by trivial, fun i hi => ?_, ?_⟩
      · have hir : i ≠ st.length := Nat.ne_of_lt hi
        simp [storeGet_set_ne, storeGet_append_lt, hir, hi]
      · simp [storeGet_set_eq, storeGet_append_len, h1r, encode_mdata_final,
          encode_mdata, hEnc, dupdate]
    · simp only [hEnc, if_false]
      refine ⟨by trivial, fun i hi => ?_, ?_⟩
      · have hir : i ≠ st.length := Nat.ne_of_lt hi
        simp [storeGet_set_ne, storeGet_append_lt, hir, hi]
      · simp [storeGet_set_eq, storeGet_append_len, h1r, encode_mdata_final,
          encode_mdata, hEnc, dupdate]

/-- C10 witness: on a concrete two-dictionary heap, encoding with a
reference to the second dictionary leaves both existing dictionaries in
place and builds the metadata in a fresh third cell. -/
theorem C10_encode_object_no_mutation_witness :
    (encode_object_dicts cfgEnc (bs "a") [104]
      [[(bs "x", .jint 7)], [(bs "k", .jstr (bs "v"))]] (some 1)).2 = 2 ∧
    (∀ i, i < 2 →
      storeGet (encode_object_dicts cfgEnc (bs "a") [104]
        [[(bs "x", .jint 7)], [(bs "k", .jstr (bs "v"))]] (some 1)).1 i =
        storeGet [[(bs "x", .jint 7)], [(bs "k", .jstr (bs "v"))]] i) ∧
    storeGet (encode_object_dicts cfgEnc (bs "a") [104]
      [[(bs "x", .jint 7)], [(bs "k", .jstr (bs "v"))]] (some 1)).1 2 =
      encode_mdata_final cfgEnc (bs "a") [104]
        (storeGet [[(bs "x", .jint 7)], [(bs "k", .jstr (bs "v"))]] 1) :=
  C10_encode_object_no_mutation cfgEnc (bs "a") [104]
    [[(bs "x", .jint 7)], [(bs "k", .jstr (bs "v"))]] 1 (by decide)

/-! ### C7: `open` on a tombstoned file

`Mailfile.open` source (596-620): the path is cleaned, `+` in the mode is
replaced by `w`; if the path is not in the write buffer, `_get_file` is
tried; a fetched metadata with a truthy `deleted` flag has the flag
deleted for write intent and then raises OSError, which the surrounding
`except (OSError, IOError, KeyError, ValueError)` turns into a wrapped
OSError for read modes and into an empty-contents success for `w`/`a`
modes (the mutated metadata object is kept). -/

/-- The exception classes that can cross `_get_file` and `open`. -/
inductive OpenErr
  | osError | ioError | keyError | valueError | invalidToken | typeError
  | nameError | attributeError | indexError
  deriving DecidableEq, Repr

/-- Membership in `except (OSError, IOError, KeyError, ValueError)`. -/
def openCaught : OpenErr → Bool
  | .osError => true
  | .ioError => true
  | .keyError => true
  | .valueError => true
  | _ => false

/-- Python truthiness of `metadata.get('deleted')` (absent key gives
`None`, which is falsy). -/
def jtruthy : Option JVal → Bool
  | none => false
  | some .jnull => false
  | some (.jbool b) => b
  | some (.jint n) => decide (n ≠ 0)
  | some (.jstr s) => decide (s ≠ [])

/-- `mode = mode.replace('+', 'w')`. -/
def modeReplacePlus (m : List Nat) : List Nat :=
  m.map (fun c => if c = 43 then 119 else c)

/-- What `Mailfile_File(self, file_path, mode, metadata, contents)`
captures. -/
structure OpenResult where
  file_path : List Nat
  mode : List Nat
  metadata : PyDict
  contents : List Nat
  deriving DecidableEq, Repr

/-- `Mailfile.open`, with the write-buffer entry for the cleaned path and
the outcome of `_get_file` passed in as the environment. -/
def mailfile_open (buffered : Option (List Nat × PyDict))
    (getFile : Except OpenErr (PyDict × List Nat))
    (file_path mode0 : List Nat) : Except OpenErr OpenResult :=
  let mode := modeReplacePlus mode0
  let wa : Bool := decide (119 ∈ mode) || decide (97 ∈ mode)
  let ra : Bool := decide (114 ∈ mode) || decide (97 ∈ mode)
  match buffered with
  | some (bcontents, bmetadata) =>
      .ok { file_path := file_path, mode := mode, metadata := bmetadata,
            contents := if ra then bcontents else [] }
  | none =>
      match getFile with
      | .ok (metadata, contents) =>
          if jtruthy (dget metadata (bs "deleted")) then
            if wa then
              .ok { file_path := file_path, mode := mode,
                    metadata := ddel metadata (bs "deleted"),
                    contents := [] }
            else .error .osError
          else
            .ok { file_path := file_path, mode := mode, metadata := metadata,
                  contents := if ra then contents else [] }
      | .error e =>
          if openCaught e then
            if wa then
              .ok { file_path := file_path, mode := mode, metadata := [],
                    contents := [] }
            else .error .osError
          else .error e

/-- C7: a file whose fetched metadata carries a truthy `deleted` flag and
which is not in the write buffer cannot be opened for reading, while
opening it for writing succeeds with empty contents and a metadata
dictionary in which the `deleted` key is gone. -/
theorem C7_tombstone_open (p c : List Nat) (m : PyDict)
    (hdel : jtruthy (dget m (bs "deleted")) = true)
    (hnd : (dkeys m).Nodup) :
    mailfile_open none (.ok (m, c)) p (bs "r") = .error .osError ∧
    ∃ res, mailfile_open none (.ok (m, c)) p (bs "w") = .ok res ∧
      res.contents = [] ∧ dget res.metadata (bs "deleted") = none := by
  constructor
  · simp only [mailfile_open, hdel]
    rfl
  · refine ⟨OpenResult.mk p (bs "w") (ddel m (bs "deleted")) [], ?_, rfl, ?_⟩
    · simp only [mailfile_open, hdel]
      rfl
    · show dget (ddel m (bs "deleted")) (bs "deleted") = none
      rw [dget_ddel _ _ _ hnd, if_pos rfl]

/-- C7 witness: the tombstone behaviour of `open` at a concrete deleted
file. -/
theorem C7_tombstone_open_witness :
    mailfile_open none (.ok ([(bs "deleted", .jbool true)], bs "x"))
      (bs "k") (bs "r") = .error .osError ∧
    ∃ res, mailfile_open none (.ok ([(bs "deleted", .jbool true)], bs "x"))
        (bs "k") (bs "w") = .ok res ∧
      res.contents = [] ∧ dget res.metadata (bs "deleted") = none :=
  C7_tombstone_open (bs "k") (bs "x") [(bs "deleted", .jbool true)]
    (by decide) (by decide)

/-! ### C9: `remove` drops the buffered handle before the existence check

`Mailfile.remove` source (555-563): the cleaned path is deleted from
`self._unwritten` first; only then is `self._tree.get(file_path)`
consulted, and a missing entry raises `OSError('No such file: …')`. -/

/-- Association-list lookup for the write buffer (`path in dict` /
`dict[path]`). -/
def ulookup : List (List Nat × (List Nat × PyDict)) → List Nat →
    Option (List Nat × PyDict)
  | [], _ => none
  | (k0, v) :: t, k => if k0 = k then some v else ulookup t k

/-- Association-list deletion for the write buffer (`del dict[path]`). -/
def udel : List (List Nat × (List Nat × PyDict)) → List Nat →
    List (List Nat × (List Nat × PyDict))
  | [], _ => []
  | (k0, v) :: t, k => if k0 = k then udel t k else (k0, v) :: udel t k

theorem ulookup_udel_self (u : List (List Nat × (List Nat × PyDict)))
    (k : List Nat) : ulookup (udel u k) k = none := by
  induction u with
  | nil => rfl
  | cons kv t ih =>
      obtain ⟨k0, v⟩ := kv
      by_cases h : k0 = k
      · simp [udel, h, ih]
      · simp [udel, ulookup, h, ih]

/-- The opening steps of `Mailfile.remove` up to the existence check: the
write-buffer deletion and then the `self._tree.get` lookup; returns the
buffer as it stands when the check resolves, and the outcome. -/
def remove_precheck (unwritten : List (List Nat × (List Nat × PyDict)))
    (tree_get : List Nat → Option (Nat × PyDict × List Nat))
    (file_path0 : List Nat) :
    List (List Nat × (List Nat × PyDict)) × Except OpenErr Unit :=
  let file_path := clean_path file_path0
  let unwritten :=
    if (ulookup unwritten file_path).isSome then udel unwritten file_path
    else unwritten
  match tree_get file_path with
  | none => (unwritten, .error .osError)
  | some _ => (unwritten, .ok ())

/-- C9: when the cleaned path is buffered but absent from the index,
`remove` raises the no-such-file error, and at that moment the buffered
handle has already been deleted from the write buffer. -/
theorem C9_remove_drops_buffer
    (unwritten : List (List Nat × (List Nat × PyDict)))
    (tree_get : List Nat → Option (Nat × PyDict × List Nat)) (p : List Nat)
    (hbuf : (ulookup unwritten (clean_path p)).isSome = true)
    (htree : tree_get (clean_path p) = none) :
    (remove_precheck unwritten tree_get p).2 = .error .osError ∧
    ulookup (remove_precheck unwritten tree_get p).1 (clean_path p) =
      none := by
  simp only [remove_precheck, hbuf, if_true, htree]
  exact ⟨by trivial, ulookup_udel_self unwritten (clean_path p)⟩

/-- C9 witness: a concrete buffered, unindexed path loses its buffered
handle while `remove` fails. -/
theorem C9_remove_drops_buffer_witness :
    (remove_precheck [(bs "a", (bs "data", []))] (fun _ => none)
      (bs "a")).2 = .error .osError ∧
    ulookup (remove_precheck [(bs "a", (bs "data", []))] (fun _ => none)
      (bs "a")).1 (clean_path (bs "a")) = none :=
  C9_remove_drops_buffer [(bs "a", (bs "data", []))] (fun _ => none)
    (bs "a") (by decide) rfl

/-! ## The synchronization engine

`Mailfile.synchronize` (source 216-311) and `_parse_snapshot` (325-338).
Python sets become `Finset ℕ`; the metadata index `self._tree` becomes an
association list from JSON values (the `fn` field) to entries.  The IMAP
server and the codec are abstracted by oracles: `fetch` is the combined
outcome of the `FETCH` call and `_parse_message(None, …, headersonly=True,
clean=False)` (`none` covers every exception class the scan loop catches,
which is all that can arise there), and `snap` is the outcome of reading
and decompressing the snapshot file in `_parse_snapshot`. -/

/-- `sorted(…)` on the contents of a `Finset ℕ` (insertion sort agrees
with Python's `sorted` on integers). -/
def fsort (s : Finset Nat) : List Nat :=
  Quot.liftOn s.val (fun l => l.insertionSort (· ≤ ·))
    (fun l₁ l₂ h =>
      List.eq_of_perm_of_sorted
        ((l₁.perm_insertionSort (· ≤ ·)).trans
          (h.trans (l₂.perm_insertionSort (· ≤ ·)).symm))
        (List.sorted_insertionSort (· ≤ ·) l₁)
        (List.sorted_insertionSort (· ≤ ·) l₂))

theorem mem_fsort (s : Finset Nat) (x : Nat) : x ∈ fsort s ↔ x ∈ s := by
  obtain ⟨m, hm⟩ := s
  induction m using Quot.inductionOn with
  | h l =>
      show x ∈ l.insertionSort (· ≤ ·) ↔ _
      rw [(l.perm_insertionSort (· ≤ ·)).mem_iff]
      exact Iff.rfl

theorem fsort_sorted (s : Finset Nat) : (fsort s).Sorted (· ≤ ·) := by
  obtain ⟨m, hm⟩ := s
  induction m using Quot.inductionOn with
  | h l => exact List.sorted_insertionSort (· ≤ ·) l

theorem fsort_length (s : Finset Nat) : (fsort s).length = s.card := by
  obtain ⟨m, hm⟩ := s
  induction m using Quot.inductionOn with
  | h l => exact (l.perm_insertionSort (· ≤ ·)).length_eq

/-- Python's `sorted` used on plain lists (`sorted(seqs)`). -/
def sortNat (l : List Nat) : List Nat := l.insertionSort (· ≤ ·)

/-- Python list slicing `l[i:]` with a possibly negative start index. -/
def pySliceFrom (i : Int) (l : List Nat) : List Nat :=
  if i < 0 then l.drop ((l.length + i).toNat)
  else l.drop i.toNat

theorem pySliceFrom_sublist (i : Int) (l : List Nat) :
    (pySliceFrom i l).Sublist l := by
  unfold pySliceFrom
  by_cases h : i < 0
  · rw [if_pos h]; exact (List.drop_sublist _ l)
  · rw [if_neg h]; exact (List.drop_sublist _ l)

theorem pySliceFrom_length_le (w : Int) (hw : 0 < w) (l : List Nat) :
    ((pySliceFrom (-w) l).length : Int) ≤ w := by
  unfold pySliceFrom
  rw [if_pos (by omega)]
  rw [List.length_drop]
  omega

/-- A positive-width slice from the end keeps the last element. -/
theorem pySliceFrom_getLast_mem (w : Int) (hw : 0 < w) (l : List Nat)
    (hne : l ≠ []) : l.getLast hne ∈ pySliceFrom (-w) l := by
  unfold pySliceFrom
  rw [if_pos (by omega)]
  have hlt : ((l.length : Int) + -w).toNat < l.length := by
    have : 0 < l.length := List.length_pos.mpr hne
    omega
  have hdrop : l.drop ((l.length : Int) + -w).toNat ≠ [] := by
    intro hcontra
    have := congrArg List.length hcontra
    rw [List.length_drop] at this
    simp at this
    omega
  have h2 : l.getLast? = (l.drop ((l.length : Int) + -w).toNat).getLast? := by
    conv_lhs => rw [← List.take_append_drop (((l.length : Int) + -w).toNat) l]
    exact List.getLast?_append_of_ne_nil _ hdrop
  have h3 : (l.drop ((l.length : Int) + -w).toNat).getLast? =
      some (l.getLast hne) := by
    rw [← h2, List.getLast?_eq_getLast l hne]
  exact List.mem_of_mem_getLast? h3

/-- In a `≤`-sorted list every element is at most the last. -/
theorem sorted_le_getLast :
    ∀ (l : List Nat) (h : l ≠ []), l.Sorted (· ≤ ·) →
      ∀ x ∈ l, x ≤ l.getLast h
  | [], h, _, _, _ => absurd rfl h
  | [a], _, _, x, hx => by
      simp at hx
      subst hx
      simp [List.getLast_singleton]
  | a :: b :: t, _, hs, x, hx => by
      rw [List.sorted_cons] at hs
      obtain ⟨ha, hs'⟩ := hs
      rw [List.getLast_cons (by simp)]
      rcases List.mem_cons.mp hx with rfl | hx'
      · exact ha _ (List.getLast_mem (by simp))
      · exact sorted_le_getLast (b :: t) (by simp) hs' x hx'

/-- An index entry: `(latest_seq, metadata, version_set)`. -/
structure SEntry where
  seq : Nat
  md : PyDict
  vs : Finset Nat
  deriving DecidableEq

/-- `self._tree[fp]` (first binding). -/
def tget (t : List (JVal × SEntry)) (k : JVal) : Option SEntry :=
  match t with
  | [] => none
  | (k0, v0) :: t => if k0 = k then some v0 else tget t k

/-- `self._tree[fp] = e`: replace in place if present, else append. -/
def tset (t : List (JVal × SEntry)) (k : JVal) (v : SEntry) :
    List (JVal × SEntry) :=
  match t with
  | [] => [(k, v)]
  | (k0, v0) :: t => if k0 = k then (k, v) :: t else (k0, v0) :: tset t k v

theorem tget_tset (t : List (JVal × SEntry)) (k : JVal) (v : SEntry)
    (k' : JVal) : tget (tset t k v) k' = if k' = k then some v else tget t k' := by
  induction t with
  | nil =>
      by_cases h : k' = k
      · subst h; simp [tset, tget]
      · have h2 : ¬ k = k' := fun hh => h hh.symm
        simp [tset, tget, h, h2]
  | cons kv t ih =>
      obtain ⟨k0, v0⟩ := kv
      by_cases h0 : k0 = k
      · subst h0
        by_cases h : k0 = k'
        · subst h; simp [tset, tget]
        · have h2 : ¬ k' = k0 := fun hh => h hh.symm
          simp [tset, tget, h, h2]
      · by_cases h : k0 = k'
        · subst h
          simp [tset, tget, h0]
        · simp [tset, tget, h0, h, ih]

theorem tset_tset (t : List (JVal × SEntry)) (k : JVal) (a b : SEntry) :
    tset (tset t k a) k b = tset t k b := by
  induction t with
  | nil => simp [tset]
  | cons kv t ih =>
      obtain ⟨k0, v0⟩ := kv
      by_cases h0 : k0 = k
      · subst h0; simp [tset]
      · simp [tset, h0, ih]

theorem mem_tset (t : List (JVal × SEntry)) (k : JVal) (v : SEntry)
    (p : JVal × SEntry) (hp : p ∈ tset t k v) : p ∈ t ∨ p = (k, v) := by
  induction t with
  | nil => simp [tset] at hp; right; simp [hp]
  | cons kv t ih =>
      obtain ⟨k0, v0⟩ := kv
      by_cases h0 : k0 = k
      · subst h0
        simp [tset] at hp
        rcases hp with h | h
        · right; simp [h]
        · left; simp [h]
      · simp [tset, h0] at hp
        rcases hp with h | h
        · left; simp [h]
        · rcases ih h with h' | h'
          · left; simp [h']
          · right; exact h'

theorem tget_mem (t : List (JVal × SEntry)) (k : JVal) (e : SEntry)
    (h : tget t k = some e) : (k, e) ∈ t := by
  induction t with
  | nil => simp [tget] at h
  | cons kv t ih =>
      obtain ⟨k0, v0⟩ := kv
      by_cases h0 : k0 = k
      · subst h0
        simp [tget] at h
        simp [h]
      · simp [tget, h0] at h
        simp [ih h]

/-- `_SNAPSHOT_FILE_PATH = 'Mailfile/metadata'`. -/
def snapshotFilePath : List Nat := bs "Mailfile/metadata"

/-- The mutable synchronization state: `self._tree`, `self._seen` and the
scan's `distance` counter. -/
structure SyncSt where
  tree : List (JVal × SEntry)
  seen : Finset Nat
  distance : Nat
  deriving DecidableEq

/-- Outcome of reading, decompressing and JSON-decoding the snapshot file
in `_parse_snapshot`: a well-typed snapshot object, a `ValueError` (caught
at the call site in `synchronize`), or any other exception (which
propagates and aborts `synchronize`). -/
inductive SnapResult
  | ok (entries : List (JVal × Nat × PyDict × List Nat)) (snapSeen : List Nat)
  | valueError
  | uncaught
  deriving DecidableEq

/-- `metadata.get('versions', 1)` as a slice width: Python booleans are
ints; any other non-int value makes `sorted(versions)[-wanted:]` raise
`TypeError`, modelled as `none`. -/
def getWanted (md : PyDict) : Option Int :=
  match dget md (bs "versions") with
  | none => some 1
  | some (.jint n) => some n
  | some (.jbool b) => some (if b then 1 else 0)
  | some _ => none

/-- `getWanted` succeeds with a positive width. -/
def goodWanted (md : PyDict) : Bool :=
  match getWanted md with
  | some w => decide (1 ≤ w)
  | none => false

/-- One iteration of the `for file_path in snapshot['tree']` loop of
`_parse_snapshot`: skip sequences not in `existing`, intersect the version
list with `existing`, merge into an existing entry's version set in place,
and replace the entry when the snapshot's sequence is newer. -/
def ingestEntry (existing : Finset Nat) (tree : List (JVal × SEntry))
    (fp : JVal) (sq : Nat) (smd : PyDict) (svl : List Nat) :
    List (JVal × SEntry) :=
  if sq ∉ existing then tree
  else
    let svs0 := svl.toFinset ∩ existing
    match tget tree fp with
    | some e =>
        let svs := svs0 ∪ (e.vs ∩ existing)
        let tree1 := tset tree fp { e with vs := e.vs ∪ svs }
        if sq > e.seq then tset tree1 fp ⟨sq, smd, svs⟩ else tree1
    | none => tset tree fp ⟨sq, smd, svs0⟩

/-- `_parse_snapshot(seq, existing)` as seen from `synchronize`, including
the `except ValueError` at its call site. -/
def parse_snapshot_model (existing : Finset Nat) (res : SnapResult)
    (st : SyncSt) : Option SyncSt :=
  match res with
  | .ok entries snapSeen =>
      some { st with
        tree := entries.foldl
          (fun t ent => ingestEntry existing t ent.1 ent.2.1 ent.2.2.1 ent.2.2.2)
          st.tree,
        seen := st.seen ∪ (snapSeen.toFinset ∩ existing) }
  | .valueError => some st
  | .uncaught => none

/-- The reverse scan (`for seq in reversed(seqs)`), lines 253-282: break on
a seen sequence; a failed fetch or parse marks the sequence broken (the
`broken` set is local and never merged into `self._seen`); a parsed
message adds its sequence to `self._seen` and updates the index when
newer; a snapshot file is ingested unless `ignore_snapshot`. -/
def scanLoop (fetch : Nat → Option PyDict) (snap : Nat → SnapResult)
    (ignore_snapshot : Bool) (existing : Finset Nat) :
    List Nat → SyncSt → Option SyncSt
  | [], st => some st
  | seq :: rest, st =>
      if seq ∈ st.seen then some st
      else
        match fetch seq with
        | none => scanLoop fetch snap ignore_snapshot existing rest st
        | some metadata =>
            match dget metadata (bs "fn") with
            | none => scanLoop fetch snap ignore_snapshot existing rest st
            | some fp =>
                let st1 : SyncSt :=
                  { st with seen := insert seq st.seen,
                            distance := st.distance + 1 }
                let cond : Bool :=
                  match tget st1.tree fp with
                  | none => true
                  | some e => decide (e.seq < seq)
                if cond then
                  let versions : Finset Nat :=
                    match tget st1.tree fp with
                    | some e => insert seq e.vs
                    | none => {seq}
                  let st2 : SyncSt := SyncSt.mk
                    (tset st1.tree fp ⟨seq, clean_metadata metadata, versions⟩)
                    st1.seen st1.distance
                  if fp = .jstr snapshotFilePath ∧ ignore_snapshot = false then
                    match parse_snapshot_model existing (snap seq) st2 with
                    | some st3 =>
                        scanLoop fetch snap ignore_snapshot existing rest st3
                    | none => none
                  else scanLoop fetch snap ignore_snapshot existing rest st2
                else scanLoop fetch snap ignore_snapshot existing rest st1

/-- The cleanup pass over the index (lines 284-297): per entry, keep the
`wanted` newest stored versions; a `TypeError` from a non-int `versions`
value aborts. Returns the new index and the union of kept sequences. -/
def cleanupTree (existing : Finset Nat) :
    List (JVal × SEntry) → Option (List (JVal × SEntry) × Finset Nat)
  | [] => some ([], ∅)
  | (fp, e) :: rest =>
      match getWanted e.md with
      | none => none
      | some wanted =>
          let vs := insert e.seq e.vs
          let keep := existing ∩ (pySliceFrom (-wanted) (fsort vs)).toFinset
          match cleanupTree existing rest with
          | none => none
          | some (tree', keeping') =>
              if h : keep.Nonempty then
                some ((fp, ⟨keep.max' h, e.md, keep⟩) :: tree',
                  keep ∪ keeping')
              else some (tree', keep ∪ keeping')

/-- The `if cleanup:` block (lines 284-307): rebuild the index, and when
the expunge round trip succeeds drop the unkept sequences from
`self._seen`. -/
def cleanup_phase (existing : Finset Nat) (expungeOK : Bool) (st : SyncSt) :
    Option SyncSt :=
  match cleanupTree existing st.tree with
  | none => none
  | some (tree', keeping) =>
      let to_delete := st.seen \ keeping
      let seen' :=
        if to_delete ≠ ∅ ∧ expungeOK then st.seen \ to_delete else st.seen
      some { st with tree := tree', seen := seen' }

/-- `Mailfile.synchronize` over the oracles: sort the sequence ids, run
the reverse scan, optionally clean up, and intersect `self._seen` with the
existing sequences.  `none` is an uncaught exception; snapshot saving
(`snapshot=False`) touches only the write buffer and is omitted. -/
def synchronize_model (fetch : Nat → Option PyDict) (snap : Nat → SnapResult)
    (cleanup ignore_snapshot expungeOK : Bool) (seqs : List Nat)
    (st : SyncSt) : Option SyncSt :=
  let existing := seqs.toFinset
  match scanLoop fetch snap ignore_snapshot existing (sortNat seqs).reverse st with
  | none => none
  | some st1 =>
      match (if cleanup then cleanup_phase existing expungeOK st1
             else some st1) with
      | none => none
      | some st2 => some { st2 with seen := st2.seen ∩ existing }

/-! ### C6: what the scan records in `self._seen` -/

/-- Along a snapshot-ignoring scan, every sequence in the final `Seen` set
was already seen or had a fetch that parsed and carried an `fn` key; the
`broken` set (source line 251) is local to `synchronize` and its members
are never added to `self._seen`. -/
theorem scanLoop_seen_src (fetch : Nat → Option PyDict)
    (snap : Nat → SnapResult) (existing : Finset Nat) :
    ∀ (lst : List Nat) (st st' : SyncSt),
      scanLoop fetch snap true existing lst st = some st' →
      ∀ q ∈ st'.seen,
        q ∈ st.seen ∨ ∃ md, fetch q = some md ∧ (dget md (bs "fn")).isSome
  | [], st, st', h, q, hq => by
      unfold scanLoop at h
      injection h with h
      subst h
      exact Or.inl hq
  | seq :: rest, st, st', h, q, hq => by
      unfold scanLoop at h
      by_cases hseen : seq ∈ st.seen
      · rw [if_pos hseen] at h
        injection h with h
        subst h
        exact Or.inl hq
      · rw [if_neg hseen] at h
        cases hf : fetch seq with
        | none =>
            rw [hf] at h
            simp only [] at h
            exact scanLoop_seen_src fetch snap existing rest st st' h q hq
        | some metadata =>
            rw [hf] at h
            simp only [] at h
            cases hd : dget metadata (bs "fn") with
            | none =>
                rw [hd] at h
                simp only [] at h
                exact scanLoop_seen_src fetch snap existing rest st st' h q hq
            | some fp =>
                rw [hd] at h
                simp only [] at h
                rw [if_neg (fun hco : _ ∧ true = false =>
                  Bool.noConfusion hco.2)] at h
                have key : ∀ st2 : SyncSt, st2.seen = insert seq st.seen →
                    scanLoop fetch snap true existing rest st2 = some st' →
                    q ∈ st.seen ∨
                      ∃ md, fetch q = some md ∧
                        (dget md (bs "fn")).isSome := by
                  intro st2 hs2 h2
                  rcases scanLoop_seen_src fetch snap existing rest st2 st' h2
                      q hq with hin | hacc
                  · rw [hs2] at hin
                    rcases Finset.mem_insert.mp hin with rfl | hin'
                    · exact Or.inr ⟨metadata, hf, by rw [hd]; rfl⟩
                    · exact Or.inl hin'
                  · exact Or.inr hacc
                rcases ite_eq_iff.mp h with ⟨hc, h2⟩ | ⟨hc, h2⟩
                · exact key _ rfl h2
                · exact key _ rfl h2

/-- C6 (corrected): after a snapshot-ignoring `synchronize` without
cleanup, the `Seen` set contains only sequences that were already seen
before the call or whose message was fetched and parsed with an `fn` key.
Sequences rejected as broken are never added: the scan's `broken` set is a
local variable that `synchronize` discards. -/
theorem C6_seen_requires_parse (fetch : Nat → Option PyDict)
    (snap : Nat → SnapResult) (eok : Bool) (seqs : List Nat)
    (st0 st' : SyncSt)
    (hres : synchronize_model fetch snap false true eok seqs st0 = some st')
    (q : Nat) (hq : q ∈ st'.seen) :
    q ∈ st0.seen ∨ ∃ md, fetch q = some md ∧ (dget md (bs "fn")).isSome := by
  unfold synchronize_model at hres
  simp only [] at hres
  cases hsc : scanLoop fetch snap true seqs.toFinset (sortNat seqs).reverse
      st0 with
  | none =>
      rw [hsc] at hres
      exact absurd hres (by simp)
  | some st1 =>
      rw [hsc] at hres
      simp only [] at hres
      rw [if_neg (fun hco : false = true => Bool.noConfusion hco)] at hres
      simp only [] at hres
      injection hres with hres
      subst hres
      have hq1 : q ∈ st1.seen := by
        have := hq
        simp only [Finset.mem_inter] at this
        exact this.1
      exact scanLoop_seen_src fetch snap seqs.toFinset (sortNat seqs).reverse
        st0 st1 hsc q hq1

/-- C6 witness: the corrected provenance at a concrete run that accepts
one message. -/
theorem C6_seen_requires_parse_witness :
    (1 : Nat) ∈ SyncSt.seen ⟨[], ∅, 0⟩ ∨
    ∃ md, (fun _ : Nat => some [(bs "fn", JVal.jstr (bs "a"))]) 1 = some md ∧
      (dget md (bs "fn")).isSome :=
  C6_seen_requires_parse
    (fun _ => some [(bs "fn", JVal.jstr (bs "a"))]) (fun _ => .valueError)
    true [1]
    ⟨[], ∅, 0⟩ ⟨[(.jstr (bs "a"), ⟨1, [], {1}⟩)], {1}, 1⟩
    (by decide) 1 (by decide)

/-- C6 counterexample: a single broken message (its fetch fails) is
examined by the scan but ends up outside `Seen`, where the claim says
every examined sequence lands in `Seen`. -/
theorem C6_counterexample :
    synchronize_model (fun _ => none) (fun _ => .valueError) false true true
      [1] ⟨[], ∅, 0⟩ = some ⟨[], ∅, 0⟩ ∧
    (1 : Nat) ∉ (SyncSt.seen ⟨[], ∅, 0⟩) := by
  exact ⟨rfl, by decide⟩

/-! ### Preservation of per-entry properties through the sync phases -/

/-- `ingestEntry` builds its results from three constructions; a property
holding on the inputs and closed under them holds on the output. -/
theorem ingestEntry_pres (P : SEntry → Prop) (existing : Finset Nat)
    (tree : List (JVal × SEntry)) (fp : JVal) (sq : Nat) (smd : PyDict)
    (svl : List Nat)
    (Hfresh : sq ∈ existing → P ⟨sq, smd, svl.toFinset ∩ existing⟩)
    (Hplace : ∀ e : SEntry, sq ∈ existing → sq ≤ e.seq → P e →
        P ⟨e.seq, e.md,
          e.vs ∪ ((svl.toFinset ∩ existing) ∪ (e.vs ∩ existing))⟩)
    (Hrepl : ∀ e : SEntry, sq ∈ existing → e.seq < sq → P e →
        P ⟨sq, smd, (svl.toFinset ∩ existing) ∪ (e.vs ∩ existing)⟩)
    (hP : ∀ p ∈ tree, P p.2) :
    ∀ p ∈ ingestEntry existing tree fp sq smd svl, P p.2 := by
  unfold ingestEntry
  by_cases hsq : sq ∉ existing
  · rw [if_pos hsq]
    exact hP
  · rw [if_neg hsq]
    rw [not_not] at hsq
    simp only []
    cases hg : tget tree fp with
    | none =>
        simp only []
        intro p hp
        rcases mem_tset _ _ _ _ hp with h | h
        · exact hP p h
        · rw [h]
          exact Hfresh hsq
    | some e =>
        simp only []
        have hPe : P e := hP (fp, e) (tget_mem _ _ _ hg)
        by_cases hgt : sq > e.seq
        · rw [if_pos hgt, tset_tset]
          intro p hp
          rcases mem_tset _ _ _ _ hp with h | h
          · exact hP p h
          · rw [h]
            exact Hrepl e hsq hgt hPe
        · rw [if_neg hgt]
          intro p hp
          rcases mem_tset _ _ _ _ hp with h | h
          · exact hP p h
          · rw [h]
            exact Hplace e hsq (Nat.le_of_not_lt hgt) hPe

/-- The snapshot ingest loop preserves entry properties closed under the
three `ingestEntry` constructions. -/
theorem ingest_foldl_pres (P : SEntry → Prop) (existing : Finset Nat) :
    ∀ (entries : List (JVal × Nat × PyDict × List Nat)),
      (∀ ent ∈ entries, ent.2.1 ∈ existing →
        P ⟨ent.2.1, ent.2.2.1, ent.2.2.2.toFinset ∩ existing⟩) →
      (∀ ent ∈ entries, ∀ e : SEntry, ent.2.1 ∈ existing →
        ent.2.1 ≤ e.seq → P e →
        P ⟨e.seq, e.md,
          e.vs ∪ ((ent.2.2.2.toFinset ∩ existing) ∪ (e.vs ∩ existing))⟩) →
      (∀ ent ∈ entries, ∀ e : SEntry, ent.2.1 ∈ existing →
        e.seq < ent.2.1 → P e →
        P ⟨ent.2.1, ent.2.2.1,
          (ent.2.2.2.toFinset ∩ existing) ∪ (e.vs ∩ existing)⟩) →
      ∀ (tree : List (JVal × SEntry)), (∀ p ∈ tree, P p.2) →
      ∀ p ∈ entries.foldl
        (fun t ent => ingestEntry existing t ent.1 ent.2.1 ent.2.2.1 ent.2.2.2)
        tree, P p.2
  | [], _, _, _, tree, hP, p, hp => hP p hp
  | ent :: rest, H3, H4, H5, tree, hP, p, hp => by
      rw [List.foldl_cons] at hp
      refine ingest_foldl_pres P existing rest
        (fun e he => H3 e (List.mem_cons_of_mem ent he))
        (fun e he => H4 e (List.mem_cons_of_mem ent he))
        (fun e he => H5 e (List.mem_cons_of_mem ent he))
        _ ?_ p hp
      exact ingestEntry_pres P existing tree ent.1 ent.2.1 ent.2.2.1 ent.2.2.2
        (H3 ent (List.mem_cons_self ent rest))
        (H4 ent (List.mem_cons_self ent rest))
        (H5 ent (List.mem_cons_self ent rest)) hP

/-- `_parse_snapshot` preserves entry properties closed under the
`ingestEntry` constructions. -/
theorem parse_snapshot_pres (P : SEntry → Prop) (existing : Finset Nat)
    (res : SnapResult) (st st' : SyncSt)
    (h : parse_snapshot_model existing res st = some st')
    (H3 : ∀ entries ss, res = .ok entries ss → ∀ ent ∈ entries,
        ent.2.1 ∈ existing →
        P ⟨ent.2.1, ent.2.2.1, ent.2.2.2.toFinset ∩ existing⟩)
    (H4 : ∀ entries ss, res = .ok entries ss → ∀ ent ∈ entries,
        ∀ e : SEntry, ent.2.1 ∈ existing → ent.2.1 ≤ e.seq → P e →
        P ⟨e.seq, e.md,
          e.vs ∪ ((ent.2.2.2.toFinset ∩ existing) ∪ (e.vs ∩ existing))⟩)
    (H5 : ∀ entries ss, res = .ok entries ss → ∀ ent ∈ entries,
        ∀ e : SEntry, ent.2.1 ∈ existing → e.seq < ent.2.1 → P e →
        P ⟨ent.2.1, ent.2.2.1,
          (ent.2.2.2.toFinset ∩ existing) ∪ (e.vs ∩ existing)⟩)
    (hP : ∀ p ∈ st.tree, P p.2) : ∀ p ∈ st'.tree, P p.2 := by
  cases res with
  | ok entries snapSeen =>
      unfold parse_snapshot_model at h
      injection h with h
      subst h
      exact ingest_foldl_pres P existing entries
        (H3 entries snapSeen rfl) (H4 entries snapSeen rfl)
        (H5 entries snapSeen rfl) st.tree hP
  | valueError =>
      unfold parse_snapshot_model at h
      injection h with h
      subst h
      exact hP
  | uncaught =>
      unfold parse_snapshot_model at h
      exact absurd h (by simp)

/-- The reverse scan preserves entry properties closed under the scan's
two index updates and the snapshot-ingest constructions. -/
theorem scanLoop_tree_pres (P : SEntry → Prop) (fetch : Nat → Option PyDict)
    (snap : Nat → SnapResult) (ig : Bool) (existing : Finset Nat)
    (H1 : ∀ seq md, seq ∈ existing → fetch seq = some md →
        P ⟨seq, clean_metadata md, {seq}⟩)
    (H2 : ∀ seq md (e : SEntry), seq ∈ existing → fetch seq = some md →
        P e → e.seq < seq → P ⟨seq, clean_metadata md, insert seq e.vs⟩)
    (H3 : ∀ q entries ss, snap q = .ok entries ss → ∀ ent ∈ entries,
        ent.2.1 ∈ existing →
        P ⟨ent.2.1, ent.2.2.1, ent.2.2.2.toFinset ∩ existing⟩)
    (H4 : ∀ q entries ss, snap q = .ok entries ss → ∀ ent ∈ entries,
        ∀ e : SEntry, ent.2.1 ∈ existing → ent.2.1 ≤ e.seq → P e →
        P ⟨e.seq, e.md,
          e.vs ∪ ((ent.2.2.2.toFinset ∩ existing) ∪ (e.vs ∩ existing))⟩)
    (H5 : ∀ q entries ss, snap q = .ok entries ss → ∀ ent ∈ entries,
        ∀ e : SEntry, ent.2.1 ∈ existing → e.seq < ent.2.1 → P e →
        P ⟨ent.2.1, ent.2.2.1,
          (ent.2.2.2.toFinset ∩ existing) ∪ (e.vs ∩ existing)⟩) :
    ∀ (lst : List Nat) (st st' : SyncSt), (∀ q ∈ lst, q ∈ existing) →
      scanLoop fetch snap ig existing lst st = some st' →
      (∀ p ∈ st.tree, P p.2) → ∀ p ∈ st'.tree, P p.2
  | [], st, st', _, h, hP => by
      unfold scanLoop at h
      injection h with h
      subst h
      exact hP
  | seq :: rest, st, st', hlst, h, hP => by
      have hseqex : seq ∈ existing := hlst seq (List.mem_cons_self seq rest)
      have hrest : ∀ q ∈ rest, q ∈ existing :=
        fun q hq => hlst q (List.mem_cons_of_mem seq hq)
      unfold scanLoop at h
      by_cases hseen : seq ∈ st.seen
      · rw [if_pos hseen] at h
        injection h with h
        subst h
        exact hP
      · rw [if_neg hseen] at h
        cases hf : fetch seq with
        | none =>
            rw [hf] at h
            simp only [] at h
            exact scanLoop_tree_pres P fetch snap ig existing H1 H2 H3 H4 H5
              rest st st' hrest h hP
        | some metadata =>
            rw [hf] at h
            simp only [] at h
            cases hd : dget metadata (bs "fn") with
            | none =>
                rw [hd] at h
                simp only [] at h
                exact scanLoop_tree_pres P fetch snap ig existing H1 H2 H3 H4
                  H5 rest st st' hrest h hP
            | some fp =>
                rw [hd] at h
                simp only [] at h
                cases hg : tget st.tree fp with
                | none =>
                    rw [hg] at h
                    simp only [] at h
                    rw [if_pos trivial] at h
                    have hP2 : ∀ p ∈ tset st.tree fp
                        ⟨seq, clean_metadata metadata, {seq}⟩, P p.2 := by
                      intro p hp
                      rcases mem_tset _ _ _ _ hp with hmem | hmem
                      · exact hP p hmem
                      · rw [hmem]
                        exact H1 seq metadata hseqex hf
                    by_cases hsb : fp = JVal.jstr snapshotFilePath ∧
                        ig = false
                    · rw [if_pos hsb] at h
                      cases hpm : parse_snapshot_model existing (snap seq)
                          (SyncSt.mk (tset st.tree fp
                            ⟨seq, clean_metadata metadata, {seq}⟩)
                            (insert seq st.seen) (st.distance + 1)) with
                      | none =>
                          rw [hpm] at h
                          exact absurd h (by simp)
                      | some st3 =>
                          rw [hpm] at h
                          simp only [] at h
                          have hP3 : ∀ p ∈ st3.tree, P p.2 :=
                            parse_snapshot_pres P existing (snap seq) _ st3
                              hpm
                              (fun en ss hok => H3 seq en ss hok)
                              (fun en ss hok => H4 seq en ss hok)
                              (fun en ss hok => H5 seq en ss hok) hP2
                          exact scanLoop_tree_pres P fetch snap ig existing
                            H1 H2 H3 H4 H5 rest _ st' hrest h hP3
                    · rw [if_neg hsb] at h
                      exact scanLoop_tree_pres P fetch snap ig existing H1 H2
                        H3 H4 H5 rest _ st' hrest h hP2
                | some e =>
                    rw [hg] at h
                    simp only [] at h
                    have hPe : P e := hP (fp, e) (tget_mem _ _ _ hg)
                    by_cases hlt : e.seq < seq
                    · rw [if_pos (by simpa using hlt)] at h
                      have hP2 : ∀ p ∈ tset st.tree fp
                          ⟨seq, clean_metadata metadata, insert seq e.vs⟩,
                          P p.2 := by
                        intro p hp
                        rcases mem_tset _ _ _ _ hp with hmem | hmem
                        · exact hP p hmem
                        · rw [hmem]
                          exact H2 seq metadata e hseqex hf hPe hlt
                      by_cases hsb : fp = JVal.jstr snapshotFilePath ∧
                          ig = false
                      · rw [if_pos hsb] at h
                        cases hpm : parse_snapshot_model existing (snap seq)
                            (SyncSt.mk (tset st.tree fp
                              ⟨seq, clean_metadata metadata, insert seq e.vs⟩)
                              (insert seq st.seen) (st.distance + 1)) with
                        | none =>
                            rw [hpm] at h
                            exact absurd h (by simp)
                        | some st3 =>
                            rw [hpm] at h
                            simp only [] at h
                            have hP3 : ∀ p ∈ st3.tree, P p.2 :=
                              parse_snapshot_pres P existing (snap seq) _ st3
                                hpm
                                (fun en ss hok => H3 seq en ss hok)
                                (fun en ss hok => H4 seq en ss hok)
                                (fun en ss hok => H5 seq en ss hok) hP2
                            exact scanLoop_tree_pres P fetch snap ig existing
                              H1 H2 H3 H4 H5 rest _ st' hrest h hP3
                      · rw [if_neg hsb] at h
                        exact scanLoop_tree_pres P fetch snap ig existing H1
                          H2 H3 H4 H5 rest _ st' hrest h hP2
                    · rw [if_neg (by simpa using hlt)] at h
                      exact scanLoop_tree_pres P fetch snap ig existing H1 H2
                        H3 H4 H5 rest _ st' hrest h hP

/-- The index entry invariant the spec states: the version set holds the
latest sequence and nothing newer (so `latest_seq = max(version_set)` and
the set is non-empty). -/
def EntryInv (e : SEntry) : Prop := e.seq ∈ e.vs ∧ ∀ v ∈ e.vs, v ≤ e.seq

instance (e : SEntry) : Decidable (EntryInv e) := by
  unfold EntryInv
  infer_instance

/-- A live entry's own latest sequence survives its cleanup round when it
is still on the server and the retention width is positive. -/
theorem seq_mem_keep (existing : Finset Nat) (e : SEntry) (wanted : Int)
    (hinv : EntryInv e) (h1w : 1 ≤ wanted) (hex : e.seq ∈ existing) :
    e.seq ∈ existing ∩
      (pySliceFrom (-wanted) (fsort (insert e.seq e.vs))).toFinset := by
  rw [Finset.mem_inter]
  refine ⟨hex, ?_⟩
  rw [List.mem_toFinset]
  have hne : fsort (insert e.seq e.vs) ≠ [] := by
    intro hc
    have hm : e.seq ∈ fsort (insert e.seq e.vs) :=
      (mem_fsort _ _).mpr (Finset.mem_insert_self _ _)
    rw [hc] at hm
    exact absurd hm (List.not_mem_nil _)
  have hlast : (fsort (insert e.seq e.vs)).getLast hne = e.seq := by
    apply le_antisymm
    · have hmem : (fsort (insert e.seq e.vs)).getLast hne ∈
          fsort (insert e.seq e.vs) := List.getLast_mem hne
      have hmem2 : (fsort (insert e.seq e.vs)).getLast hne ∈
          insert e.seq e.vs := (mem_fsort _ _).mp hmem
      rcases Finset.mem_insert.mp hmem2 with hcase | hcase
      · omega
      · exact hinv.2 _ hcase
    · exact sorted_le_getLast _ hne (fsort_sorted _) e.seq
        ((mem_fsort _ _).mpr (Finset.mem_insert_self _ _))
  have hmem3 := pySliceFrom_getLast_mem wanted (by omega) _ hne
  rw [hlast] at hmem3
  exact hmem3

/-- After cleanup every surviving entry keeps at most its `wanted` newest
versions. -/
theorem cleanupTree_card (existing : Finset Nat) :
    ∀ (tree tree' : List (JVal × SEntry)) (keeping : Finset Nat),
      cleanupTree existing tree = some (tree', keeping) →
      (∀ p ∈ tree, goodWanted p.2.md = true) →
      ∀ p ∈ tree', ∃ w : Int, getWanted p.2.md = some w ∧ 1 ≤ w ∧
        ((p.2.vs.card : Int) ≤ w)
  | [], tree', keeping, h, _, p, hp => by
      unfold cleanupTree at h
      injection h with h
      have htree : tree' = [] := (Prod.ext_iff.mp h).1.symm
      rw [htree] at hp
      exact absurd hp (List.not_mem_nil p)
  | (fp, e) :: rest, tree', keeping, h, hg, p, hp => by
      unfold cleanupTree at h
      have hgw : goodWanted e.md = true :=
        hg (fp, e) (List.mem_cons_self _ _)
      cases hw : getWanted e.md with
      | none =>
          rw [hw] at h
          exact absurd h (by simp)
      | some wanted =>
          rw [hw] at h
          simp only [] at h
          have h1w : (1 : Int) ≤ wanted := by
            unfold goodWanted at hgw
            rw [hw] at hgw
            simpa using hgw
          cases hrec : cleanupTree existing rest with
          | none =>
              rw [hrec] at h
              exact absurd h (by simp)
          | some pr =>
              obtain ⟨rest', keeping'⟩ := pr
              rw [hrec] at h
              simp only [] at h
              by_cases hne : (existing ∩ (pySliceFrom (-wanted)
                  (fsort (insert e.seq e.vs))).toFinset).Nonempty
              · rw [dif_pos hne] at h
                injection h with h
                have htree : tree' = (fp, ⟨(existing ∩ (pySliceFrom (-wanted)
                    (fsort (insert e.seq e.vs))).toFinset).max' hne, e.md,
                    existing ∩ (pySliceFrom (-wanted)
                      (fsort (insert e.seq e.vs))).toFinset⟩) :: rest' :=
                  (Prod.ext_iff.mp h).1.symm
                rw [htree] at hp
                rcases List.mem_cons.mp hp with hpc | hp'
                · rw [hpc]
                  refine ⟨wanted, hw, h1w, ?_⟩
                  calc ((existing ∩ (pySliceFrom (-wanted)
                        (fsort (insert e.seq e.vs))).toFinset).card : Int)
                      ≤ ((pySliceFrom (-wanted)
                          (fsort (insert e.seq e.vs))).toFinset.card : Int) := by
                        exact_mod_cast Finset.card_le_card
                          Finset.inter_subset_right
                    _ ≤ ((pySliceFrom (-wanted)
                          (fsort (insert e.seq e.vs))).length : Int) := by
                        exact_mod_cast (pySliceFrom (-wanted)
                          (fsort (insert e.seq e.vs))).toFinset_card_le
                    _ ≤ wanted := pySliceFrom_length_le wanted (by omega) _
                · exact cleanupTree_card existing rest rest' keeping' hrec
                    (fun q hq => hg q (List.mem_cons_of_mem _ hq)) p hp'
              · rw [dif_neg hne] at h
                injection h with h
                have htree : tree' = rest' := (Prod.ext_iff.mp h).1.symm
                rw [htree] at hp
                exact cleanupTree_card existing rest rest' keeping' hrec
                  (fun q hq => hg q (List.mem_cons_of_mem _ hq)) p hp

/-- Cleanup re-establishes the entry invariant unconditionally: a kept
entry's latest sequence is the maximum of its kept version set. -/
theorem cleanupTree_entryInv (existing : Finset Nat) :
    ∀ (tree tree' : List (JVal × SEntry)) (keeping : Finset Nat),
      cleanupTree existing tree = some (tree', keeping) →
      ∀ p ∈ tree', EntryInv p.2
  | [], tree', keeping, h, p, hp => by
      unfold cleanupTree at h
      injection h with h
      have htree : tree' = [] := (Prod.ext_iff.mp h).1.symm
      rw [htree] at hp
      exact absurd hp (List.not_mem_nil p)
  | (fp, e) :: rest, tree', keeping, h, p, hp => by
      unfold cleanupTree at h
      cases hw : getWanted e.md with
      | none =>
          rw [hw] at h
          exact absurd h (by simp)
      | some wanted =>
          rw [hw] at h
          simp only [] at h
          cases hrec : cleanupTree existing rest with
          | none =>
              rw [hrec] at h
              exact absurd h (by simp)
          | some pr =>
              obtain ⟨rest', keeping'⟩ := pr
              rw [hrec] at h
              simp only [] at h
              by_cases hne : (existing ∩ (pySliceFrom (-wanted)
                  (fsort (insert e.seq e.vs))).toFinset).Nonempty
              · rw [dif_pos hne] at h
                injection h with h
                have htree : tree' = (fp, ⟨(existing ∩ (pySliceFrom (-wanted)
                    (fsort (insert e.seq e.vs))).toFinset).max' hne, e.md,
                    existing ∩ (pySliceFrom (-wanted)
                      (fsort (insert e.seq e.vs))).toFinset⟩) :: rest' :=
                  (Prod.ext_iff.mp h).1.symm
                rw [htree] at hp
                rcases List.mem_cons.mp hp with hpc | hp'
                · rw [hpc]
                  exact ⟨Finset.max'_mem _ hne,
                    fun v hv => Finset.le_max' _ v hv⟩
                · exact cleanupTree_entryInv existing rest rest' keeping'
                    hrec p hp'
              · rw [dif_neg hne] at h
                injection h with h
                have htree : tree' = rest' := (Prod.ext_iff.mp h).1.symm
                rw [htree] at hp
                exact cleanupTree_entryInv existing rest rest' keeping'
                  hrec p hp

/-- Cleanup never lowers an entry's latest sequence when the entry
satisfies the invariant, its retention width is positive and its latest
sequence still exists on the server. -/
theorem cleanupTree_mono (existing : Finset Nat) :
    ∀ (tree tree' : List (JVal × SEntry)) (keeping : Finset Nat),
      cleanupTree existing tree = some (tree', keeping) →
      (∀ p ∈ tree, EntryInv p.2 ∧ goodWanted p.2.md = true ∧
        p.2.seq ∈ existing) →
      ∀ fp e, tget tree fp = some e →
        ∃ e', tget tree' fp = some e' ∧ e.seq ≤ e'.seq
  | [], tree', keeping, h, _, fp, e, hg => by
      unfold tget at hg
      exact absurd hg (by simp)
  | (fp0, e0) :: rest, tree', keeping, h, hinv, fp, e, hg => by
      unfold cleanupTree at h
      have h0 := hinv (fp0, e0) (List.mem_cons_self _ _)
      cases hw : getWanted e0.md with
      | none =>
          rw [hw] at h
          exact absurd h (by simp)
      | some wanted =>
          rw [hw] at h
          simp only [] at h
          have h1w : (1 : Int) ≤ wanted := by
            have := h0.2.1
            unfold goodWanted at this
            rw [hw] at this
            simpa using this
          cases hrec : cleanupTree existing rest with
          | none =>
              rw [hrec] at h
              exact absurd h (by simp)
          | some pr =>
              obtain ⟨rest', keeping'⟩ := pr
              rw [hrec] at h
              simp only [] at h
              have hkeepm := seq_mem_keep existing e0 wanted h0.1 h1w h0.2.2
              have hne : (existing ∩ (pySliceFrom (-wanted)
                  (fsort (insert e0.seq e0.vs))).toFinset).Nonempty :=
                ⟨e0.seq, hkeepm⟩
              rw [dif_pos hne] at h
              injection h with h
              have htree : tree' = (fp0, ⟨(existing ∩ (pySliceFrom (-wanted)
                  (fsort (insert e0.seq e0.vs))).toFinset).max' hne, e0.md,
                  existing ∩ (pySliceFrom (-wanted)
                    (fsort (insert e0.seq e0.vs))).toFinset⟩) :: rest' :=
                (Prod.ext_iff.mp h).1.symm
              unfold tget at hg
              by_cases hfp : fp0 = fp
              · rw [if_pos hfp] at hg
                injection hg with hg
                subst hg
                refine ⟨⟨(existing ∩ (pySliceFrom (-wanted)
                    (fsort (insert e0.seq e0.vs))).toFinset).max' hne, e0.md,
                    existing ∩ (pySliceFrom (-wanted)
                      (fsort (insert e0.seq e0.vs))).toFinset⟩, ?_, ?_⟩
                · rw [htree]
                  unfold tget
                  rw [if_pos hfp]
                · exact Finset.le_max' _ _ hkeepm
              · rw [if_neg hfp] at hg
                obtain ⟨e', he', hle⟩ := cleanupTree_mono existing rest rest'
                  keeping' hrec
                  (fun q hq => hinv q (List.mem_cons_of_mem _ hq)) fp e hg
                refine ⟨e', ?_, hle⟩
                rw [htree]
                unfold tget
                rw [if_neg hfp]
                exact he'

/-- Split a completed `synchronize` into its scan, cleanup and final
seen-mask stages. -/
theorem synchronize_model_parts (fetch : Nat → Option PyDict)
    (snap : Nat → SnapResult) (cu ig eok : Bool) (seqs : List Nat)
    (st0 st' : SyncSt)
    (h : synchronize_model fetch snap cu ig eok seqs st0 = some st') :
    ∃ st1 st2,
      scanLoop fetch snap ig seqs.toFinset (sortNat seqs).reverse st0 =
        some st1 ∧
      (if cu then cleanup_phase seqs.toFinset eok st1 else some st1) =
        some st2 ∧
      st' = ⟨st2.tree, st2.seen ∩ seqs.toFinset, st2.distance⟩ := by
  unfold synchronize_model at h
  simp only [] at h
  cases hsc : scanLoop fetch snap ig seqs.toFinset (sortNat seqs).reverse
      st0 with
  | none =>
      rw [hsc] at h
      exact absurd h (by simp)
  | some st1 =>
      rw [hsc] at h
      simp only [] at h
      cases hcl : (if cu then cleanup_phase seqs.toFinset eok st1
          else some st1) with
      | none =>
          rw [hcl] at h
          exact absurd h (by simp)
      | some st2 =>
          rw [hcl] at h
          simp only [] at h
          injection h with h
          exact ⟨st1, st2, rfl, hcl, h.symm⟩

/-- Split a completed cleanup phase into the tree rebuild and the seen
update. -/
theorem cleanup_phase_parts (existing : Finset Nat) (eok : Bool)
    (st st2 : SyncSt) (h : cleanup_phase existing eok st = some st2) :
    ∃ tree' keeping, cleanupTree existing st.tree = some (tree', keeping) ∧
      st2.tree = tree' := by
  unfold cleanup_phase at h
  cases hct : cleanupTree existing st.tree with
  | none =>
      rw [hct] at h
      exact absurd h (by simp)
  | some pr =>
      obtain ⟨tree', keeping⟩ := pr
      rw [hct] at h
      simp only [] at h
      injection h with h
      exact ⟨tree', keeping, rfl, by rw [← h]⟩

/-! ### C3: the retention bound -/

/-- C3 (corrected): after `synchronize(cleanup=True)` completes, every
index entry keeps at most `metadata.versions` sequences (default 1),
provided every `versions` value that can reach the index — in the prior
index, in fetched metadata and in ingested snapshots — is a positive int.
(With `versions = 0` the slice `sorted(versions)[-0:]` keeps everything,
so the unqualified claim fails.) -/
theorem C3_retention_bound (fetch : Nat → Option PyDict)
    (snap : Nat → SnapResult) (ig eok : Bool) (seqs : List Nat)
    (st0 st' : SyncSt)
    (hres : synchronize_model fetch snap true ig eok seqs st0 = some st')
    (h0 : ∀ p ∈ st0.tree, goodWanted p.2.md = true)
    (hfq : ∀ q md, fetch q = some md →
        goodWanted (clean_metadata md) = true)
    (hsq : ∀ q entries ss, snap q = .ok entries ss →
        ∀ ent ∈ entries, goodWanted ent.2.2.1 = true)
    (p : JVal × SEntry) (hp : p ∈ st'.tree) :
    ∃ w : Int, getWanted p.2.md = some w ∧ 1 ≤ w ∧
      ((p.2.vs.card : Int) ≤ w) := by
  obtain ⟨st1, st2, hscan, hclean, hst'⟩ :=
    synchronize_model_parts fetch snap true ig eok seqs st0 st' hres
  rw [if_pos rfl] at hclean
  have h1 : ∀ q ∈ st1.tree, goodWanted q.2.md = true := by
    refine scanLoop_tree_pres (fun e => goodWanted e.md = true) fetch snap ig
      seqs.toFinset
      (fun seq md _ hf => hfq seq md hf)
      (fun seq md e _ hf _ _ => hfq seq md hf)
      (fun q entries ss hok ent hent _ => hsq q entries ss hok ent hent)
      (fun q entries ss hok ent hent e _ _ hPe => hPe)
      (fun q entries ss hok ent hent e _ _ _ => hsq q entries ss hok ent hent)
      (sortNat seqs).reverse st0 st1 ?_ hscan h0
    intro q hq
    rw [List.mem_reverse] at hq
    rw [List.mem_toFinset]
    exact ((List.perm_insertionSort (· ≤ ·) seqs).mem_iff).mp hq
  obtain ⟨tree', keeping, hct, htree⟩ :=
    cleanup_phase_parts seqs.toFinset eok st1 st2 hclean
  have hp2 : p ∈ tree' := by
    rw [hst'] at hp
    simp only [] at hp
    rw [htree] at hp
    exact hp
  obtain ⟨w, hw, h1w, hcard⟩ :=
    cleanupTree_card seqs.toFinset st1.tree tree' keeping hct h1 p hp2
  exact ⟨w, hw, h1w, hcard⟩

/-- A concrete pre-sync state with a `versions = 0` entry holding two
stored versions. -/
def stC3 : SyncSt :=
  ⟨[(.jstr (bs "f"), ⟨2, [(bs "versions", .jint 0)], {1, 2}⟩)], {1, 2}, 0⟩

/-- C3 counterexample: with `versions = 0`, cleanup keeps both stored
versions — `sorted(versions)[-0:]` is the whole list — so the claimed
bound `|version_set| ≤ versions` fails. -/
theorem C3_counterexample :
    synchronize_model (fun _ => none) (fun _ => .valueError) true true true
      [1, 2] stC3 = some stC3 ∧
    tget stC3.tree (.jstr (bs "f")) =
      some ⟨2, [(bs "versions", .jint 0)], {1, 2}⟩ ∧
    getWanted [(bs "versions", .jint 0)] = some 0 ∧
    ¬ (((({1, 2} : Finset Nat)).card : Int) ≤ 0) := by
  refine ⟨by decide, by decide, by decide, by decide⟩

/-- A concrete pre-sync state with a well-behaved `versions = 1` entry. -/
def stC3w : SyncSt :=
  ⟨[(.jstr (bs "f"), ⟨2, [(bs "versions", .jint 1)], {1, 2}⟩)], {2}, 0⟩

/-- C3 witness: the corrected retention bound at a concrete cleanup that
trims an entry from two versions to one. -/
theorem C3_retention_bound_witness :
    ∃ w : Int,
      getWanted ((.jstr (bs "f"),
        (⟨2, [(bs "versions", .jint 1)], {2}⟩ : SEntry)) :
          JVal × SEntry).2.md = some w ∧ 1 ≤ w ∧
      ((((.jstr (bs "f"),
        (⟨2, [(bs "versions", .jint 1)], {2}⟩ : SEntry)) :
          JVal × SEntry).2.vs.card : Int) ≤ w) :=
  C3_retention_bound (fun _ => none) (fun _ => .valueError) true true [1, 2]
    stC3w ⟨[(.jstr (bs "f"), ⟨2, [(bs "versions", .jint 1)], {2}⟩)], {2}, 0⟩
    (by decide) (by decide)
    (fun q md h => Option.noConfusion h)
    (fun q entries ss h => SnapResult.noConfusion h)
    (.jstr (bs "f"), ⟨2, [(bs "versions", .jint 1)], {2}⟩) (by decide)

/-! ### C4: the index entry invariant -/

/-- C4 (corrected): across a completed `synchronize` — reverse-scan
updates, optional cleanup and snapshot ingest — every index entry keeps
`latest_seq = max(version_set)` with a non-empty version set, provided
ingested snapshot entries are themselves well-formed (each lists its own
sequence among its versions and nothing newer).  A malformed snapshot
entry can break the invariant via the in-place version-set update in
`_parse_snapshot`. -/
theorem C4_index_invariant (fetch : Nat → Option PyDict)
    (snap : Nat → SnapResult) (cu ig eok : Bool) (seqs : List Nat)
    (st0 st' : SyncSt)
    (hres : synchronize_model fetch snap cu ig eok seqs st0 = some st')
    (h0 : ∀ p ∈ st0.tree, EntryInv p.2)
    (hsnapWF : ∀ q entries ss, snap q = .ok entries ss → ∀ ent ∈ entries,
        ent.2.1 ∈ ent.2.2.2 ∧ ∀ v ∈ ent.2.2.2, v ≤ ent.2.1)
    (p : JVal × SEntry) (hp : p ∈ st'.tree) : EntryInv p.2 := by
  obtain ⟨st1, st2, hscan, hclean, hst'⟩ :=
    synchronize_model_parts fetch snap cu ig eok seqs st0 st' hres
  have h1 : ∀ q ∈ st1.tree, EntryInv q.2 := by
    refine scanLoop_tree_pres EntryInv fetch snap ig seqs.toFinset
      ?_ ?_ ?_ ?_ ?_ (sortNat seqs).reverse st0 st1 ?_ hscan h0
    · intro seq md _ _
      exact ⟨Finset.mem_singleton_self seq, fun v hv =>
        le_of_eq (Finset.mem_singleton.mp hv)⟩
    · intro seq md e _ _ hPe hlt
      refine ⟨Finset.mem_insert_self _ _, fun v hv => ?_⟩
      rcases Finset.mem_insert.mp hv with rfl | hv'
      · exact le_refl v
      · exact le_trans (hPe.2 v hv') (Nat.le_of_lt hlt)
    · intro q entries ss hok ent hent hex
      obtain ⟨hm, hb⟩ := hsnapWF q entries ss hok ent hent
      refine ⟨Finset.mem_inter.mpr ⟨List.mem_toFinset.mpr hm, hex⟩,
        fun v hv => ?_⟩
      exact hb v (List.mem_toFinset.mp (Finset.mem_inter.mp hv).1)
    · intro q entries ss hok ent hent e hex hle hPe
      obtain ⟨hm, hb⟩ := hsnapWF q entries ss hok ent hent
      refine ⟨Finset.mem_union_left _ hPe.1, fun v hv => ?_⟩
      rcases Finset.mem_union.mp hv with hv' | hv'
      · exact hPe.2 v hv'
      · rcases Finset.mem_union.mp hv' with hv2 | hv2
        · exact le_trans
            (hb v (List.mem_toFinset.mp (Finset.mem_inter.mp hv2).1)) hle
        · exact hPe.2 v (Finset.mem_inter.mp hv2).1
    · intro q entries ss hok ent hent e hex hlt hPe
      obtain ⟨hm, hb⟩ := hsnapWF q entries ss hok ent hent
      refine ⟨Finset.mem_union_left _
        (Finset.mem_inter.mpr ⟨List.mem_toFinset.mpr hm, hex⟩),
        fun v hv => ?_⟩
      rcases Finset.mem_union.mp hv with hv' | hv'
      · exact hb v (List.mem_toFinset.mp (Finset.mem_inter.mp hv').1)
      · exact le_trans (hPe.2 v (Finset.mem_inter.mp hv').1)
          (Nat.le_of_lt hlt)
    · intro q hq
      rw [List.mem_reverse] at hq
      rw [List.mem_toFinset]
      exact ((List.perm_insertionSort (· ≤ ·) seqs).mem_iff).mp hq
  cases hcu : cu with
  | false =>
      rw [hcu, if_neg (by simp)] at hclean
      injection hclean with hclean
      subst hclean
      rw [hst'] at hp
      exact h1 p hp
  | true =>
      rw [hcu, if_pos rfl] at hclean
      obtain ⟨tree', keeping, hct, htree⟩ :=
        cleanup_phase_parts seqs.toFinset eok st1 st2 hclean
      have hp2 : p ∈ tree' := by
        rw [hst'] at hp
        simp only [] at hp
        rw [htree] at hp
        exact hp
      exact cleanupTree_entryInv seqs.toFinset st1.tree tree' keeping hct
        p hp2

/-- The pre-sync state of the C4 counterexample: one well-formed entry. -/
def stC4 : SyncSt := ⟨[(.jstr (bs "f"), ⟨5, [], {5}⟩)], {10}, 0⟩

/-- C4 counterexample: ingesting a snapshot whose entry for `f` claims
sequence 3 but lists version 10 grows the existing entry's version set in
place to `{5, 10}` while `latest_seq` stays 5, so `latest_seq =
max(version_set)` fails even though the starting index satisfied it. -/
theorem C4_counterexample :
    ((synchronize_model
      (fun q => if q = 12 then some [(bs "fn", .jstr snapshotFilePath)]
        else none)
      (fun q => if q = 12 then .ok [(.jstr (bs "f"), (3, [], [10]))] []
        else .valueError)
      false false true [3, 5, 10, 12] stC4).map (fun st =>
        st.tree.map (fun p =>
          (p.1, p.2.seq, fsort p.2.vs, decide (EntryInv p.2)))))
    = some [(.jstr (bs "f"), 5, [5, 10], false),
        (.jstr snapshotFilePath, 12, [12], true)] ∧
    ∀ p ∈ stC4.tree, EntryInv p.2 := by
  exact ⟨by decide, by decide⟩

/-- C4 witness: the invariant after a concrete completed sync with
cleanup. -/
theorem C4_index_invariant_witness :
    EntryInv ((.jstr (bs "f"),
      (⟨1, [], {1}⟩ : SEntry)) : JVal × SEntry).2 :=
  C4_index_invariant (fun _ => none) (fun _ => .valueError) true true true
    [1] ⟨[(.jstr (bs "f"), ⟨1, [], {1}⟩)], {1}, 0⟩
    ⟨[(.jstr (bs "f"), ⟨1, [], {1}⟩)], {1}, 0⟩
    (by decide) (by decide)
    (fun q entries ss h => SnapResult.noConfusion h)
    (.jstr (bs "f"), ⟨1, [], {1}⟩) (by decide)

/-! ### C5: monotonicity of `latest_seq` -/

/-- One snapshot-entry ingest never lowers any entry's latest sequence. -/
theorem ingestEntry_mono (existing : Finset Nat)
    (tree : List (JVal × SEntry)) (fpI : JVal) (sq : Nat) (smd : PyDict)
    (svl : List Nat) (fp : JVal) (e : SEntry)
    (hg : tget tree fp = some e) :
    ∃ e', tget (ingestEntry existing tree fpI sq smd svl) fp = some e' ∧
      e.seq ≤ e'.seq := by
  unfold ingestEntry
  by_cases hsq : sq ∉ existing
  · rw [if_pos hsq]
    exact ⟨e, hg, le_refl _⟩
  · rw [if_neg hsq]
    simp only []
    cases hgI : tget tree fpI with
    | none =>
        simp only []
        by_cases hfp : fp = fpI
        · subst hfp
          rw [hg] at hgI
          exact absurd hgI (by simp)
        · rw [tget_tset, if_neg hfp]
          exact ⟨e, hg, le_refl _⟩
    | some eI =>
        simp only []
        by_cases hgt : sq > eI.seq
        · rw [if_pos hgt, tset_tset]
          by_cases hfp : fp = fpI
          · subst hfp
            rw [hg] at hgI
            injection hgI with hgI
            rw [tget_tset, if_pos rfl]
            exact ⟨_, rfl, by rw [hgI]; show eI.seq ≤ sq; omega⟩
          · rw [tget_tset, if_neg hfp]
            exact ⟨e, hg, le_refl _⟩
        · rw [if_neg hgt]
          by_cases hfp : fp = fpI
          · subst hfp
            rw [hg] at hgI
            injection hgI with hgI
            rw [tget_tset, if_pos rfl]
            exact ⟨_, rfl, by rw [hgI]⟩
          · rw [tget_tset, if_neg hfp]
            exact ⟨e, hg, le_refl _⟩

/-- The whole snapshot ingest loop never lowers a latest sequence. -/
theorem ingest_foldl_mono (existing : Finset Nat) :
    ∀ (entries : List (JVal × Nat × PyDict × List Nat))
      (tree : List (JVal × SEntry)) (fp : JVal) (e : SEntry),
      tget tree fp = some e →
      ∃ e', tget (entries.foldl
        (fun t ent => ingestEntry existing t ent.1 ent.2.1 ent.2.2.1 ent.2.2.2)
        tree) fp = some e' ∧ e.seq ≤ e'.seq
  | [], tree, fp, e, hg => ⟨e, hg, le_refl _⟩
  | ent :: rest, tree, fp, e, hg => by
      rw [List.foldl_cons]
      obtain ⟨e1, hg1, hle1⟩ := ingestEntry_mono existing tree ent.1 ent.2.1
        ent.2.2.1 ent.2.2.2 fp e hg
      obtain ⟨e', hg', hle'⟩ := ingest_foldl_mono existing rest _ fp e1 hg1
      exact ⟨e', hg', le_trans hle1 hle'⟩

/-- `_parse_snapshot` never lowers a latest sequence. -/
theorem parse_snapshot_mono (existing : Finset Nat) (res : SnapResult)
    (st st' : SyncSt) (h : parse_snapshot_model existing res st = some st')
    (fp : JVal) (e : SEntry) (hg : tget st.tree fp = some e) :
    ∃ e', tget st'.tree fp = some e' ∧ e.seq ≤ e'.seq := by
  cases res with
  | ok entries snapSeen =>
      unfold parse_snapshot_model at h
      injection h with h
      subst h
      exact ingest_foldl_mono existing entries st.tree fp e hg
  | valueError =>
      unfold parse_snapshot_model at h
      injection h with h
      subst h
      exact ⟨e, hg, le_refl _⟩
  | uncaught =>
      unfold parse_snapshot_model at h
      exact absurd h (by simp)

/-- The reverse scan never lowers a latest sequence. -/
theorem scanLoop_mono (fetch : Nat → Option PyDict)
    (snap : Nat → SnapResult) (ig : Bool) (existing : Finset Nat) :
    ∀ (lst : List Nat) (st st' : SyncSt),
      scanLoop fetch snap ig existing lst st = some st' →
      ∀ fpT eT, tget st.tree fpT = some eT →
        ∃ e', tget st'.tree fpT = some e' ∧ eT.seq ≤ e'.seq
  | [], st, st', h, fpT, eT, hgT => by
      unfold scanLoop at h
      injection h with h
      subst h
      exact ⟨eT, hgT, le_refl _⟩
  | seq :: rest, st, st', h, fpT, eT, hgT => by
      unfold scanLoop at h
      by_cases hseen : seq ∈ st.seen
      · rw [if_pos hseen] at h
        injection h with h
        subst h
        exact ⟨eT, hgT, le_refl _⟩
      · rw [if_neg hseen] at h
        cases hf : fetch seq with
        | none =>
            rw [hf] at h
            simp only [] at h
            exact scanLoop_mono fetch snap ig existing rest st st' h fpT eT
              hgT
        | some metadata =>
            rw [hf] at h
            simp only [] at h
            cases hd : dget metadata (bs "fn") with
            | none =>
                rw [hd] at h
                simp only [] at h
                exact scanLoop_mono fetch snap ig existing rest st st' h fpT
                  eT hgT
            | some fp =>
                rw [hd] at h
                simp only [] at h
                cases hg : tget st.tree fp with
                | none =>
                    rw [hg] at h
                    simp only [] at h
                    rw [if_pos trivial] at h
                    have hstep : ∀ fpT eT, tget st.tree fpT = some eT →
                        ∃ e2, tget (tset st.tree fp
                          ⟨seq, clean_metadata metadata, {seq}⟩) fpT =
                            some e2 ∧ eT.seq ≤ e2.seq := by
                      intro fpT eT hgT
                      by_cases hfp : fpT = fp
                      · subst hfp
                        rw [hgT] at hg
                        exact absurd hg (by simp)
                      · rw [tget_tset, if_neg hfp]
                        exact ⟨eT, hgT, le_refl _⟩
                    obtain ⟨e2, hg2, hle2⟩ := hstep fpT eT hgT
                    by_cases hsb : fp = JVal.jstr snapshotFilePath ∧
                        ig = false
                    · rw [if_pos hsb] at h
                      cases hpm : parse_snapshot_model existing (snap seq)
                          (SyncSt.mk (tset st.tree fp
                            ⟨seq, clean_metadata metadata, {seq}⟩)
                            (insert seq st.seen) (st.distance + 1)) with
                      | none =>
                          rw [hpm] at h
                          exact absurd h (by simp)
                      | some st3 =>
                          rw [hpm] at h
                          simp only [] at h
                          obtain ⟨e3, hg3, hle3⟩ := parse_snapshot_mono
                            existing (snap seq) _ st3 hpm fpT e2 hg2
                          obtain ⟨e', hg', hle'⟩ := scanLoop_mono fetch snap
                            ig existing rest st3 st' h fpT e3 hg3
                          exact ⟨e', hg', le_trans hle2
                            (le_trans hle3 hle')⟩
                    · rw [if_neg hsb] at h
                      obtain ⟨e', hg', hle'⟩ := scanLoop_mono fetch snap ig
                        existing rest _ st' h fpT e2 hg2
                      exact ⟨e', hg', le_trans hle2 hle'⟩
                | some e =>
                    rw [hg] at h
                    simp only [] at h
                    by_cases hlt : e.seq < seq
                    · rw [if_pos (by simpa using hlt)] at h
                      have hstep : ∀ fpT eT, tget st.tree fpT = some eT →
                          ∃ e2, tget (tset st.tree fp
                            ⟨seq, clean_metadata metadata, insert seq e.vs⟩)
                              fpT = some e2 ∧ eT.seq ≤ e2.seq := by
                        intro fpT eT hgT
                        by_cases hfp : fpT = fp
                        · subst hfp
                          rw [hgT] at hg
                          injection hg with hg
                          rw [tget_tset, if_pos rfl]
                          refine ⟨_, rfl, ?_⟩
                          rw [hg]
                          show e.seq ≤ seq
                          omega
                        · rw [tget_tset, if_neg hfp]
                          exact ⟨eT, hgT, le_refl _⟩
                      obtain ⟨e2, hg2, hle2⟩ := hstep fpT eT hgT
                      by_cases hsb : fp = JVal.jstr snapshotFilePath ∧
                          ig = false
                      · rw [if_pos hsb] at h
                        cases hpm : parse_snapshot_model existing (snap seq)
                            (SyncSt.mk (tset st.tree fp
                              ⟨seq, clean_metadata metadata, insert seq e.vs⟩)
                              (insert seq st.seen) (st.distance + 1)) with
                        | none =>
                            rw [hpm] at h
                            exact absurd h (by simp)
                        | some st3 =>
                            rw [hpm] at h
                            simp only [] at h
                            obtain ⟨e3, hg3, hle3⟩ := parse_snapshot_mono
                              existing (snap seq) _ st3 hpm fpT e2 hg2
                            obtain ⟨e', hg', hle'⟩ := scanLoop_mono fetch
                              snap ig existing rest st3 st' h fpT e3 hg3
                            exact ⟨e', hg', le_trans hle2
                              (le_trans hle3 hle')⟩
                      · rw [if_neg hsb] at h
                        obtain ⟨e', hg', hle'⟩ := scanLoop_mono fetch snap
                          ig existing rest _ st' h fpT e2 hg2
                        exact ⟨e', hg', le_trans hle2 hle'⟩
                    · rw [if_neg (by simpa using hlt)] at h
                      exact scanLoop_mono fetch snap ig existing rest _ st'
                        h fpT eT hgT

/-- C5 (corrected): across one completed `synchronize` — with or without
cleanup and snapshot ingest — no index entry's `latest_seq` decreases,
provided the starting index satisfies the entry invariant, every
retention width in play is a positive int, every ingested snapshot entry
is well-formed, and each starting entry's latest sequence is still among
the sequences present on the server.  (When the server has dropped an
entry's latest sequence, cleanup rebuilds the entry from the surviving
versions and `latest_seq` can decrease.) -/
theorem C5_latest_monotone (fetch : Nat → Option PyDict)
    (snap : Nat → SnapResult) (cu ig eok : Bool) (seqs : List Nat)
    (st0 st' : SyncSt)
    (hres : synchronize_model fetch snap cu ig eok seqs st0 = some st')
    (h0 : ∀ p ∈ st0.tree, EntryInv p.2 ∧ goodWanted p.2.md = true ∧
        p.2.seq ∈ seqs.toFinset)
    (hfq : ∀ q md, fetch q = some md →
        goodWanted (clean_metadata md) = true)
    (hsnap : ∀ q entries ss, snap q = .ok entries ss → ∀ ent ∈ entries,
        (ent.2.1 ∈ ent.2.2.2 ∧ ∀ v ∈ ent.2.2.2, v ≤ ent.2.1) ∧
        goodWanted ent.2.2.1 = true)
    (fp : JVal) (e : SEntry) (hg : tget st0.tree fp = some e) :
    ∃ e', tget st'.tree fp = some e' ∧ e.seq ≤ e'.seq := by
  obtain ⟨st1, st2, hscan, hclean, hst'⟩ :=
    synchronize_model_parts fetch snap cu ig eok seqs st0 st' hres
  have h1 : ∀ p ∈ st1.tree, EntryInv p.2 ∧ goodWanted p.2.md = true ∧
      p.2.seq ∈ seqs.toFinset := by
    refine scanLoop_tree_pres
      (fun en => EntryInv en ∧ goodWanted en.md = true ∧
        en.seq ∈ seqs.toFinset)
      fetch snap ig seqs.toFinset ?_ ?_ ?_ ?_ ?_
      (sortNat seqs).reverse st0 st1 ?_ hscan h0
    · intro seq md hex hf
      exact ⟨⟨Finset.mem_singleton_self seq, fun v hv =>
        le_of_eq (Finset.mem_singleton.mp hv)⟩, hfq seq md hf, hex⟩
    · intro seq md en hex hf hPe hlt
      refine ⟨⟨Finset.mem_insert_self _ _, fun v hv => ?_⟩,
        hfq seq md hf, hex⟩
      rcases Finset.mem_insert.mp hv with rfl | hv'
      · exact le_refl v
      · exact le_trans (hPe.1.2 v hv') (Nat.le_of_lt hlt)
    · intro q entries ss hok ent hent hex
      obtain ⟨⟨hm, hb⟩, hgw⟩ := hsnap q entries ss hok ent hent
      refine ⟨⟨Finset.mem_inter.mpr ⟨List.mem_toFinset.mpr hm, hex⟩,
        fun v hv => ?_⟩, hgw, hex⟩
      exact hb v (List.mem_toFinset.mp (Finset.mem_inter.mp hv).1)
    · intro q entries ss hok ent hent en hex hle hPe
      obtain ⟨⟨hm, hb⟩, hgw⟩ := hsnap q entries ss hok ent hent
      refine ⟨⟨Finset.mem_union_left _ hPe.1.1, fun v hv => ?_⟩,
        hPe.2.1, hPe.2.2⟩
      rcases Finset.mem_union.mp hv with hv' | hv'
      · exact hPe.1.2 v hv'
      · rcases Finset.mem_union.mp hv' with hv2 | hv2
        · exact le_trans
            (hb v (List.mem_toFinset.mp (Finset.mem_inter.mp hv2).1)) hle
        · exact hPe.1.2 v (Finset.mem_inter.mp hv2).1
    · intro q entries ss hok ent hent en hex hlt hPe
      obtain ⟨⟨hm, hb⟩, hgw⟩ := hsnap q entries ss hok ent hent
      refine ⟨⟨Finset.mem_union_left _
        (Finset.mem_inter.mpr ⟨List.mem_toFinset.mpr hm, hex⟩),
        fun v hv => ?_⟩, hgw, hex⟩
      rcases Finset.mem_union.mp hv with hv' | hv'
      · exact hb v (List.mem_toFinset.mp (Finset.mem_inter.mp hv').1)
      · exact le_trans (hPe.1.2 v (Finset.mem_inter.mp hv').1)
          (Nat.le_of_lt hlt)
    · intro q hq
      rw [List.mem_reverse] at hq
      rw [List.mem_toFinset]
      exact ((List.perm_insertionSort (· ≤ ·) seqs).mem_iff).mp hq
  obtain ⟨e1, hg1, hle1⟩ := scanLoop_mono fetch snap ig seqs.toFinset
    (sortNat seqs).reverse st0 st1 hscan fp e hg
  cases hcu : cu with
  | false =>
      rw [hcu, if_neg (by simp)] at hclean
      injection hclean with hclean
      subst hclean
      rw [hst']
      exact ⟨e1, hg1, hle1⟩
  | true =>
      rw [hcu, if_pos rfl] at hclean
      obtain ⟨tree', keeping, hct, htree⟩ :=
        cleanup_phase_parts seqs.toFinset eok st1 st2 hclean
      obtain ⟨e2, hg2, hle2⟩ := cleanupTree_mono seqs.toFinset st1.tree
        tree' keeping hct h1 fp e1 hg1
      refine ⟨e2, ?_, le_trans hle1 hle2⟩
      rw [hst']
      show tget st2.tree fp = some e2
      rw [htree]
      exact hg2

/-- The pre-sync state of the C5 counterexample: latest sequence 10 with
`versions = 2`, but sequence 10 no longer exists on the server. -/
def stC5 : SyncSt :=
  ⟨[(.jstr (bs "f"), ⟨10, [(bs "versions", .jint 2)], {3, 10}⟩)], {3}, 0⟩

/-- C5 counterexample: when the server has expunged the entry's latest
sequence (existing = {3}), cleanup rebuilds the entry from the surviving
versions and `latest_seq` drops from 10 to 3 across the sync. -/
theorem C5_counterexample :
    ((synchronize_model (fun _ => none) (fun _ => .valueError) true true
      true [3] stC5).map (fun st =>
        st.tree.map (fun p => (p.1, p.2.seq, fsort p.2.vs))))
    = some [(.jstr (bs "f"), 3, [3])] ∧
    tget stC5.tree (.jstr (bs "f")) =
      some ⟨10, [(bs "versions", .jint 2)], {3, 10}⟩ ∧
    ¬ ((10 : Nat) ≤ 3) := by
  exact ⟨by decide, by decide, by decide⟩

/-- C5 witness: the corrected monotonicity at a concrete sync with
cleanup whose entry's latest sequence is still on the server. -/
theorem C5_latest_monotone_witness :
    ∃ e', tget (SyncSt.tree ⟨[(.jstr (bs "f"), ⟨2, [], {2}⟩)], {2}, 0⟩)
        (.jstr (bs "f")) = some e' ∧
      (⟨2, [], ({2} : Finset Nat)⟩ : SEntry).seq ≤ e'.seq :=
  C5_latest_monotone (fun _ => none) (fun _ => .valueError) true true true
    [2] ⟨[(.jstr (bs "f"), ⟨2, [], {2}⟩)], {2}, 0⟩
    ⟨[(.jstr (bs "f"), ⟨2, [], {2}⟩)], {2}, 0⟩
    (by decide) (by decide)
    (fun q md h => Option.noConfusion h)
    (fun q entries ss h => SnapResult.noConfusion h)
    (.jstr (bs "f")) ⟨2, [], {2}⟩ (by decide)

end Mailfile
